import Mathlib

/-!
# Verification of the concurrent B+ tree (`b_plus_tree`)

Shallow embedding of the C++ sources (`base_node.h` / `leaf_node.h` /
`internal_node.h` / `b_plus_tree.h` and their implementation files) into Lean.

Modelling conventions:
* C++ `std::vector` fields become Lean `List`s.  The C++ code keeps the
  `size` member equal to `keys.size()` on every path exercised here, so
  `size` is modelled as the list length.
* Values (`uint64_t`) are modelled as `Nat`; they are only stored and
  returned, never overflow-manipulated.
* Keys are a type `K` with a `LinearOrder` (the C++ code instantiates
  `int` and `std::string`, both totally ordered with these operations).
* `std::lower_bound` on a sorted range returns the first position whose key
  is `≥ k`; on the sorted `keys` vectors the code calls it on, this equals
  the length of the maximal prefix of keys `< k`, which is how `find_index`
  is modelled.
* In-bounds vector accesses are modelled with `List.get` / `List.getD`;
  accesses whose bounds the C++ code does **not** guarantee are modelled
  with `List.get?`, so an out-of-bounds access is visible as `none`.
* The leaf `prev`/`next` pointers are represented two ways: the global tree
  model derives the leaf chain from the tree shape (the code maintains the
  chain exactly in leaf order), while `LeafNode::split`'s pointer surgery is
  modelled separately on an explicit id-addressed store of leaf objects.
-/

set_option linter.unusedVariables false
set_option linter.unusedSectionVars false
set_option linter.unnecessarySeqFocus false

namespace BPT

/-- C++ `uint64_t` values; only stored and compared, so `Nat` suffices. -/
abbrev V := Nat

/-- `BaseNode` and its two subclasses (`LeafNode`, `InternalNode`), as a
closed two-case variant.  `is_leaf` is the constructor tag; `size` is the
length of `keys`; an internal node's `children` sit next to its keys. -/
inductive Node (K : Type) where
  | leaf (keys : List K) (vals : List V)
  | internal (keys : List K) (children : List (Node K))

/-- The tree handle `BPlusTree<K>`: the `order` field and the `root`
pointer (`none` = `nullptr`).  `head_leaf` always points at the leftmost
leaf and is derived from the shape where needed. -/
structure Tree (K : Type) where
  order : Nat
  root : Option (Node K)

section Ops

variable {K : Type} [LinearOrder K] {α : Type}

/-- `BaseNode::find_index`: `std::lower_bound` over the sorted `keys`,
i.e. the index of the first key `≥ k` (equivalently the length of the
prefix of keys `< k`). -/
def find_index (keys : List K) (k : K) : Nat :=
  (keys.takeWhile (fun x => x < k)).length

/-- `BaseNode::is_overloaded(order)`: `size > order`. -/
def is_overloaded (size order : Nat) : Bool := size > order

/-- `BaseNode::is_underloaded(order)`: `size < (order + 1) / 2`
(C++ integer division, i.e. the floor). -/
def is_underloaded (size order : Nat) : Bool := size < (order + 1) / 2

/-- `BaseNode::is_safe(order)`: `size < order && size > (order + 1) / 2`
(C++ integer division, i.e. the floor). -/
def is_safe (size order : Nat) : Bool := size < order && size > (order + 1) / 2

/-- The child index chosen by `find_leaf`'s descent at an internal node:
`index = find_index(key)`, incremented when `index < size` and
`keys[index] == key`. -/
def descentIndex (keys : List K) (k : K) : Nat :=
  let i := find_index keys k
  match keys.get? i with
  | some x => if x = k then i + 1 else i
  | none => i

/-- `LeafNode::split`, data part: split point `p = (size + 1) / 2`
(C++ integer division); the original keeps `keys[0..p)` / `values[0..p)`,
the new node takes `keys[p..)` / `values[p..)`.  Returns
`((left keys, left values), (right keys, right values))`. -/
def leaf_split (keys : List K) (vals : List V) :
    (List K × List V) × (List K × List V) :=
  let p := (keys.length + 1) / 2
  ((keys.take p, vals.take p), (keys.drop p, vals.drop p))

/-- `InternalNode::split`, generic in the child representation: split point
`p = size / 2`; the original keeps `keys[0..p)` and `children[0..p]`, the
new node takes `keys(p..size)` and `children(p..size]`; `keys[p]` is
dropped from both halves. -/
def internal_split (keys : List K) (children : List α) :
    (List K × List α) × (List K × List α) :=
  let p := keys.length / 2
  ((keys.take p, children.take (p + 1)), (keys.drop (p + 1), children.drop (p + 1)))

/-- The separator read `handle_split` performs *after* an internal split:
`internal->keys[internal->size]` where `keys` has just been resized to
`size` elements.  Modelled on the truncated key vector: `none` means the
access is out of bounds of that vector. -/
def handle_split_sep_read (leftKeys : List K) (size : Nat) : Option K :=
  leftKeys.get? size

/-- The key value the separator read yields in practice: element `p`
(`p = size / 2`) of the *pre-split* key vector, which is the stale memory
a non-reallocating `resize` leaves one past the end.  `dflt` is returned
for out-of-range `p` (never reached on split paths). -/
def effective_sep (keys : List K) (dflt : K) : K :=
  keys.getD (keys.length / 2) dflt

/-- Result of inserting into a subtree: either the updated subtree, or the
pair of nodes plus promoted separator produced by a split that the parent
must absorb (`handle_split`'s recursion, unrolled bottom-up). -/
inductive InsRes (K : Type) where
  | one (t : Node K)
  | split (l : Node K) (sep : K) (r : Node K)

mutual

/-- Insert along the `find_leaf` descent path, with `handle_split`'s
split propagation folded into the recursion:
* at a leaf, `LeafNode::insert_in_node` (overwrite on equal key, else
  sorted insert), then split when `is_overloaded`; the promoted separator
  is `new_leaf->keys[0]`;
* at an internal node, descend via `descentIndex`; if the child split,
  `InternalNode::insert_in_node(sep, right)` places `sep` at
  `find_index(sep)` and `right` one past it, then the node itself splits
  when `is_overloaded`, promoting (in practice) the pre-split middle key
  `keys[p]`, `p = size / 2`.
Split propagation happens on the way back up, as in the code's bottom-up
`handle_split` recursion via parent pointers. -/
def insertRec (order : Nat) (k : K) (v : V) : Node K → InsRes K
  | .leaf keys vals =>
    let i := find_index keys k
    match keys.get? i with
    | some x =>
      if x = k then .one (.leaf keys (vals.set i v))
      else
        let keys2 := keys.insertIdx i k
        let vals2 := vals.insertIdx i v
        if is_overloaded keys2.length order then
          let p := (keys2.length + 1) / 2
          .split (.leaf (keys2.take p) (vals2.take p)) (keys2.getD p k)
                 (.leaf (keys2.drop p) (vals2.drop p))
        else .one (.leaf keys2 vals2)
    | none =>
        let keys2 := keys.insertIdx i k
        let vals2 := vals.insertIdx i v
        if is_overloaded keys2.length order then
          let p := (keys2.length + 1) / 2
          .split (.leaf (keys2.take p) (vals2.take p)) (keys2.getD p k)
                 (.leaf (keys2.drop p) (vals2.drop p))
        else .one (.leaf keys2 vals2)
  | .internal keys children =>
    match insertKids order k v children (descentIndex keys k) with
    | none => .one (.internal keys children)
    | some (.inl children2) => .one (.internal keys children2)
    | some (.inr (children1, sep, r)) =>
      let j := find_index keys sep
      let keys2 := keys.insertIdx j sep
      let children2 := children1.insertIdx (j + 1) r
      if is_overloaded keys2.length order then
        let s := internal_split keys2 children2
        .split (.internal s.1.1 s.1.2) (effective_sep keys2 sep)
               (.internal s.2.1 s.2.2)
      else .one (.internal keys2 children2)

/-- Descend into child `i` of a child list (the `children[index]` access):
`none` means the index is out of range (never reached on the well-formed
trees the operations maintain; in C++ it would be undefined behaviour).
On success, returns the child list with child `i` replaced — by the
updated child, or by the split's left node together with the separator and
right node for the parent to absorb. -/
def insertKids (order : Nat) (k : K) (v : V) :
    List (Node K) → Nat → Option (List (Node K) ⊕ (List (Node K) × K × Node K))
  | [], _ => none
  | c :: rest, 0 =>
    match insertRec order k v c with
    | .one c2 => some (.inl (c2 :: rest))
    | .split l sep r => some (.inr (l :: rest, sep, r))
  | c :: rest, i + 1 =>
    match insertKids order k v rest i with
    | none => none
    | some (.inl rest2) => some (.inl (c :: rest2))
    | some (.inr (rest2, sep, r)) => some (.inr (c :: rest2, sep, r))

end

/-- `BPlusTree::insert`: create the root leaf if absent, insert along the
descent, and on a root split install a fresh internal root with the
separator as sole key and the two halves as children. -/
def insertT (t : Tree K) (k : K) (v : V) : Tree K :=
  let r := match t.root with
    | none => Node.leaf [] []
    | some r => r
  match insertRec t.order k v r with
  | .one n => { t with root := some n }
  | .split l sep rr => { t with root := some (.internal [sep] [l, rr]) }

/-- Fold `insert` over a list of key/value pairs (left to right). -/
def insertMany (t : Tree K) (kvs : List (K × V)) : Tree K :=
  kvs.foldl (fun acc kv => insertT acc kv.1 kv.2) t

mutual

/-- `BPlusTree::find` below the root check: descend via `descentIndex`,
then return `values[i]` when `keys[i] == k` at `i = find_index(k)`, else 0. -/
def findRec (k : K) : Node K → V
  | .leaf keys vals =>
    let i := find_index keys k
    match keys.get? i with
    | some x => if x = k then vals.getD i 0 else 0
    | none => 0
  | .internal keys children => findKids k children (descentIndex keys k)

/-- The `children[index]` step of the find descent; 0 when the index is
out of range (unreachable on well-formed trees). -/
def findKids (k : K) : List (Node K) → Nat → V
  | [], _ => 0
  | c :: _, 0 => findRec k c
  | _ :: rest, i + 1 => findKids k rest i

end

/-- `BPlusTree::find`: 0 for the empty tree ("absent"), else the descent. -/
def findT (t : Tree K) (k : K) : V :=
  match t.root with
  | none => 0
  | some r => findRec k r

mutual

/-- All leaves of a subtree, left to right (the segment of the leaf
linked list under this subtree, in `next` order). -/
def leavesOf : Node K → List (List K × List V)
  | .leaf keys vals => [(keys, vals)]
  | .internal _ children => leavesKids children

/-- Leaves under a child list, left to right. -/
def leavesKids : List (Node K) → List (List K × List V)
  | [] => []
  | c :: rest => leavesOf c ++ leavesKids rest

end

mutual

/-- The leaf reached by `find_leaf(k)` followed by the rest of the leaf
list (`next` pointers), i.e. the chain `range_find` walks.  The leaf chain
is derived from the shape: leaves strictly right of the descent path come
after the found leaf. -/
def chainFrom (k : K) : Node K → List (List K × List V)
  | .leaf keys vals => [(keys, vals)]
  | .internal keys children => chainKids k children (descentIndex keys k)

/-- Descend into child `i`; the leaves of the children right of `i` come
after the found leaf's chain.  `[]` when the index is out of range
(unreachable on well-formed trees). -/
def chainKids (k : K) : List (Node K) → Nat → List (List K × List V)
  | [], _ => []
  | c :: rest, 0 => chainFrom k c ++ leavesKids rest
  | _ :: rest, i + 1 => chainKids k rest i

end

/-- One leaf's scan loop in `range_find`: from the current position push
`(key, value)` while `start ≤ key ≤ end`; on the first `key > end` stop the
whole scan (`true` flag); keys `< start` are skipped. -/
def scanLeaf (lo hi : K) : List (K × V) → List (K × V) × Bool
  | [] => ([], false)
  | (k, v) :: rest =>
    if lo ≤ k ∧ k ≤ hi then
      let r := scanLeaf lo hi rest
      ((k, v) :: r.1, r.2)
    else if hi < k then ([], true)
    else scanLeaf lo hi rest

/-- The outer leaf-list walk of `range_find`: process each leaf in chain
order, stopping when a leaf scan returned early or the list ends. -/
def scanChain (lo hi : K) : List (List (K × V)) → List (K × V)
  | [] => []
  | l :: rest =>
    let r := scanLeaf lo hi l
    if r.2 then r.1 else r.1 ++ scanChain lo hi rest

/-- `BPlusTree::range_find(start, end)`: empty on the empty tree; else
descend to the leaf for `start`, set `start_index = find_index(start)`
there, and walk the leaf chain. -/
def range_find (t : Tree K) (lo hi : K) : List (K × V) :=
  match t.root with
  | none => []
  | some r =>
    match chainFrom lo r with
    | [] => []
    | (ks, vs) :: rest =>
      let s0 := find_index ks lo
      scanChain lo hi (((ks.zip vs).drop s0) :: rest.map (fun l => l.1.zip l.2))

mutual

/-- In-order entries of a subtree (key/value pairs, leaf order). -/
def entries : Node K → List (K × V)
  | .leaf keys vals => keys.zip vals
  | .internal _ children => entriesKids children

/-- Entries under a child list, left to right. -/
def entriesKids : List (Node K) → List (K × V)
  | [] => []
  | c :: rest => entries c ++ entriesKids rest

end

/-- Keys of all entries of a subtree, in leaf order. -/
def treeKeys (t : Node K) : List K := (entries t).map Prod.fst

/-- Entries of the whole tree. -/
def entriesT (t : Tree K) : List (K × V) :=
  match t.root with
  | none => []
  | some r => entries r

/-- Strictly increasing key list, as a boolean. -/
def sortedB : List K → Bool
  | [] => true
  | [_] => true
  | a :: b :: rest => a < b && sortedB (b :: rest)

/-- `lo ≤ k` (inclusive lower separator bound) and `k < hi` (strict upper
separator bound); `none` = unbounded. -/
def inBoundsB (lo hi : Option K) (k : K) : Bool :=
  (match lo with | none => true | some l => l ≤ k) &&
  (match hi with | none => true | some h => k < h)

mutual

/-- Structural well-formedness of a subtree whose keys must lie in
`[lo, hi)`: leaf keys strictly sorted and parallel to values; internal
keys strictly sorted with `children.length = keys.length + 1`, child `i`
bounded by the neighbouring separators (keys under `children[i]` are
`< keys[i]`, keys under `children[i+1]` are `≥ keys[i]`). -/
def wfB (lo hi : Option K) : Node K → Bool
  | .leaf keys vals =>
    sortedB keys && keys.length == vals.length && keys.all (inBoundsB lo hi)
  | .internal keys children =>
    sortedB keys && keys.all (inBoundsB lo hi) && wfKids lo hi keys children

/-- The children of an internal node, in lockstep with its keys. -/
def wfKids (lo hi : Option K) : List K → List (Node K) → Bool
  | [], [c] => wfB lo hi c
  | k :: ks, c :: cs => wfB lo (some k) c && wfKids (some k) hi ks cs
  | _, _ => false

end

/-- Well-formedness of a whole tree state. -/
def wfT (t : Tree K) : Bool :=
  match t.root with
  | none => true
  | some r => wfB none none r

/-- Latch events of one descent, nodes named by their path from the root
(list of child indices). -/
inductive LatchEvent where
  | lockShared (path : List Nat)
  | unlockShared (path : List Nat)
deriving DecidableEq

mutual

/-- Latch events of the `find_leaf` read-mode loop below the root
acquisition, at the node addressed by `p`: the code runs
`parent->mutex.unlock_shared(); child->mutex.lock_shared();` — the parent
is released *before* the child is taken. -/
def readLatchTrace (k : K) : Node K → List Nat → List LatchEvent
  | .leaf _ _, _ => []
  | .internal keys children, p =>
    readLatchKids k children (descentIndex keys k) p (descentIndex keys k)

/-- Step into child `i` (path `p ++ [iorig]`), emitting the parent unlock
then the child lock; `[]` when the index is out of range. -/
def readLatchKids (k : K) :
    List (Node K) → Nat → List Nat → Nat → List LatchEvent
  | [], _, _, _ => []
  | c :: _, 0, p, iorig =>
    LatchEvent.unlockShared p :: LatchEvent.lockShared (p ++ [iorig]) ::
      readLatchTrace k c (p ++ [iorig])
  | _ :: rest, i + 1, p, iorig => readLatchKids k rest i p iorig

end

/-- Whole read-mode descent trace: the root's shared latch is taken first,
then the loop runs. -/
def readTrace (t : Node K) (k : K) : List LatchEvent :=
  LatchEvent.lockShared [] :: readLatchTrace k t []

mutual

/-- The (parent, child) path pairs visited by the descent for `k`. -/
def descentSteps (k : K) : Node K → List Nat → List (List Nat × List Nat)
  | .leaf _ _, _ => []
  | .internal keys children, p =>
    descentKids k children (descentIndex keys k) p (descentIndex keys k)

/-- Step into child `i` of a child list, recording the (parent, child)
path pair; `[]` when the index is out of range. -/
def descentKids (k : K) :
    List (Node K) → Nat → List Nat → Nat → List (List Nat × List Nat)
  | [], _, _, _ => []
  | c :: _, 0, p, iorig => (p, p ++ [iorig]) :: descentSteps k c (p ++ [iorig])
  | _ :: rest, i + 1, p, iorig => descentKids k rest i p iorig

end

/-- Position of the first occurrence of `e` in `tr`. -/
def eventIdx (e : LatchEvent) (tr : List LatchEvent) : Nat :=
  tr.findIdx (fun x => x = e)

/-- The crabbing property C9 claims of a read descent: at every step the
child's shared lock appears in the trace before the parent's shared
unlock. -/
def crabbingOkB (t : Node K) (k : K) : Bool :=
  let tr := readTrace t k
  (descentSteps k t []).all
    (fun s => eventIdx (.lockShared s.2) tr < eventIdx (.unlockShared s.1) tr)


end Ops

section Codec

variable {K : Type}

/-! ## Snapshot codec (`serialize` / `deserialize`)

The codec is modelled at record granularity: one record per node, in the
order the code writes them.  The byte encoding of a single record
(`id | type | size | keys | values+next or child ids`) is injective and
read back field-by-field by `deserialize`, so a record is modelled as the
tuple of its fields; `size` is the length of the key list.  Node identity
(C++ pointer identity) is modelled by the node's path from the root (list
of child indices), which is in bijection with pointers on a tree. -/

/-- A node's address: the child indices from the root. -/
abbrev Path := List Nat

/-- Association list lookup (keys are kept unique by construction). -/
def alookup {κ β : Type} [DecidableEq κ] : List (κ × β) → κ → Option β
  | [], _ => none
  | (q, w) :: rest, k => if q = k then some w else alookup rest k

/-- `std::unordered_map` assignment `m[k] = v`: replace the binding if
present, else add it. -/
def aupd {κ β : Type} [DecidableEq κ] (m : List (κ × β)) (k : κ) (v : β) :
    List (κ × β) :=
  match m with
  | [] => [(k, v)]
  | (q, w) :: rest => if q = k then (q, v) :: rest else (q, w) :: aupd rest k v

/-- The BFS inner loop over one internal node's children: for each child
in order, `if (node_ids.find(child) == node_ids.end()) node_ids[child] =
next_id++; q.push(child);`.  Returns the updated map, the next free id,
and the newly enqueued `(path, node)` pairs in push order. -/
def assignKids (p : Path) : List (Node K) → Nat → List (Path × Nat) → Nat →
    List (Path × Nat) × Nat × List (Path × Node K)
  | [], _, m, n => (m, n, [])
  | c :: rest, i, m, n =>
    match alookup m (p ++ [i]) with
    | some _ => assignKids p rest (i + 1) m n
    | none =>
      let r := assignKids p rest (i + 1) (aupd m (p ++ [i]) n) (n + 1)
      (r.1, r.2.1, (p ++ [i], c) :: r.2.2)

mutual

/-- Number of nodes of a subtree. -/
def nodeSize : Node K → Nat
  | .leaf _ _ => 1
  | .internal _ cs => 1 + nodeSizeKids cs

/-- Total node count of a child list. -/
def nodeSizeKids : List (Node K) → Nat
  | [] => 0
  | c :: rest => nodeSize c + nodeSizeKids rest

end

theorem nodeSizeKids_eq_sum (cs : List (Node K)) :
    nodeSizeKids cs = (cs.map nodeSize).sum := by
  induction cs with
  | nil => rfl
  | cons c rest ih => simp [nodeSizeKids, ih]

theorem nodeSize_internal (ks : List K) (cs : List (Node K)) :
    nodeSize (.internal ks cs) = 1 + (cs.map nodeSize).sum := by
  rw [nodeSize, nodeSizeKids_eq_sum]

/-- Sum of the sizes of the queued subtrees (termination measure for the
BFS loop). -/
def queueSize (q : List (Path × Node K)) : Nat :=
  (q.map (fun x => nodeSize x.2)).sum

theorem assignKids_enqueued_size (p : Path) (cs : List (Node K)) (i : Nat)
    (m : List (Path × Nat)) (n : Nat) :
    queueSize (assignKids p cs i m n).2.2 ≤ (cs.map nodeSize).sum := by
  induction cs generalizing i m n with
  | nil => simp [assignKids, queueSize]
  | cons c rest ih =>
    simp only [assignKids]
    cases alookup m (p ++ [i]) with
    | some v =>
      have := ih (i + 1) m n
      simp only [List.map_cons, List.sum_cons]
      omega
    | none =>
      have := ih (i + 1) (aupd m (p ++ [i]) n) (n + 1)
      simp only [queueSize, List.map_cons, List.sum_cons] at this ⊢
      omega

/-- The BFS loop of `serialize`'s id assignment: pop a node; if it is
internal, assign fresh ids to its not-yet-seen children and push them. -/
def bfsLoop : List (Path × Node K) → List (Path × Nat) → Nat → List (Path × Nat)
  | [], m, _ => m
  | (_, .leaf _ _) :: q, m, n => bfsLoop q m n
  | (p, .internal ks cs) :: q, m, n =>
    let r := assignKids p cs 0 m n
    bfsLoop (q ++ r.2.2) r.1 r.2.1
termination_by q _ _ => queueSize q
decreasing_by
  all_goals simp_wf
  · simp [queueSize, nodeSize]
  · have h1 := assignKids_enqueued_size p cs 0 m n
    have h2 := nodeSize_internal ks cs
    simp only [queueSize, List.map_append, List.sum_append, List.map_cons,
      List.sum_cons] at h1 ⊢
    omega

mutual

/-- Path of the head leaf: always descend into child 0.  (`head_leaf` is
non-null whenever `root` is, on every state the operations produce.) -/
def headPath : Node K → Path
  | .leaf _ _ => []
  | .internal _ cs => headPathKids cs

/-- `headPath` through the first child (empty child lists cannot occur on
real trees). -/
def headPathKids : List (Node K) → Path
  | [] => []
  | c :: _ => 0 :: headPath c

end

/-- The id map built by `serialize`: `node_ids[root] = 0`, then
`node_ids[head_leaf] = 1` (an overwrite when the root is the head leaf),
then the BFS loop starting from the root with `next_id = 2`. -/
def assignIds (r : Node K) : List (Path × Nat) :=
  bfsLoop [([], r)] (aupd [(([] : Path), 0)] (headPath r) 1) 2

/-- `node_ids[...]` read access; the default 0 is never reached (every
serialized node's path is bound, proved below). -/
def idOf (m : List (Path × Nat)) (p : Path) : Nat := (alookup m p).getD 0

/-- One record of the data file: `id` is paired outside.  A leaf record
carries keys, values and the next-leaf id (`none` = −1); an internal
record carries keys and the `size + 1` child ids.  The `size` field is the
length of the key list. -/
inductive NodeRec (K : Type) where
  | leaf (keys : List K) (vals : List V) (next : Option Nat)
  | internal (keys : List K) (childIds : List Nat)

mutual

/-- All leaf paths of a subtree, left to right (the leaf-list order). -/
def leafPaths : Node K → List Path
  | .leaf _ _ => [[]]
  | .internal _ cs => leafPathsKids cs 0

/-- Leaf paths under a child list, children numbered from `i`. -/
def leafPathsKids : List (Node K) → Nat → List Path
  | [], _ => []
  | c :: rest, i => (leafPaths c).map (fun q => i :: q) ++ leafPathsKids rest (i + 1)

end

/-- The successor of `p` in the list `l` (the `next` pointer in the leaf
chain). -/
def succIn : List Path → Path → Option Path
  | [], _ => none
  | [_], _ => none
  | a :: b :: rest, p => if a = p then some b else succIn (b :: rest) p

/-- The child ids written for an internal node at `p` with `n` children. -/
def childIdsOf (ids : List (Path × Nat)) (p : Path) (n : Nat) : List Nat :=
  (List.range n).map (fun i => idOf ids (p ++ [i]))

/-- The record `serialize` writes for the node `u` sitting at path `p`. -/
def recOfNode (ids : List (Path × Nat)) (nextOf : Path → Option Nat) (p : Path) :
    Node K → NodeRec K
  | .leaf ks vs => .leaf ks vs (nextOf p)
  | .internal ks cs => .internal ks (childIdsOf ids p cs.length)

mutual

/-- The data file contents: depth-first pre-order from the root (the code
pushes children on the stack in reverse, so they pop left to right). -/
def emit (ids : List (Path × Nat)) (nextOf : Path → Option Nat) :
    Node K → Path → List (Nat × NodeRec K)
  | .leaf ks vs, p => [(idOf ids p, .leaf ks vs (nextOf p))]
  | .internal ks cs, p =>
    (idOf ids p, .internal ks (childIdsOf ids p cs.length)) :: emitKids ids nextOf cs p 0

/-- Pre-order emission of a child list, children numbered from `i`. -/
def emitKids (ids : List (Path × Nat)) (nextOf : Path → Option Nat) :
    List (Node K) → Path → Nat → List (Nat × NodeRec K)
  | [], _, _ => []
  | c :: rest, p, i => emit ids nextOf c (p ++ [i]) ++ emitKids ids nextOf rest p (i + 1)

end

/-- The file header: key-type tag (0 = `int`, 1 = `std::string`), order,
root id and head-leaf id (`none` = −1, the empty tree). -/
structure Header where
  keyType : Nat
  order : Nat
  rootId : Option Nat
  headLeafId : Option Nat

/-- `BPlusTree::serialize` under the exclusive tree latch: header plus the
record stream.  `keyTag` is the tag of the instantiated key type. -/
def serializeT (keyTag : Nat) (t : Tree K) : Header × List (Nat × NodeRec K) :=
  match t.root with
  | none => (⟨keyTag, t.order, none, none⟩, [])
  | some r =>
    let ids := assignIds r
    (⟨keyTag, t.order, some (idOf ids []), some (idOf ids (headPath r))⟩,
     emit ids (fun p => (succIn (leafPaths r) p).map (idOf ids)) r [])

/-- `id_to_node` built from the record stream, later records overwriting
earlier ones (`unordered_map` assignment). -/
def recsMap (recs : List (Nat × NodeRec K)) : List (Nat × NodeRec K) :=
  recs.foldl (fun m r => aupd m r.1 r.2) []

/-- Rebuilding the node graph from the id map, from one id downward:
children whose ids are absent from the map are skipped (the code only
links ids it finds).  `fuel` bounds the unfolding depth of the pointer
structure; the round-trip proof shows `recs.length + 1` is always enough
on serializer output. -/
def build (m : List (Nat × NodeRec K)) : Nat → Nat → Option (Node K)
  | 0, _ => none
  | fuel + 1, i =>
    match alookup m i with
    | none => none
    | some (.leaf ks vs _) => some (.leaf ks vs)
    | some (.internal ks cids) =>
      some (.internal ks (cids.filterMap (fun c => build m fuel c)))

/-- `BPlusTree::deserialize`, with its observable outcome: the error
raised (if any) and the tree state left behind.  The code's order of
operations is kept: it throws on unopenable files *before* dropping the
current tree; it drops the tree, then reads the header and throws on a
key-type mismatch *before* adopting the file's order; with `root_id`
equal to −1 it returns the empty tree; otherwise it reads all records and
links them up. -/
def deserializeT (keyTag : Nat) (t : Tree K)
    (files : Option (Header × List (Nat × NodeRec K))) :
    Option String × Tree K :=
  match files with
  | none => (some "Failed to open files for deserialization", t)
  | some (hdr, recs) =>
    let t1 : Tree K := { order := t.order, root := none }
    if hdr.keyType ≠ keyTag then
      (some "Failed to deserialize: Key Type Not Match", t1)
    else
      match hdr.rootId with
      | none => (none, { order := hdr.order, root := none })
      | some rid =>
        (none, { order := hdr.order, root := build (recsMap recs) (recs.length + 1) rid })

mutual

/-- Subtree at a path (`none` when the path leaves the tree). -/
def subAt : Node K → Path → Option (Node K)
  | t, [] => some t
  | .leaf _ _, _ :: _ => none
  | .internal _ cs, i :: q => subKids cs i q

/-- `subAt` through child `i` of a child list. -/
def subKids : List (Node K) → Nat → Path → Option (Node K)
  | [], _, _ => none
  | c :: _, 0, q => subAt c q
  | _ :: rest, i + 1, q => subKids rest i q

end

mutual

/-- All node paths of a subtree (pre-order). -/
def pathsOf : Node K → List Path
  | .leaf _ _ => [[]]
  | .internal _ cs => [] :: pathsKids cs 0

/-- Node paths under a child list, children numbered from `i`. -/
def pathsKids : List (Node K) → Nat → List Path
  | [], _ => []
  | c :: rest, i => (pathsOf c).map (i :: ·) ++ pathsKids rest (i + 1)

end

mutual

/-- Height of a subtree (leaves have height 1). -/
def heightN : Node K → Nat
  | .leaf _ _ => 1
  | .internal _ cs => 1 + heightKids cs

/-- Maximum height over a child list. -/
def heightKids : List (Node K) → Nat
  | [] => 0
  | c :: rest => max (heightN c) (heightKids rest)

end

end Codec

section Claims

variable {K : Type} [LinearOrder K]

/-! ## Claim-specific material -/

/-- A leaf object as `LeafNode<K>` holds it during `split`'s pointer
surgery: keys, values, `prev`/`next` (ids into a store, `none` =
`nullptr`). -/
structure LeafObj (K : Type) where
  keys : List K
  vals : List V
  prev : Option Nat
  next : Option Nat
deriving DecidableEq

/-- `LeafNode::split` acting on a store of leaf objects; `selfId` is the
splitting leaf, `nid` the freshly allocated node's id (fresh ids are
unbound).  Steps in the code's order: copy the tail `[p..)` of keys and
values into the new node with `new->prev = this`, `new->next =
this->next`; truncate the original to `[0..p)`; `if (this->next)
this->next->prev = new_node;`; finally `this->next = new_node`.  Lookup
failures (dangling ids) leave the store unchanged; the C++ pointers cannot
dangle here. -/
def leafSplitStore (h : List (Nat × LeafObj K)) (selfId nid : Nat) :
    List (Nat × LeafObj K) :=
  match alookup h selfId with
  | none => h
  | some s =>
    let p := (s.keys.length + 1) / 2
    let h1 := aupd h nid ⟨s.keys.drop p, s.vals.drop p, some selfId, s.next⟩
    let h2 := aupd h1 selfId ⟨s.keys.take p, s.vals.take p, s.prev, s.next⟩
    let h3 := match s.next with
      | none => h2
      | some t =>
        match alookup h2 t with
        | none => h2
        | some tobj => aupd h2 t ⟨tobj.keys, tobj.vals, some nid, tobj.next⟩
    match alookup h3 selfId with
    | none => h3
    | some sobj => aupd h3 selfId ⟨sobj.keys, sobj.vals, sobj.prev, some nid⟩

mutual

/-- Does every node of the subtree have at least `mn` keys, the root
(`isRoot`) being exempt? -/
def minSizeOkB (mn : Nat) (isRoot : Bool) : Node K → Bool
  | .leaf ks _ => isRoot || decide (mn ≤ ks.length)
  | .internal ks cs =>
    (isRoot || decide (mn ≤ ks.length)) && minSizeKids mn cs

/-- `minSizeOkB` over a child list (all non-root). -/
def minSizeKids (mn : Nat) : List (Node K) → Bool
  | [] => true
  | c :: rest => minSizeOkB mn false c && minSizeKids mn rest

end

/-- `minSizeOkB` on a whole tree state. -/
def nonRootMinOkT (mn : Nat) (t : Tree K) : Bool :=
  match t.root with
  | none => true
  | some r => minSizeOkB mn true r

/-- The order-3 tree built by inserting keys 1..10 (values 100·k) into a
fresh handle — the failing input for C1/C3.  The C++ run produces root
`[7]` over internals `[3,5]` and `[9]`; the model reproduces it. -/
def t10 : Tree Int :=
  insertMany ⟨3, none⟩
    ((List.range 10).map (fun i => (Int.ofNat i + 1, (i + 1) * 100)))

/-- The tree observed by C6's failing input: order 3, one entry (1, 10). -/
def c6tree : Tree Int := ⟨3, some (.leaf [1] [10])⟩

/-- A two-level order-3 tree (root `[3]`, leaves `[1,2]`, `[3,4]`) for the
read-latch trace of C9. -/
def c9tree : Node Int :=
  .internal [3] [.leaf [1, 2] [100, 200], .leaf [3, 4] [300, 400]]

end Claims

section Helpers

variable {κ β : Type} [DecidableEq κ]

theorem alookup_aupd_self (m : List (κ × β)) (k : κ) (v : β) :
    alookup (aupd m k v) k = some v := by
  induction m with
  | nil => simp [aupd, alookup]
  | cons a rest ih =>
    by_cases h : a.1 = k
    · simp [aupd, alookup, h]
    · simp [aupd, alookup, h, ih]

theorem alookup_aupd_ne (m : List (κ × β)) (k k2 : κ) (v : β) (h : k2 ≠ k) :
    alookup (aupd m k v) k2 = alookup m k2 := by
  have h2 : ¬ (k = k2) := fun hh => h hh.symm
  induction m with
  | nil => simp [aupd, alookup, h2]
  | cons a rest ih =>
    by_cases ha : a.1 = k
    · have hne : ¬ (a.1 = k2) := by rw [ha]; exact h2
      simp [aupd, alookup, ha, hne, h2]
    · by_cases ha2 : a.1 = k2
      · simp [aupd, alookup, ha, ha2, h]
      · simp [aupd, alookup, ha, ha2, ih]

end Helpers

section ClaimTheorems

/-- **C1** (code bug).  At the failing input — the root `[3,5,7,9]` with
five children, overflowing while key 10 is inserted during `t10`'s build —
`InternalNode::split` with `p = 4 / 2 = 2` keeps keys `[3,5]` and children
`0..2`, moves keys `[9]` and children `3..4` to the right node and drops
`keys[2] = 7` from both halves, exactly the shape the claim states; but
the separator `handle_split` then reads is `internal->keys[internal->size]`
with `size = 2` on a key vector just resized to 2 elements: the access is
out of bounds (`none`), not the well-defined in-bounds element the claim
asserts.  In practice the stale cell one past the end still holds the
middle key 7 (`effective_sep`). -/
theorem C1_internal_split_sep_read_oob :
    internal_split ([3, 5, 7, 9] : List Int) [0, 1, 2, 3, 4] =
      (([3, 5], [0, 1, 2]), ([9], [3, 4])) ∧
    effective_sep ([3, 5, 7, 9] : List Int) 0 = 7 ∧
    handle_split_sep_read
      (internal_split ([3, 5, 7, 9] : List Int) [0, 1, 2, 3, 4]).1.1 2 = none := by
  refine ⟨rfl, rfl, rfl⟩

set_option maxHeartbeats 2000000 in
/-- **C2** (counterexample).  A leaf of size 4 (order 3) splits at
`p = (4+1)/2 = 2` under C++ integer division, so the original keeps 2
entries — not the `⌈(4+1)/2⌉ = 3` the claim states.  Grounded in the
insert path: inserting 1,2,3,4 into a fresh order-3 tree leaves the first
leaf `[1,2]`. -/
theorem C2_cex_leaf_split_point :
    (leaf_split ([1, 2, 3, 4] : List Int) [10, 20, 30, 40]).1.1.length = 2 ∧
    ((4 + 2) / 2 : Nat) = 3 ∧
    leavesOf ((insertMany (⟨3, none⟩ : Tree Int)
        [(1, 10), (2, 20), (3, 30), (4, 40)]).root.getD (.leaf [] [])) =
      [([1, 2], [10, 20]), ([3, 4], [30, 40])] := by
  refine ⟨by decide, by decide, by decide⟩

set_option maxHeartbeats 4000000 in
/-- **C3** (code bug).  After the public inserts of 1..10 (values 100·k)
into a fresh order-3 tree, the claimed invariant
`⌈(m+1)/2⌉ = (3+2)/2 = 2 ≤ size` fails for a non-root node: the internal
split of the root leaves a right internal with a single key (`[9]`).  The
entry list confirms the run inserted all ten pairs. -/
theorem C3_min_occupancy_violated :
    nonRootMinOkT ((3 + 2) / 2) t10 = false ∧
    entriesT t10 = [(1, 100), (2, 200), (3, 300), (4, 400), (5, 500),
      (6, 600), (7, 700), (8, 800), (9, 900), (10, 1000)] := by
  refine ⟨by decide, by decide⟩

/-- **C4** (counterexample).  With order m = 4 and size s = 3 the code's
`is_safe` accepts the node, yet `s > ⌈(m+1)/2⌉ = (4+2)/2 = 3` fails, and
one deletion leaves `3 - 1 = 2 < 3` keys — the claim's delete-path bound
does not hold of `is_safe`. -/
theorem C4_cex_is_safe_ceil_bound :
    is_safe 3 4 = true ∧ ¬ (3 > (4 + 2) / 2) ∧ 3 - 1 < ((4 + 2) / 2 : Nat) := by
  refine ⟨rfl, by decide, by decide⟩

/-- **C4** (amended).  `is_safe s m` means `⌊(m+1)/2⌋ < s < m` (the floor,
which is the code's own `is_underloaded` threshold, not the claim's
ceiling): a safe node absorbs one insertion without becoming
`is_overloaded` and one deletion without becoming `is_underloaded`, so
neither a split nor a merge/borrow can propagate to its parent. -/
theorem C4_is_safe_non_propagation (s m : Nat) (h : is_safe s m = true) :
    (s < m ∧ (m + 1) / 2 < s) ∧
    is_overloaded (s + 1) m = false ∧
    is_underloaded (s - 1) m = false := by
  simp only [is_safe, Bool.and_eq_true, decide_eq_true_eq] at h
  simp only [is_overloaded, is_underloaded, decide_eq_false_iff_not]
  omega

/-- Witness for C4 at s = 4, m = 5. -/
theorem C4_is_safe_non_propagation_witness :
    is_safe 4 5 = true ∧
    ((4 < 5 ∧ (5 + 1) / 2 < 4) ∧
      is_overloaded (4 + 1) 5 = false ∧
      is_underloaded (4 - 1) 5 = false) :=
  ⟨by decide, C4_is_safe_non_propagation 4 5 (by decide)⟩

/-- **C6** (code bug).  At the failing input — a tree holding (1, 10),
`deserialize` on missing files — the error is raised, but the state
observable afterwards is the *old* tree: `find(1)` still returns 10 and
the entry set is unchanged.  The claim requires the empty tree; the code
throws before `delete root`, so the stale tree survives. -/
theorem C6_missing_files_keep_stale_tree :
    (deserializeT 0 c6tree none).1.isSome = true ∧
    findT (deserializeT 0 c6tree none).2 1 = 10 ∧
    entriesT (deserializeT 0 c6tree none).2 = [(1, 10)] := by
  refine ⟨rfl, rfl, rfl⟩

/-- **C9** (code bug).  On `c9tree` the read-mode descent for key 1
produces lock-root, unlock-root, lock-child: the parent's shared latch is
released *before* the chosen child's is acquired, so the claimed ordering
(child lock precedes parent unlock, `crabbingOkB`) is false. -/
theorem C9_read_descent_unlocks_parent_first :
    readTrace c9tree 1 =
      [.lockShared [], .unlockShared [], .lockShared [0]] ∧
    crabbingOkB c9tree 1 = false := by
  refine ⟨rfl, rfl⟩

/-- **C10**.  A successful `deserialize` (matching key-type tag) installs
the header's order in the handle, discarding the order the handle was
constructed with; every later `insert` reads this field (`insertT` passes
`t.order` to `insertRec`), so subsequent splits follow the file's order. -/
theorem C10_deserialize_adopts_file_order {K : Type} (keyTag : Nat)
    (t : Tree K) (hdr : Header) (recs : List (Nat × NodeRec K))
    (h : hdr.keyType = keyTag) :
    ((deserializeT keyTag t (some (hdr, recs))).2).order = hdr.order := by
  obtain ⟨kt, od, rid, hid⟩ := hdr
  subst h
  simp only [deserializeT, ne_eq, not_true_eq_false, if_false]
  cases rid <;> rfl

/-- Witness for C10: a handle built with order 10 adopts the file's
order 3. -/
theorem C10_deserialize_adopts_file_order_witness :
    (Header.keyType ⟨0, 3, none, none⟩ = 0) ∧
    ((deserializeT 0 (⟨10, none⟩ : Tree Int)
      (some (⟨0, 3, none, none⟩, []))).2).order = 3 :=
  ⟨rfl, C10_deserialize_adopts_file_order 0 ⟨10, none⟩ ⟨0, 3, none, none⟩ [] rfl⟩

end ClaimTheorems

section C2Amended

variable {K : Type}


/-- Concrete store for the C2 witness. -/
def c2store : List (Nat × LeafObj Int) :=
  [(0, ⟨[1, 2, 3, 4], [10, 20, 30, 40], none, some 5⟩),
   (5, ⟨[9, 10], [90, 100], some 0, none⟩)]

/-- **C2** (amended).  `LeafNode::split` on the store: with `p =
⌊(size+1)/2⌋` (C++ integer division `(size + 1) / 2`, not the claim's
ceiling), the original leaf keeps exactly the first `p` entries and its
`prev` pointer, and now points at the new node; the new right leaf takes
the tail `[p..)` and is linked between the original (`prev = self`) and
the original's former successor (`next = t`); the former successor's
`prev` now points at the new node; and the key promoted to the parent,
`new_leaf->keys[0]`, is the pre-split key at index `p`. -/
theorem C2_leaf_split_links (h : List (Nat × LeafObj K)) (selfId nid tId : Nat)
    (s tobj : LeafObj K)
    (hs : alookup h selfId = some s)
    (ht : s.next = some tId)
    (htobj : alookup h tId = some tobj)
    (hst : selfId ≠ tId) (hnt : nid ≠ tId) (hns : nid ≠ selfId)
    (hfresh : alookup h nid = none) :
    alookup (leafSplitStore h selfId nid) selfId =
      some ⟨s.keys.take ((s.keys.length + 1) / 2),
            s.vals.take ((s.keys.length + 1) / 2), s.prev, some nid⟩ ∧
    alookup (leafSplitStore h selfId nid) nid =
      some ⟨s.keys.drop ((s.keys.length + 1) / 2),
            s.vals.drop ((s.keys.length + 1) / 2), some selfId, some tId⟩ ∧
    alookup (leafSplitStore h selfId nid) tId =
      some ⟨tobj.keys, tobj.vals, some nid, tobj.next⟩ ∧
    (s.keys.drop ((s.keys.length + 1) / 2)).head? =
      s.keys.get? ((s.keys.length + 1) / 2) := by
  have hts : tId ≠ selfId := fun e => hst e.symm
  have htn : tId ≠ nid := fun e => hnt e.symm
  have hsn : selfId ≠ nid := fun e => hns e.symm
  simp only [leafSplitStore, hs]
  simp only [ht]
  have e1 : ∀ a b : LeafObj K,
      alookup (aupd (aupd h nid a) selfId b) tId = some tobj := fun a b => by
    rw [alookup_aupd_ne _ _ _ _ hts, alookup_aupd_ne _ _ _ _ htn, htobj]
  simp only [e1]
  have e2 : ∀ a b c : LeafObj K,
      alookup (aupd (aupd (aupd h nid a) selfId b) tId c) selfId = some b :=
    fun a b c => by
      rw [alookup_aupd_ne _ _ _ _ hst, alookup_aupd_self]
  simp only [e2]
  refine ⟨?_, ?_, ?_, ?_⟩
  · rw [alookup_aupd_self]
  · rw [alookup_aupd_ne _ _ _ _ hns, alookup_aupd_ne _ _ _ _ hnt,
      alookup_aupd_ne _ _ _ _ hns, alookup_aupd_self]
  · rw [alookup_aupd_ne _ _ _ _ hts, alookup_aupd_self]
  · rw [List.head?_drop, List.get?_eq_getElem?]

/-- Witness for C2 on a concrete store: leaf 0 `[1,2,3,4]` with successor
5 `[9,10]`, splitting with fresh id 7. -/
theorem C2_leaf_split_links_witness :
    (alookup c2store 0 = some ⟨[1, 2, 3, 4], [10, 20, 30, 40], none, some 5⟩) ∧
    (alookup (leafSplitStore c2store 0 7) 0 =
      some ⟨[1, 2], [10, 20], none, some 7⟩ ∧
     alookup (leafSplitStore c2store 0 7) 7 =
      some ⟨[3, 4], [30, 40], some 0, some 5⟩ ∧
     alookup (leafSplitStore c2store 0 7) 5 =
      some ⟨[9, 10], [90, 100], some 7, none⟩ ∧
     (([3, 4] : List Int)).head? = some 3) :=
  ⟨by decide,
   by
    have := C2_leaf_split_links c2store 0 7 5
      ⟨[1, 2, 3, 4], [10, 20, 30, 40], none, some 5⟩
      ⟨[9, 10], [90, 100], some 0, none⟩
      (by decide) rfl (by decide) (by decide) (by decide) (by decide) (by decide)
    exact this⟩

end C2Amended

section SearchLemmas

variable {K : Type} [LinearOrder K]

theorem find_index_nil (k : K) : find_index ([] : List K) k = 0 := rfl

theorem find_index_cons (a : K) (l : List K) (k : K) :
    find_index (a :: l) k = if a < k then find_index l k + 1 else 0 := by
  simp only [find_index, List.takeWhile_cons]
  by_cases h : a < k <;> simp [h]

theorem find_index_le_length (l : List K) (k : K) : find_index l k ≤ l.length := by
  unfold find_index
  induction l with
  | nil => simp
  | cons a rest ih =>
    rw [List.takeWhile_cons]
    split
    · simpa using ih
    · simp

theorem sortedB_iff_chain (l : List K) :
    sortedB l = true ↔ List.Chain' (· < ·) l := by
  induction l with
  | nil => simp [sortedB]
  | cons a rest ih =>
    cases rest with
    | nil => simp [sortedB]
    | cons b rest2 => simp [sortedB, List.chain'_cons, ih, and_comm]

theorem sortedB_iff_pairwise (l : List K) :
    sortedB l = true ↔ List.Pairwise (· < ·) l := by
  rw [sortedB_iff_chain, List.chain'_iff_pairwise]

theorem sortedB_tail (a : K) (l : List K) (h : sortedB (a :: l) = true) :
    sortedB l = true := by
  rw [sortedB_iff_pairwise] at h ⊢
  exact h.tail

theorem descentIndex_nil (k : K) : descentIndex ([] : List K) k = 0 := rfl

theorem descentIndex_eq (l : List K) (k : K) :
    descentIndex l k =
      match l.get? (find_index l k) with
      | some x => if x = k then find_index l k + 1 else find_index l k
      | none => find_index l k := rfl

theorem descentIndex_cons (a : K) (l : List K) (k : K)
    (hs : List.Pairwise (· < ·) (a :: l)) :
    descentIndex (a :: l) k = if a ≤ k then descentIndex l k + 1 else 0 := by
  rcases lt_trichotomy a k with h | h | h
  · rw [if_pos h.le, descentIndex_eq, descentIndex_eq,
      find_index_cons, if_pos h]
    have hup : (a :: l).get? (find_index l k + 1) = l.get? (find_index l k) := rfl
    rw [hup]
    cases hg : l.get? (find_index l k) with
    | none => rfl
    | some x =>
      by_cases hx : x = k
      · simp [hx]
      · simp [hx]
  · subst h
    have hf : find_index l a = 0 := by
      cases l with
      | nil => rfl
      | cons b rest =>
        have hab : a < b := (List.pairwise_cons.mp hs).1 b (by simp)
        rw [find_index_cons, if_neg (by exact fun hc => absurd (hab.trans hc) (lt_irrefl a))]
    rw [if_pos le_rfl, descentIndex_eq, descentIndex_eq, hf,
      find_index_cons, if_neg (lt_irrefl a)]
    have h0 : (a :: l).get? 0 = some a := rfl
    rw [h0]
    dsimp only
    rw [if_pos rfl]
    cases l with
    | nil => rfl
    | cons b rest =>
      have hab : a < b := (List.pairwise_cons.mp hs).1 b (by simp)
      have hb : (b :: rest).get? 0 = some b := rfl
      rw [hb]
      dsimp only
      rw [if_neg (by exact fun hc => absurd (hc ▸ hab) (lt_irrefl a))]
  · have h1 : ¬ (a < k) := fun hc => absurd (hc.trans h) (lt_irrefl a)
    have h2 : ¬ (a ≤ k) := fun hc => absurd (lt_of_le_of_lt hc h) (lt_irrefl a)
    rw [if_neg h2, descentIndex_eq, find_index_cons, if_neg h1]
    have h0 : (a :: l).get? 0 = some a := rfl
    rw [h0]
    dsimp only
    rw [if_neg (by exact fun hc => absurd (hc ▸ h) (lt_irrefl k))]

theorem descentIndex_le (l : List K) (k : K) (hs : List.Pairwise (· < ·) l) :
    descentIndex l k ≤ l.length := by
  induction l with
  | nil => simp [descentIndex_nil]
  | cons a rest ih =>
    rw [descentIndex_cons a rest k hs]
    have := ih hs.tail
    split <;> simp <;> omega

end SearchLemmas

section WfLemmas

variable {K : Type} [LinearOrder K]

/-- Lower-bound constraint of an optional separator bound. -/
def loLe (lo : Option K) (x : K) : Prop := ∀ a, lo = some a → a ≤ x

/-- Strict lower-bound constraint. -/
def loLt (lo : Option K) (x : K) : Prop := ∀ a, lo = some a → a < x

/-- Upper-bound constraint of an optional separator bound (strict). -/
def hiGt (hi : Option K) (x : K) : Prop := ∀ b, hi = some b → x < b

theorem inBoundsB_iff (lo hi : Option K) (x : K) :
    inBoundsB lo hi x = true ↔ loLe lo x ∧ hiGt hi x := by
  cases lo <;> cases hi <;> simp [inBoundsB, loLe, hiGt]

theorem wfB_leaf_iff (lo hi : Option K) (ks : List K) (vs : List V) :
    wfB lo hi (.leaf ks vs) = true ↔
      List.Pairwise (· < ·) ks ∧ ks.length = vs.length ∧
        ∀ x ∈ ks, loLe lo x ∧ hiGt hi x := by
  rw [wfB]
  simp [sortedB_iff_pairwise, inBoundsB_iff, List.all_eq_true, and_assoc]

theorem wfB_internal_iff (lo hi : Option K) (ks : List K) (cs : List (Node K)) :
    wfB lo hi (.internal ks cs) = true ↔
      List.Pairwise (· < ·) ks ∧ (∀ x ∈ ks, loLe lo x ∧ hiGt hi x) ∧
        wfKids lo hi ks cs = true := by
  rw [wfB]
  simp [sortedB_iff_pairwise, inBoundsB_iff, List.all_eq_true, and_assoc]

theorem wfKids_nil_nil (lo hi : Option K) :
    wfKids lo hi ([] : List K) ([] : List (Node K)) = false := rfl

theorem wfKids_nil_single (lo hi : Option K) (c : Node K) :
    wfKids lo hi ([] : List K) [c] = wfB lo hi c := rfl

theorem wfKids_nil_cons2 (lo hi : Option K) (c c2 : Node K) (rest : List (Node K)) :
    wfKids lo hi ([] : List K) (c :: c2 :: rest) = false := rfl

theorem wfKids_cons_nil (lo hi : Option K) (k0 : K) (ks : List K) :
    wfKids lo hi (k0 :: ks) ([] : List (Node K)) = false := rfl

theorem wfKids_cons_cons (lo hi : Option K) (k0 : K) (ks : List K)
    (c : Node K) (cs : List (Node K)) :
    wfKids lo hi (k0 :: ks) (c :: cs) =
      (wfB lo (some k0) c && wfKids (some k0) hi ks cs) := rfl

theorem nodeSize_pos (t : Node K) : 1 ≤ nodeSize t := by
  cases t <;> simp [nodeSize]

theorem nodeSize_le_kids (c : Node K) (cs : List (Node K)) (h : c ∈ cs) :
    nodeSize c ≤ nodeSizeKids cs := by
  induction cs with
  | nil => cases h
  | cons a rest ih =>
    rcases List.mem_cons.mp h with rfl | hm
    · simp [nodeSizeKids]
    · have := ih hm
      simp [nodeSizeKids]
      omega

theorem entriesKids_append (A B : List (Node K)) :
    entriesKids (A ++ B) = entriesKids A ++ entriesKids B := by
  induction A with
  | nil => rfl
  | cons c rest ih => simp [entriesKids, ih]

/-- The sorted-map upsert the insert algebra is compared against: replace
the value when the key is present, else insert at the sorted position. -/
def upsertEntries : List (K × V) → K → V → List (K × V)
  | [], k, v => [(k, v)]
  | (a, b) :: rest, k, v =>
    if k < a then (k, v) :: (a, b) :: rest
    else if k = a then (k, v) :: rest
    else (a, b) :: upsertEntries rest k v

theorem upsertEntries_append_left (A X : List (K × V)) (k : K) (v : V)
    (hA : ∀ e ∈ A, e.1 < k) :
    upsertEntries (A ++ X) k v = A ++ upsertEntries X k v := by
  induction A with
  | nil => rfl
  | cons a rest ih =>
    have ha : a.1 < k := hA a (by simp)
    have h1 : ¬ (k < a.1) := fun hc => absurd (ha.trans hc) (lt_irrefl a.1)
    have h2 : ¬ (k = a.1) := fun hc => absurd (hc ▸ ha) (lt_irrefl k)
    obtain ⟨a1, a2⟩ := a
    simp only [List.cons_append, upsertEntries, h1, h2, if_false, ite_false,
      List.append_eq]
    rw [ih (fun e he => hA e (by simp [he]))]

theorem upsertEntries_append_right (B C : List (K × V)) (k : K) (v : V)
    (hC : ∀ e ∈ C, k < e.1) :
    upsertEntries (B ++ C) k v = upsertEntries B k v ++ C := by
  induction B with
  | nil =>
    cases C with
    | nil => rfl
    | cons c rest =>
      have hc : k < c.1 := hC c (by simp)
      obtain ⟨c1, c2⟩ := c
      simp [upsertEntries, hc]
  | cons b rest ih =>
    obtain ⟨b1, b2⟩ := b
    simp only [List.cons_append, upsertEntries]
    by_cases h1 : k < b1
    · simp [h1]
    · by_cases h2 : k = b1
      · simp [h1, h2]
      · simp [h1, h2, ih]

end WfLemmas

section LeafLemmas

variable {K : Type} [LinearOrder K]

theorem find_index_locates (ks : List K) (k : K)
    (hs : List.Pairwise (· < ·) ks) (hm : k ∈ ks) :
    ks.get? (find_index ks k) = some k := by
  induction ks with
  | nil => cases hm
  | cons a rest ih =>
    rw [find_index_cons]
    by_cases h : a < k
    · rw [if_pos h]
      have hk : k ∈ rest := by
        rcases List.mem_cons.mp hm with rfl | hr
        · exact absurd h (lt_irrefl k)
        · exact hr
      have := ih hs.tail hk
      simpa using this
    · rw [if_neg h]
      rcases List.mem_cons.mp hm with rfl | hr
      · rfl
      · have : a < k := (List.pairwise_cons.mp hs).1 k hr
        exact absurd this h

theorem find_index_not_mem (ks : List K) (k : K)
    (hs : List.Pairwise (· < ·) ks)
    (h : ¬ ks.get? (find_index ks k) = some k) : k ∉ ks :=
  fun hm => h (find_index_locates ks k hs hm)

/-- The keys before `find_index` are `< k` (they form the `takeWhile`
prefix). -/
theorem find_index_prefix_lt (ks : List K) (k : K) (j : Nat)
    (hj : j < find_index ks k) : ∀ x, ks.get? j = some x → x < k := by
  induction ks generalizing j with
  | nil => simp [find_index_nil] at hj
  | cons a rest ih =>
    rw [find_index_cons] at hj
    by_cases h : a < k
    · rw [if_pos h] at hj
      cases j with
      | zero => intro x hx; cases hx; exact h
      | succ j2 =>
        intro x hx
        exact ih j2 (by omega) x hx
    · rw [if_neg h] at hj; omega

/-- Overwrite at the found position is the sorted-map upsert. -/
theorem zip_set_upsert (ks : List K) (vs : List V) (k : K) (v : V)
    (hs : List.Pairwise (· < ·) ks) (hlen : ks.length = vs.length)
    (hget : ks.get? (find_index ks k) = some k) :
    ks.zip (vs.set (find_index ks k) v) = upsertEntries (ks.zip vs) k v := by
  induction ks generalizing vs with
  | nil => simp [find_index_nil] at hget
  | cons a rest ih =>
    cases vs with
    | nil => simp at hlen
    | cons b vrest =>
      rw [find_index_cons] at hget ⊢
      by_cases h : a < k
      · rw [if_pos h] at hget ⊢
        have h1 : ¬ (k < a) := fun hc => absurd (h.trans hc) (lt_irrefl a)
        have h2 : ¬ (k = a) := fun hc => absurd (hc ▸ h) (lt_irrefl a)
        have hget2 : rest.get? (find_index rest k) = some k := by simpa using hget
        simp only [List.zip_cons_cons, upsertEntries, h1, h2, if_false, ite_false,
          List.set_cons_succ]
        rw [ih vrest hs.tail (by simpa using hlen) hget2]
        rfl
      · rw [if_neg h] at hget ⊢
        have ha : a = k := by simpa using hget
        subst ha
        have h1 : ¬ (a < a) := lt_irrefl a
        simp [upsertEntries, h1, List.zip]

/-- Insertion at `find_index` when the key is absent is the sorted-map
upsert. -/
theorem zip_insertIdx_upsert (ks : List K) (vs : List V) (k : K) (v : V)
    (hs : List.Pairwise (· < ·) ks) (hlen : ks.length = vs.length)
    (hget : ¬ ks.get? (find_index ks k) = some k) :
    (ks.insertIdx (find_index ks k) k).zip (vs.insertIdx (find_index ks k) v) =
      upsertEntries (ks.zip vs) k v := by
  induction ks generalizing vs with
  | nil =>
    cases vs with
    | nil => rfl
    | cons b vrest => simp at hlen
  | cons a rest ih =>
    cases vs with
    | nil => simp at hlen
    | cons b vrest =>
      rw [find_index_cons] at hget ⊢
      by_cases h : a < k
      · rw [if_pos h] at hget ⊢
        have h1 : ¬ (k < a) := fun hc => absurd (h.trans hc) (lt_irrefl a)
        have h2 : ¬ (k = a) := fun hc => absurd (hc ▸ h) (lt_irrefl a)
        have hget2 : ¬ rest.get? (find_index rest k) = some k := by
          simpa using hget
        simp only [List.insertIdx_succ_cons, List.zip_cons_cons, upsertEntries,
          h1, h2, if_false, ite_false]
        rw [ih vrest hs.tail (by simpa using hlen) hget2]
        rfl
      · rw [if_neg h] at hget ⊢
        have ha : ¬ (a = k) := by simpa using hget
        have hk : k < a := by
          rcases lt_trichotomy a k with hc | hc | hc
          · exact absurd hc h
          · exact absurd hc ha
          · exact hc
        simp [upsertEntries, hk, List.zip]

/-- Inserting `k` at `find_index` keeps the keys strictly sorted, provided
`k` is not already present at that position. -/
theorem insertIdx_find_index_pairwise (ks : List K) (k : K)
    (hs : List.Pairwise (· < ·) ks)
    (hget : ¬ ks.get? (find_index ks k) = some k) :
    List.Pairwise (· < ·) (ks.insertIdx (find_index ks k) k) := by
  induction ks with
  | nil => rw [find_index_nil, List.insertIdx_zero]; simp
  | cons a rest ih =>
    rw [find_index_cons] at hget ⊢
    by_cases h : a < k
    · rw [if_pos h] at hget ⊢
      rw [List.insertIdx_succ_cons]
      rw [List.pairwise_cons] at hs ⊢
      have hget2 : ¬ rest.get? (find_index rest k) = some k := by simpa using hget
      refine ⟨?_, ih hs.2 hget2⟩
      intro x hx
      rcases (List.mem_insertIdx (find_index_le_length rest k)).mp hx with rfl | hr
      · exact h
      · exact hs.1 x hr
    · rw [if_neg h] at hget ⊢
      have ha : ¬ (a = k) := by simpa using hget
      have hk : k < a := by
        rcases lt_trichotomy a k with hc | hc | hc
        · exact absurd hc h
        · exact absurd hc ha
        · exact hc
      rw [List.insertIdx_zero, List.pairwise_cons]
      refine ⟨?_, hs⟩
      intro x hx
      rcases List.mem_cons.mp hx with rfl | hr
      · exact hk
      · exact hk.trans ((List.pairwise_cons.mp hs).1 x hr)

theorem mem_insertIdx_find_index (ks : List K) (k x : K)
    (hx : x ∈ ks.insertIdx (find_index ks k) k) : x = k ∨ x ∈ ks := by
  have := (List.mem_insertIdx (find_index_le_length ks k)).mp hx
  tauto

theorem zip_take (ks : List K) (vs : List V) (p : Nat) :
    (ks.take p).zip (vs.take p) = (ks.zip vs).take p := by
  induction ks generalizing vs p with
  | nil => simp
  | cons a rest ih =>
    cases vs with
    | nil => simp
    | cons b vrest =>
      cases p with
      | zero => simp
      | succ p2 => simp [ih]

theorem zip_drop (ks : List K) (vs : List V) (p : Nat)
    (hlen : ks.length = vs.length) :
    (ks.drop p).zip (vs.drop p) = (ks.zip vs).drop p := by
  induction ks generalizing vs p with
  | nil =>
    cases vs with
    | nil => simp
    | cons b vrest => simp at hlen
  | cons a rest ih =>
    cases vs with
    | nil => simp at hlen
    | cons b vrest =>
      cases p with
      | zero => simp
      | succ p2 => simpa using ih vrest p2 (by simpa using hlen)

end LeafLemmas

section BoundsLemmas

variable {K : Type} [LinearOrder K]

theorem entriesKids_bounds_sorted_aux :
    ∀ (ks : List K) (cs : List (Node K)) (lo hi : Option K),
      (∀ c ∈ cs, ∀ lo2 hi2, wfB lo2 hi2 c = true →
        (∀ e ∈ entries c, loLe lo2 e.1 ∧ hiGt hi2 e.1) ∧
        List.Pairwise (· < ·) ((entries c).map Prod.fst)) →
      List.Pairwise (· < ·) ks →
      (∀ x ∈ ks, loLe lo x ∧ hiGt hi x) →
      wfKids lo hi ks cs = true →
      (∀ e ∈ entriesKids cs, loLe lo e.1 ∧ hiGt hi e.1) ∧
      List.Pairwise (· < ·) ((entriesKids cs).map Prod.fst) := by
  intro ks
  induction ks with
  | nil =>
    intro cs lo hi hpt hsort hb hkids
    match cs with
    | [] => rw [wfKids_nil_nil] at hkids; cases hkids
    | [c] =>
      rw [wfKids_nil_single] at hkids
      have := hpt c (by simp) lo hi hkids
      simpa [entriesKids] using this
    | c :: c2 :: rest => rw [wfKids_nil_cons2] at hkids; cases hkids
  | cons k0 ks2 ih =>
    intro cs lo hi hpt hsort hb hkids
    match cs with
    | [] => rw [wfKids_cons_nil] at hkids; cases hkids
    | c0 :: cs2 =>
      rw [wfKids_cons_cons, Bool.and_eq_true] at hkids
      obtain ⟨hc0, htail⟩ := hkids
      have hk0 := hb k0 (by simp)
      have hc0spec := hpt c0 (by simp) lo (some k0) hc0
      have htailspec := ih cs2 (some k0) hi
        (fun c hc => hpt c (by simp [hc]))
        hsort.tail
        (fun x hx => ⟨fun a ha => by
            cases ha
            exact le_of_lt ((List.pairwise_cons.mp hsort).1 x hx),
          (hb x (by simp [hx])).2⟩)
        htail
      rw [entriesKids]
      constructor
      · intro e he
        rcases List.mem_append.mp he with h1 | h2
        · have := hc0spec.1 e h1
          exact ⟨this.1, fun b hbb => lt_trans (this.2 k0 rfl) (hk0.2 b hbb)⟩
        · have := htailspec.1 e h2
          exact ⟨fun a ha => le_trans (hk0.1 a ha) (this.1 k0 rfl), this.2⟩
      · rw [List.map_append, List.pairwise_append]
        refine ⟨hc0spec.2, htailspec.2, ?_⟩
        intro x hx y hy
        rcases List.mem_map.mp hx with ⟨e1, he1, rfl⟩
        rcases List.mem_map.mp hy with ⟨e2, he2, rfl⟩
        have h1 : e1.1 < k0 := (hc0spec.1 e1 he1).2 k0 rfl
        have h2 : k0 ≤ e2.1 := (htailspec.1 e2 he2).1 k0 rfl
        exact lt_of_lt_of_le h1 h2

/-- Entries of a well-formed subtree respect its bounds and their keys are
strictly sorted. -/
theorem entries_bounds_sorted :
    ∀ n (t : Node K), nodeSize t ≤ n → ∀ lo hi, wfB lo hi t = true →
      (∀ e ∈ entries t, loLe lo e.1 ∧ hiGt hi e.1) ∧
      List.Pairwise (· < ·) ((entries t).map Prod.fst) := by
  intro n
  induction n with
  | zero => intro t h; have := nodeSize_pos t; omega
  | succ n ih =>
    intro t ht lo hi hwf
    cases t with
    | leaf ks vs =>
      rw [wfB_leaf_iff] at hwf
      obtain ⟨hsort, hlen, hb⟩ := hwf
      constructor
      · intro e he
        exact hb e.1 (List.of_mem_zip (by rw [entries] at he; exact he)).1
      · have he : (entries (Node.leaf ks vs)).map Prod.fst = ks := by
          rw [entries]; exact List.map_fst_zip ks vs (by omega)
        rw [he]; exact hsort
    | internal ks cs =>
      rw [wfB_internal_iff] at hwf
      obtain ⟨hsort, hb, hkids⟩ := hwf
      have hpt : ∀ c ∈ cs, ∀ lo2 hi2, wfB lo2 hi2 c = true →
          (∀ e ∈ entries c, loLe lo2 e.1 ∧ hiGt hi2 e.1) ∧
          List.Pairwise (· < ·) ((entries c).map Prod.fst) := by
        intro c hc lo2 hi2 hwf2
        apply ih c ?_ lo2 hi2 hwf2
        have h1 := nodeSize_le_kids c cs hc
        have h2 : nodeSize (Node.internal ks cs) = 1 + nodeSizeKids cs := by
          rw [nodeSize]
        omega
      have := entriesKids_bounds_sorted_aux ks cs lo hi hpt hsort hb hkids
      rw [entries]
      exact this

end BoundsLemmas

section KidsLemmas

variable {K : Type} [LinearOrder K]

theorem entriesKids_set (cs : List (Node K)) (i : Nat) (c2 : Node K)
    (h : i < cs.length) :
    entriesKids (cs.set i c2) =
      entriesKids (cs.take i) ++ entries c2 ++ entriesKids (cs.drop (i + 1)) := by
  induction cs generalizing i with
  | nil => simp at h
  | cons c rest ih =>
    cases i with
    | zero => simp [entriesKids]
    | succ i2 =>
      simp only [List.set_cons_succ, List.take_succ_cons, List.drop_succ_cons,
        entriesKids, ih i2 (by simpa using h), List.append_assoc]

theorem entriesKids_getD (cs : List (Node K)) (i : Nat) (dflt : Node K)
    (h : i < cs.length) :
    entriesKids cs =
      entriesKids (cs.take i) ++ entries (cs.getD i dflt) ++
        entriesKids (cs.drop (i + 1)) := by
  induction cs generalizing i with
  | nil => simp at h
  | cons c rest ih =>
    cases i with
    | zero => simp [entriesKids]
    | succ i2 =>
      have := ih i2 (by simpa using h)
      simp only [List.take_succ_cons, List.drop_succ_cons, List.getD_cons_succ,
        entriesKids]
      rw [this]
      simp [List.append_assoc]

theorem entriesKids_set_insertIdx (cs : List (Node K)) (i : Nat)
    (l r : Node K) (h : i < cs.length) :
    entriesKids ((cs.set i l).insertIdx (i + 1) r) =
      entriesKids (cs.take i) ++ (entries l ++ entries r) ++
        entriesKids (cs.drop (i + 1)) := by
  induction cs generalizing i with
  | nil => simp at h
  | cons c rest ih =>
    cases i with
    | zero =>
      rw [List.set_cons_zero, List.insertIdx_succ_cons, List.insertIdx_zero]
      simp [entriesKids, List.append_assoc]
    | succ i2 =>
      rw [List.set_cons_succ, List.insertIdx_succ_cons]
      rw [entriesKids, ih i2 (by simpa using h)]
      rw [List.take_succ_cons, List.drop_succ_cons, entriesKids]
      simp [List.append_assoc]

theorem insertKids_spec (order : Nat) (k : K) (v : V) (cs : List (Node K))
    (i : Nat) (h : i < cs.length) :
    insertKids order k v cs i =
      some (match insertRec order k v (cs.getD i (.leaf [] [])) with
        | .one c2 => .inl (cs.set i c2)
        | .split l sep r => .inr (cs.set i l, sep, r)) := by
  induction cs generalizing i with
  | nil => simp at h
  | cons c rest ih =>
    cases i with
    | zero =>
      rw [insertKids, List.getD_cons_zero]
      cases insertRec order k v c <;> rfl
    | succ i2 =>
      rw [insertKids, ih i2 (by simpa using h), List.getD_cons_succ]
      cases insertRec order k v (rest.getD i2 (.leaf [] [])) <;> rfl

theorem findKids_spec (k : K) (cs : List (Node K)) (i : Nat)
    (h : i < cs.length) :
    findKids k cs i = findRec k (cs.getD i (.leaf [] [])) := by
  induction cs generalizing i with
  | nil => simp at h
  | cons c rest ih =>
    cases i with
    | zero => rw [findKids, List.getD_cons_zero]
    | succ i2 => rw [findKids, ih i2 (by simpa using h), List.getD_cons_succ]

theorem chainKids_spec (k : K) (cs : List (Node K)) (i : Nat)
    (h : i < cs.length) :
    chainKids k cs i =
      chainFrom k (cs.getD i (.leaf [] [])) ++ leavesKids (cs.drop (i + 1)) := by
  induction cs generalizing i with
  | nil => simp at h
  | cons c rest ih =>
    cases i with
    | zero =>
      rw [chainKids, List.getD_cons_zero, List.drop_succ_cons, List.drop_zero]
    | succ i2 =>
      rw [chainKids, ih i2 (by simpa using h), List.getD_cons_succ,
        List.drop_succ_cons]

theorem wfKids_split (dflt : K) :
    ∀ (p : Nat) (ks : List K) (cs : List (Node K)) (lo hi : Option K),
    wfKids lo hi ks cs = true → p < ks.length →
    wfKids lo (some (ks.getD p dflt)) (ks.take p) (cs.take (p + 1)) = true ∧
    wfKids (some (ks.getD p dflt)) hi (ks.drop (p + 1)) (cs.drop (p + 1)) = true := by
  intro p
  induction p with
  | zero =>
    intro ks cs lo hi hkids hp
    match ks, cs with
    | [], _ => simp at hp
    | k0 :: ks2, [] => rw [wfKids_cons_nil] at hkids; cases hkids
    | k0 :: ks2, c0 :: cs2 =>
      rw [wfKids_cons_cons, Bool.and_eq_true] at hkids
      refine ⟨?_, ?_⟩
      · simpa [wfKids_nil_single] using hkids.1
      · simpa using hkids.2
  | succ p2 ih =>
    intro ks cs lo hi hkids hp
    match ks, cs with
    | [], _ => simp at hp
    | k0 :: ks2, [] => rw [wfKids_cons_nil] at hkids; cases hkids
    | k0 :: ks2, c0 :: cs2 =>
      rw [wfKids_cons_cons, Bool.and_eq_true] at hkids
      have := ih ks2 cs2 (some k0) hi hkids.2 (by simpa using hp)
      refine ⟨?_, ?_⟩
      · rw [List.getD_cons_succ, List.take_succ_cons,
          show (c0 :: cs2).take (p2 + 1 + 1) = c0 :: cs2.take (p2 + 1) from rfl,
          wfKids_cons_cons, Bool.and_eq_true]
        exact ⟨hkids.1, this.1⟩
      · simpa using this.2

end KidsLemmas

section DescendLemma

variable {K : Type} [LinearOrder K]

theorem wfKids_length :
    ∀ (ks : List K) (cs : List (Node K)) (lo hi : Option K),
    wfKids lo hi ks cs = true → cs.length = ks.length + 1 := by
  intro ks
  induction ks with
  | nil =>
    intro cs lo hi h
    match cs with
    | [] => rw [wfKids_nil_nil] at h; cases h
    | [c] => rfl
    | c :: c2 :: rest => rw [wfKids_nil_cons2] at h; cases h
  | cons k0 ks2 ih =>
    intro cs lo hi h
    match cs with
    | [] => rw [wfKids_cons_nil] at h; cases h
    | c0 :: cs2 =>
      rw [wfKids_cons_cons, Bool.and_eq_true] at h
      have := ih cs2 (some k0) hi h.2
      simp [this]

/-- Descent decomposition at one internal level: the child chosen by
`descentIndex` is well formed between refined bounds containing `k`, the
skipped siblings' entries lie strictly left/right of `k`, and the node can
absorb either an updated child or a split (separator plus right node) in
that slot, preserving `wfKids`; on a split the parent's
`find_index(sep)` lands exactly at the descent index. -/
theorem wfKids_descend (k : K) :
    ∀ (ks : List K) (cs : List (Node K)) (lo hi : Option K),
    (∀ c ∈ cs, ∀ lo2 hi2, wfB lo2 hi2 c = true →
      (∀ e ∈ entries c, loLe lo2 e.1 ∧ hiGt hi2 e.1) ∧
      List.Pairwise (· < ·) ((entries c).map Prod.fst)) →
    List.Pairwise (· < ·) ks →
    (∀ x ∈ ks, loLe lo x ∧ hiGt hi x) →
    wfKids lo hi ks cs = true →
    loLe lo k → hiGt hi k →
    ∃ lb ub,
      cs.length = ks.length + 1 ∧
      wfB lb ub (cs.getD (descentIndex ks k) (.leaf [] [])) = true ∧
      loLe lb k ∧ hiGt ub k ∧
      (∀ x, lo = some x → ∃ y, lb = some y ∧ x ≤ y) ∧
      (∀ e ∈ entriesKids (cs.take (descentIndex ks k)), e.1 < k) ∧
      (∀ e ∈ entriesKids (cs.drop (descentIndex ks k + 1)), k < e.1) ∧
      (∀ c2, wfB lb ub c2 = true →
        wfKids lo hi ks (cs.set (descentIndex ks k) c2) = true) ∧
      (∀ sep l r, (∀ y, lb = some y → y < sep) → hiGt ub sep →
        wfB lb (some sep) l = true → wfB (some sep) ub r = true →
        find_index ks sep = descentIndex ks k ∧
        loLt lo sep ∧ hiGt hi sep ∧
        List.Pairwise (· < ·) (ks.insertIdx (descentIndex ks k) sep) ∧
        wfKids lo hi (ks.insertIdx (descentIndex ks k) sep)
          ((cs.set (descentIndex ks k) l).insertIdx
            (descentIndex ks k + 1) r) = true) := by
  intro ks
  induction ks with
  | nil =>
    intro cs lo hi hpt hsort hb hkids hlok hhik
    match cs with
    | [] => rw [wfKids_nil_nil] at hkids; cases hkids
    | c :: c2 :: rest => rw [wfKids_nil_cons2] at hkids; cases hkids
    | [c] =>
      rw [wfKids_nil_single] at hkids
      refine ⟨lo, hi, rfl, ?_, hlok, hhik, fun x hx => ⟨x, hx, le_rfl⟩,
        ?_, ?_, ?_, ?_⟩
      · simpa [descentIndex_nil] using hkids
      · intro e he; rw [descentIndex_nil] at he; simp [entriesKids] at he
      · intro e he; rw [descentIndex_nil] at he; simp [entriesKids] at he
      · intro cc hcc
        rw [descentIndex_nil]
        simpa [wfKids_nil_single] using hcc
      · intro sep l r hlbs hubs hl hr
        rw [descentIndex_nil]
        refine ⟨rfl, fun a ha => hlbs a ha, hubs, by simp, ?_⟩
        rw [List.insertIdx_zero, List.set_cons_zero,
          show List.insertIdx 1 r [l] = [l, r] from rfl,
          wfKids_cons_cons, Bool.and_eq_true]
        exact ⟨hl, by simpa [wfKids_nil_single] using hr⟩
  | cons k0 ks2 ih =>
    intro cs lo hi hpt hsort hb hkids hlok hhik
    match cs with
    | [] => rw [wfKids_cons_nil] at hkids; cases hkids
    | c0 :: cs2 =>
      rw [wfKids_cons_cons, Bool.and_eq_true] at hkids
      obtain ⟨hc0, htail⟩ := hkids
      have hk0 := hb k0 (by simp)
      have hdi := descentIndex_cons k0 ks2 k hsort
      have hbtail : ∀ x ∈ ks2, loLe (some k0) x ∧ hiGt hi x := by
        intro x hx
        exact ⟨fun a ha => by
            cases ha
            exact le_of_lt ((List.pairwise_cons.mp hsort).1 x hx),
          (hb x (by simp [hx])).2⟩
      by_cases h0 : k0 ≤ k
      · -- descend to the right of k0
        rw [if_pos h0] at hdi
        obtain ⟨lb, ub, hlen, hchild, hlbk, hubk, hopt, htake, hdrop,
          hset, hsplit⟩ :=
          ih cs2 (some k0) hi (fun c hc => hpt c (by simp [hc])) hsort.tail
            hbtail htail (fun a ha => by cases ha; exact h0) hhik
        refine ⟨lb, ub, by simp [hlen], ?_, hlbk, hubk, ?_, ?_, ?_, ?_, ?_⟩
        · rw [hdi, List.getD_cons_succ]; exact hchild
        · intro x hx
          obtain ⟨y, hy, hky⟩ := hopt k0 rfl
          exact ⟨y, hy, le_trans ((hb k0 (by simp)).1 x hx) hky⟩
        · rw [hdi]
          intro e he
          rw [List.take_succ_cons, entriesKids] at he
          rcases List.mem_append.mp he with h1 | h2
          · have := (hpt c0 (by simp) lo (some k0) hc0).1 e h1
            exact lt_of_lt_of_le (this.2 k0 rfl) h0
          · exact htake e h2
        · rw [hdi]
          intro e he
          rw [List.drop_succ_cons] at he
          exact hdrop e he
        · intro cc hcc
          rw [hdi, List.set_cons_succ, wfKids_cons_cons, Bool.and_eq_true]
          exact ⟨hc0, hset cc hcc⟩
        · intro sep l r hlbs hubs hl hr
          obtain ⟨hfi, hlosep, hhisep, hpw, hwk⟩ := hsplit sep l r hlbs hubs hl hr
          have hk0sep : k0 < sep := hlosep k0 rfl
          refine ⟨?_, ?_, hhisep, ?_, ?_⟩
          · rw [hdi, find_index_cons, if_pos hk0sep, hfi]
          · intro a ha
            cases ha
            exact lt_of_le_of_lt (hk0.1 _ rfl) hk0sep
          · rw [hdi, List.insertIdx_succ_cons, List.pairwise_cons]
            refine ⟨?_, hpw⟩
            intro x hx
            rcases (List.mem_insertIdx (descentIndex_le ks2 k hsort.tail)).mp hx
              with rfl | hr2
            · exact hk0sep
            · exact (List.pairwise_cons.mp hsort).1 x hr2
          · rw [hdi, List.insertIdx_succ_cons, List.set_cons_succ,
              List.insertIdx_succ_cons, wfKids_cons_cons, Bool.and_eq_true]
            exact ⟨hc0, hwk⟩
      · -- k < k0: descend into the first child
        rw [if_neg h0] at hdi
        have hkk0 : k < k0 := lt_of_not_le h0
        have hlen2 := wfKids_length ks2 cs2 (some k0) hi htail
        refine ⟨lo, some k0, by simp [hlen2], ?_, hlok, ?_,
          fun x hx => ⟨x, hx, le_rfl⟩, ?_, ?_, ?_, ?_⟩
        · rw [hdi, List.getD_cons_zero]; exact hc0
        · intro b hbb; cases hbb; exact hkk0
        · rw [hdi]
          intro e he; simp [entriesKids] at he
        · rw [hdi]
          intro e he
          rw [List.drop_succ_cons, List.drop_zero] at he
          have := (entriesKids_bounds_sorted_aux ks2 cs2 (some k0) hi
            (fun c hc => hpt c (by simp [hc])) hsort.tail hbtail htail).1 e he
          exact lt_of_lt_of_le hkk0 (this.1 k0 rfl)
        · intro cc hcc
          rw [hdi, List.set_cons_zero, wfKids_cons_cons, Bool.and_eq_true]
          exact ⟨hcc, htail⟩
        · intro sep l r hlbs hubs hl hr
          have hsepk0 : sep < k0 := hubs k0 rfl
          refine ⟨?_, fun a ha => hlbs a ha, ?_, ?_, ?_⟩
          · rw [hdi, find_index_cons,
              if_neg (fun hc => absurd (hc.trans hsepk0) (lt_irrefl k0))]
          · exact fun b hbb => lt_trans hsepk0 (hk0.2 b hbb)
          · rw [hdi, List.insertIdx_zero, List.pairwise_cons]
            refine ⟨?_, hsort⟩
            intro x hx
            rcases List.mem_cons.mp hx with rfl | hr2
            · exact hsepk0
            · exact hsepk0.trans ((List.pairwise_cons.mp hsort).1 x hr2)
          · rw [hdi, List.insertIdx_zero, List.set_cons_zero,
              List.insertIdx_succ_cons, List.insertIdx_zero,
              wfKids_cons_cons, Bool.and_eq_true]
            refine ⟨hl, ?_⟩
            rw [wfKids_cons_cons, Bool.and_eq_true]
            exact ⟨hr, htail⟩

end DescendLemma

section SplitLemmas

variable {K : Type} [LinearOrder K]

mutual

/-- A subtree with the stored values erased: the "structure" C8 says an
overwriting insert leaves untouched. -/
def stripV : Node K → Node K
  | .leaf ks _ => .leaf ks []
  | .internal ks cs => .internal ks (stripKids cs)

/-- `stripV` over a child list. -/
def stripKids : List (Node K) → List (Node K)
  | [] => []
  | c :: rest => stripV c :: stripKids rest

end

theorem getD_mem_of_lt {α : Type} (l : List α) (n : Nat) (d : α)
    (h : n < l.length) : l.getD n d ∈ l := by
  rw [List.getD_eq_getElem l d h]; exact List.getElem_mem h

theorem pairwise_take_lt (l : List K) (p : Nat) (d : K)
    (hs : List.Pairwise (· < ·) l) (hp : p < l.length) :
    ∀ x ∈ l.take p, x < l.getD p d := by
  induction l generalizing p with
  | nil => simp at hp
  | cons a rest ih =>
    cases p with
    | zero => simp
    | succ p2 =>
      intro x hx
      rw [List.take_succ_cons] at hx
      rw [List.getD_cons_succ]
      rcases List.mem_cons.mp hx with rfl | hr
      · exact (List.pairwise_cons.mp hs).1 _
          (getD_mem_of_lt rest p2 d (by simpa using hp))
      · exact ih p2 hs.tail (by simpa using hp) x hr

theorem pairwise_drop_ge (l : List K) (p : Nat) (d : K)
    (hs : List.Pairwise (· < ·) l) (hp : p < l.length) :
    ∀ x ∈ l.drop p, l.getD p d ≤ x := by
  induction l generalizing p with
  | nil => simp at hp
  | cons a rest ih =>
    cases p with
    | zero =>
      intro x hx
      rw [List.drop_zero] at hx
      rw [List.getD_cons_zero]
      rcases List.mem_cons.mp hx with rfl | hr
      · exact le_rfl
      · exact le_of_lt ((List.pairwise_cons.mp hs).1 x hr)
    | succ p2 =>
      intro x hx
      rw [List.drop_succ_cons] at hx
      rw [List.getD_cons_succ]
      exact ih p2 hs.tail (by simpa using hp) x hx

theorem split_sep_lo (l : List K) (p : Nat) (d : K) (lo : Option K)
    (hs : List.Pairwise (· < ·) l) (hb : ∀ x ∈ l, loLe lo x)
    (hp1 : 1 ≤ p) (hp : p < l.length) : loLt lo (l.getD p d) := by
  intro a ha
  cases l with
  | nil => simp at hp
  | cons y rest =>
    have h1 : a ≤ y := hb y (by simp) a ha
    cases p with
    | zero => omega
    | succ p2 =>
      rw [List.getD_cons_succ]
      have h2 : y < rest.getD p2 d :=
        (List.pairwise_cons.mp hs).1 _ (getD_mem_of_lt rest p2 d (by simpa using hp))
      exact lt_of_le_of_lt h1 h2

theorem stripKids_set (cs : List (Node K)) (i : Nat) (c2 : Node K)
    (h : i < cs.length)
    (heq : stripV c2 = stripV (cs.getD i (.leaf [] []))) :
    stripKids (cs.set i c2) = stripKids cs := by
  induction cs generalizing i with
  | nil => simp at h
  | cons c rest ih =>
    cases i with
    | zero =>
      rw [List.getD_cons_zero] at heq
      rw [List.set_cons_zero, stripKids, stripKids, heq]
    | succ i2 =>
      rw [List.getD_cons_succ] at heq
      rw [List.set_cons_succ, stripKids, stripKids,
        ih i2 (by simpa using h) heq]

end SplitLemmas

section InsertCorrect

variable {K : Type} [LinearOrder K]

/-- What C8 needs of one `insertRec` result: an absorbed insert is well
formed with upserted entries (key structure untouched when `k` was
present); a split is a well-formed pair around an in-range separator,
jointly carrying the upserted entries, and can only happen when `k` was
absent. -/
def insertResOk (k : K) (v : V) (es : List (K × V)) (lo hi : Option K)
    (oldStrip : Node K) : InsRes K → Prop
  | .one t2 =>
      wfB lo hi t2 = true ∧
      entries t2 = upsertEntries es k v ∧
      (k ∈ es.map Prod.fst → stripV t2 = oldStrip)
  | .split l sep r =>
      wfB lo (some sep) l = true ∧ wfB (some sep) hi r = true ∧
      loLt lo sep ∧ hiGt hi sep ∧
      entries l ++ entries r = upsertEntries es k v ∧
      k ∉ es.map Prod.fst

theorem insertRec_leaf_found_eq (order : Nat) (k : K) (v : V)
    (ks : List K) (vs : List V)
    (hget : ks.get? (find_index ks k) = some k) :
    insertRec order k v (.leaf ks vs) =
      .one (.leaf ks (vs.set (find_index ks k) v)) := by
  rw [insertRec]
  dsimp only
  rw [hget]
  dsimp only
  rw [if_pos rfl]

theorem insertRec_leaf_notfound_eq (order : Nat) (k : K) (v : V)
    (ks : List K) (vs : List V)
    (hnget : ¬ ks.get? (find_index ks k) = some k) :
    insertRec order k v (.leaf ks vs) =
      (if is_overloaded (ks.insertIdx (find_index ks k) k).length order then
        .split
          (.leaf ((ks.insertIdx (find_index ks k) k).take
                    (((ks.insertIdx (find_index ks k) k).length + 1) / 2))
                 ((vs.insertIdx (find_index ks k) v).take
                    (((ks.insertIdx (find_index ks k) k).length + 1) / 2)))
          ((ks.insertIdx (find_index ks k) k).getD
            (((ks.insertIdx (find_index ks k) k).length + 1) / 2) k)
          (.leaf ((ks.insertIdx (find_index ks k) k).drop
                    (((ks.insertIdx (find_index ks k) k).length + 1) / 2))
                 ((vs.insertIdx (find_index ks k) v).drop
                    (((ks.insertIdx (find_index ks k) k).length + 1) / 2)))
      else .one (.leaf (ks.insertIdx (find_index ks k) k)
                       (vs.insertIdx (find_index ks k) v))) := by
  rw [insertRec]
  dsimp only
  cases hg : ks.get? (find_index ks k) with
  | none => rfl
  | some x =>
    dsimp only
    rw [if_neg (fun hx => hnget (by rw [hg, hx]))]

theorem insertRec_internal_eq (order : Nat) (k : K) (v : V)
    (ks : List K) (cs : List (Node K)) :
    insertRec order k v (.internal ks cs) =
      (match insertKids order k v cs (descentIndex ks k) with
       | none => .one (.internal ks cs)
       | some (.inl children2) => .one (.internal ks children2)
       | some (.inr (children1, sep, r)) =>
         if is_overloaded (ks.insertIdx (find_index ks sep) sep).length order then
           .split
             (.internal
               (internal_split (ks.insertIdx (find_index ks sep) sep)
                 (children1.insertIdx (find_index ks sep + 1) r)).1.1
               (internal_split (ks.insertIdx (find_index ks sep) sep)
                 (children1.insertIdx (find_index ks sep + 1) r)).1.2)
             (effective_sep (ks.insertIdx (find_index ks sep) sep) sep)
             (.internal
               (internal_split (ks.insertIdx (find_index ks sep) sep)
                 (children1.insertIdx (find_index ks sep + 1) r)).2.1
               (internal_split (ks.insertIdx (find_index ks sep) sep)
                 (children1.insertIdx (find_index ks sep + 1) r)).2.2)
         else .one (.internal (ks.insertIdx (find_index ks sep) sep)
                    (children1.insertIdx (find_index ks sep + 1) r))) := by
  rw [insertRec]

/-- The leaf case of the main induction. -/
theorem insertRec_correct_leaf (k : K) (v : V) (order : Nat) (hord : 1 ≤ order)
    (ks : List K) (vs : List V) (lo hi : Option K)
    (hwf : wfB lo hi (.leaf ks vs) = true)
    (hlok : loLe lo k) (hhik : hiGt hi k) :
    insertResOk k v (entries (Node.leaf ks vs)) lo hi
      (stripV (Node.leaf ks vs)) (insertRec order k v (.leaf ks vs)) := by
  rw [wfB_leaf_iff] at hwf
  obtain ⟨hsort, hlen, hb⟩ := hwf
  have hfst : (entries (Node.leaf ks vs)).map Prod.fst = ks := by
    rw [entries]; exact List.map_fst_zip ks vs (by omega)
  by_cases hget : ks.get? (find_index ks k) = some k
  · rw [insertRec_leaf_found_eq order k v ks vs hget]
    refine ⟨?_, ?_, fun _ => rfl⟩
    · rw [wfB_leaf_iff]
      exact ⟨hsort, by simp [hlen], hb⟩
    · rw [entries, entries]
      exact zip_set_upsert ks vs k v hsort hlen hget
  · rw [insertRec_leaf_notfound_eq order k v ks vs hget]
    have hkmem : k ∉ ks := find_index_not_mem ks k hsort hget
    have hile : find_index ks k ≤ ks.length := find_index_le_length ks k
    have hlen2 : (ks.insertIdx (find_index ks k) k).length = ks.length + 1 :=
      List.length_insertIdx _ _ hile
    have hlenv : (vs.insertIdx (find_index ks k) v).length = vs.length + 1 :=
      List.length_insertIdx _ _ (by omega)
    have hsort2 := insertIdx_find_index_pairwise ks k hsort hget
    have hb2 : ∀ x ∈ ks.insertIdx (find_index ks k) k, loLe lo x ∧ hiGt hi x := by
      intro x hx
      rcases mem_insertIdx_find_index ks k x hx with rfl | hr
      · exact ⟨hlok, hhik⟩
      · exact hb x hr
    have hzip : (ks.insertIdx (find_index ks k) k).zip
        (vs.insertIdx (find_index ks k) v) =
        upsertEntries (ks.zip vs) k v :=
      zip_insertIdx_upsert ks vs k v hsort hlen hget
    by_cases ho : is_overloaded (ks.insertIdx (find_index ks k) k).length order
    · rw [if_pos ho]
      have hover : (ks.insertIdx (find_index ks k) k).length > order := by
        simpa [is_overloaded] using ho
      set keys2 := ks.insertIdx (find_index ks k) k with hkeys2
      set vals2 := vs.insertIdx (find_index ks k) v with hvals2
      set p := (keys2.length + 1) / 2 with hp
      have hplt : p < keys2.length := by omega
      have hp1 : 1 ≤ p := by omega
      have hsep : keys2.getD p k ∈ keys2 := getD_mem_of_lt keys2 p k hplt
      refine ⟨?_, ?_, ?_, ?_, ?_, ?_⟩
      · rw [wfB_leaf_iff]
        refine ⟨hsort2.sublist (List.take_sublist p keys2), ?_, ?_⟩
        · simp only [List.length_take]
          omega
        · intro x hx
          exact ⟨(hb2 x (List.mem_of_mem_take hx)).1,
            fun b hbb => by cases hbb; exact pairwise_take_lt keys2 p k hsort2 hplt x hx⟩
      · rw [wfB_leaf_iff]
        refine ⟨hsort2.sublist (List.drop_sublist p keys2), ?_, ?_⟩
        · simp only [List.length_drop]
          omega
        · intro x hx
          exact ⟨fun a ha => by cases ha; exact pairwise_drop_ge keys2 p k hsort2 hplt x hx,
            (hb2 x (List.mem_of_mem_drop hx)).2⟩
      · exact split_sep_lo keys2 p k lo hsort2 (fun x hx => (hb2 x hx).1) hp1 hplt
      · exact (hb2 _ hsep).2
      · rw [entries, entries, zip_take, zip_drop keys2 vals2 p (by omega),
          List.take_append_drop, hzip, entries]
      · rw [hfst]; exact hkmem
    · rw [if_neg ho]
      refine ⟨?_, ?_, ?_⟩
      · rw [wfB_leaf_iff]
        exact ⟨hsort2, by omega, hb2⟩
      · rw [entries, entries]
        exact hzip
      · intro hmem
        rw [hfst] at hmem
        exact absurd hmem hkmem

end InsertCorrect

section InsertMain

variable {K : Type} [LinearOrder K]

/-- Main insert lemma, by strong induction on the node count. -/
theorem insertRec_correct (k : K) (v : V) (order : Nat) (hord : 1 ≤ order) :
    ∀ n (t : Node K), nodeSize t ≤ n →
    ∀ lo hi, wfB lo hi t = true → loLe lo k → hiGt hi k →
    insertResOk k v (entries t) lo hi (stripV t) (insertRec order k v t) := by
  intro n
  induction n with
  | zero => intro t h; have := nodeSize_pos t; omega
  | succ n ih =>
    intro t ht lo hi hwf hlok hhik
    cases t with
    | leaf ks vs => exact insertRec_correct_leaf k v order hord ks vs lo hi hwf hlok hhik
    | internal ks cs =>
      rw [wfB_internal_iff] at hwf
      obtain ⟨hsort, hbks, hkids⟩ := hwf
      have hpt : ∀ c ∈ cs, ∀ lo2 hi2, wfB lo2 hi2 c = true →
          (∀ e ∈ entries c, loLe lo2 e.1 ∧ hiGt hi2 e.1) ∧
          List.Pairwise (· < ·) ((entries c).map Prod.fst) :=
        fun c hc lo2 hi2 hw => entries_bounds_sorted (nodeSize c) c le_rfl lo2 hi2 hw
      obtain ⟨lb, ub, hlen, hchild, hlbk, hubk, hopt, htake, hdrop, hset, hsplit⟩ :=
        wfKids_descend k ks cs lo hi hpt hsort hbks hkids hlok hhik
      have hile : descentIndex ks k ≤ ks.length := descentIndex_le ks k hsort
      have hilt : descentIndex ks k < cs.length := by omega
      have hcsize : nodeSize (cs.getD (descentIndex ks k) (.leaf [] [])) ≤ n := by
        have h1 := nodeSize_le_kids _ cs
          (getD_mem_of_lt cs (descentIndex ks k) (.leaf [] []) hilt)
        have h2 : nodeSize (Node.internal ks cs) = 1 + nodeSizeKids cs := rfl
        omega
      have hchildRes := ih _ hcsize lb ub hchild hlbk hubk
      have hEt : entries (Node.internal ks cs) = entriesKids cs := rfl
      have hdecomp := entriesKids_getD cs (descentIndex ks k) (.leaf [] []) hilt
      have hUcalc : ∀ X : List (K × V),
          X = upsertEntries (entries (cs.getD (descentIndex ks k) (.leaf [] []))) k v →
          entriesKids (cs.take (descentIndex ks k)) ++ X ++
            entriesKids (cs.drop (descentIndex ks k + 1)) =
          upsertEntries (entriesKids cs) k v := by
        intro X hX
        have h1 := upsertEntries_append_left
          (entriesKids (cs.take (descentIndex ks k)))
          (entries (cs.getD (descentIndex ks k) (.leaf [] [])) ++
            entriesKids (cs.drop (descentIndex ks k + 1))) k v htake
        have h2 := upsertEntries_append_right
          (entries (cs.getD (descentIndex ks k) (.leaf [] [])))
          (entriesKids (cs.drop (descentIndex ks k + 1))) k v hdrop
        calc entriesKids (cs.take (descentIndex ks k)) ++ X ++
              entriesKids (cs.drop (descentIndex ks k + 1))
            = entriesKids (cs.take (descentIndex ks k)) ++
                (upsertEntries
                  (entries (cs.getD (descentIndex ks k) (.leaf [] []))) k v ++
                  entriesKids (cs.drop (descentIndex ks k + 1))) := by
              rw [hX, List.append_assoc]
          _ = entriesKids (cs.take (descentIndex ks k)) ++
                upsertEntries
                  (entries (cs.getD (descentIndex ks k) (.leaf [] [])) ++
                    entriesKids (cs.drop (descentIndex ks k + 1))) k v := by
              rw [h2]
          _ = upsertEntries
                (entriesKids (cs.take (descentIndex ks k)) ++
                  (entries (cs.getD (descentIndex ks k) (.leaf [] [])) ++
                    entriesKids (cs.drop (descentIndex ks k + 1)))) k v := h1.symm
          _ = upsertEntries (entriesKids cs) k v := by
              rw [← List.append_assoc, ← hdecomp]
      rw [insertRec_internal_eq, insertKids_spec order k v cs (descentIndex ks k) hilt]
      cases hres : insertRec order k v (cs.getD (descentIndex ks k) (.leaf [] [])) with
      | one c2 =>
        rw [hres] at hchildRes
        obtain ⟨hwf2, hent2, hstrip2⟩ := hchildRes
        refine ⟨?_, ?_, ?_⟩
        · rw [wfB_internal_iff]; exact ⟨hsort, hbks, hset c2 hwf2⟩
        · rw [hEt]
          show entriesKids (cs.set (descentIndex ks k) c2) =
            upsertEntries (entriesKids cs) k v
          rw [entriesKids_set cs (descentIndex ks k) c2 hilt]
          exact hUcalc (entries c2) hent2
        · intro hkm
          rw [hEt, hdecomp] at hkm
          simp only [List.map_append, List.mem_append] at hkm
          have hkB : k ∈ (entries (cs.getD (descentIndex ks k) (.leaf [] []))).map
              Prod.fst := by
            rcases hkm with (hA | hB) | hC
            · rcases List.mem_map.mp hA with ⟨e, he, rfl⟩
              exact absurd (htake e he) (lt_irrefl _)
            · exact hB
            · rcases List.mem_map.mp hC with ⟨e, he, rfl⟩
              exact absurd (hdrop e he) (lt_irrefl _)
          show Node.internal ks (stripKids (cs.set (descentIndex ks k) c2)) =
            Node.internal ks (stripKids cs)
          rw [stripKids_set cs (descentIndex ks k) c2 hilt (hstrip2 hkB)]
      | split l0 sep0 r0 =>
        rw [hres] at hchildRes
        obtain ⟨hwl, hwr, hlosep, hhisep, hent2, hnotmem⟩ := hchildRes
        obtain ⟨hfi, hlosep2, hhisep2, hpw2, hwk2⟩ :=
          hsplit sep0 l0 r0 (fun y hy => hlosep y hy) hhisep hwl hwr
        have hknot : k ∉ (entriesKids cs).map Prod.fst := by
          rw [hdecomp]
          simp only [List.map_append, List.mem_append]
          rintro ((hA | hB) | hC)
          · rcases List.mem_map.mp hA with ⟨e, he, rfl⟩
            exact absurd (htake e he) (lt_irrefl _)
          · exact hnotmem hB
          · rcases List.mem_map.mp hC with ⟨e, he, rfl⟩
            exact absurd (hdrop e he) (lt_irrefl _)
        have hb2 : ∀ x ∈ ks.insertIdx (descentIndex ks k) sep0,
            loLe lo x ∧ hiGt hi x := by
          intro x hx
          rcases (List.mem_insertIdx hile).mp hx with rfl | hr
          · exact ⟨fun a ha => le_of_lt (hlosep2 a ha), hhisep2⟩
          · exact hbks x hr
        have hlen2 : (ks.insertIdx (descentIndex ks k) sep0).length = ks.length + 1 :=
          List.length_insertIdx _ _ hile
        have hEnt : entriesKids ((cs.set (descentIndex ks k) l0).insertIdx
            (descentIndex ks k + 1) r0) = upsertEntries (entriesKids cs) k v := by
          rw [entriesKids_set_insertIdx cs (descentIndex ks k) l0 r0 hilt]
          exact hUcalc (entries l0 ++ entries r0) hent2
        dsimp only
        rw [hfi]
        by_cases ho : is_overloaded (ks.insertIdx (descentIndex ks k) sep0).length order
        · rw [if_pos ho]
          have hover : (ks.insertIdx (descentIndex ks k) sep0).length > order := by
            simpa [is_overloaded] using ho
          have hklen : 2 ≤ (ks.insertIdx (descentIndex ks k) sep0).length := by omega
          set keys2 := ks.insertIdx (descentIndex ks k) sep0 with hkeys2def
          set children2 := (cs.set (descentIndex ks k) l0).insertIdx
            (descentIndex ks k + 1) r0 with hchildren2def
          have hp1 : 1 ≤ keys2.length / 2 := by omega
          have hplt : keys2.length / 2 < keys2.length := by omega
          have hsplit_eq : internal_split keys2 children2 =
              ((keys2.take (keys2.length / 2),
                children2.take (keys2.length / 2 + 1)),
               (keys2.drop (keys2.length / 2 + 1),
                children2.drop (keys2.length / 2 + 1))) := rfl
          have hsepmem : keys2.getD (keys2.length / 2) sep0 ∈ keys2 :=
            getD_mem_of_lt keys2 _ sep0 hplt
          have hwhalves := wfKids_split sep0 (keys2.length / 2) keys2 children2
            lo hi hwk2 hplt
          rw [hsplit_eq]
          have hsep_eq : effective_sep keys2 sep0 = keys2.getD (keys2.length / 2) sep0 := rfl
          rw [hsep_eq]
          dsimp only
          refine ⟨?_, ?_, ?_, ?_, ?_, ?_⟩
          · rw [wfB_internal_iff]
            refine ⟨hpw2.sublist (List.take_sublist _ keys2), ?_, hwhalves.1⟩
            intro x hx
            exact ⟨(hb2 x (List.mem_of_mem_take hx)).1,
              fun b hbb => by
                cases hbb
                exact pairwise_take_lt keys2 _ sep0 hpw2 hplt x hx⟩
          · rw [wfB_internal_iff]
            refine ⟨hpw2.sublist (List.drop_sublist _ keys2), ?_, hwhalves.2⟩
            intro x hx
            have hx2 : x ∈ keys2.drop (keys2.length / 2) := by
              apply List.mem_of_mem_drop (n := 1)
              rw [List.drop_drop]
              exact hx
            exact ⟨fun a ha => by
                cases ha
                exact pairwise_drop_ge keys2 _ sep0 hpw2 hplt x hx2,
              (hb2 x (List.mem_of_mem_drop hx)).2⟩
          · exact split_sep_lo keys2 _ sep0 lo hpw2 (fun x hx => (hb2 x hx).1) hp1 hplt
          · exact (hb2 _ hsepmem).2
          · show entriesKids (children2.take (keys2.length / 2 + 1)) ++
                entriesKids (children2.drop (keys2.length / 2 + 1)) =
                upsertEntries (entriesKids cs) k v
            rw [← entriesKids_append, List.take_append_drop]
            exact hEnt
          · exact hknot
        · rw [if_neg ho]
          refine ⟨?_, ?_, ?_⟩
          · rw [wfB_internal_iff]
            exact ⟨hpw2, hb2, hwk2⟩
          · exact hEnt
          · intro hkm
            exact absurd hkm hknot

end InsertMain

section FindCorrect

variable {K : Type} [LinearOrder K]

/-- Association lookup with the "absent" value 0 (`find`'s contract). -/
def lookup0 : List (K × V) → K → V
  | [], _ => 0
  | (a, b) :: rest, k => if a = k then b else lookup0 rest k

theorem lookup0_eq_zero_of_not_mem (es : List (K × V)) (k : K)
    (h : k ∉ es.map Prod.fst) : lookup0 es k = 0 := by
  induction es with
  | nil => rfl
  | cons e rest ih =>
    obtain ⟨a, b⟩ := e
    rw [lookup0, if_neg (fun ha => h (by simp [ha])), ih (fun hm => h (by simp [hm]))]

theorem lookup0_append_right (B C : List (K × V)) (k : K)
    (h : k ∉ C.map Prod.fst) : lookup0 (B ++ C) k = lookup0 B k := by
  induction B with
  | nil => exact lookup0_eq_zero_of_not_mem C k h
  | cons e rest ih =>
    obtain ⟨a, b⟩ := e
    rw [List.cons_append, lookup0, lookup0, ih]

theorem lookup0_append_left (A X : List (K × V)) (k : K)
    (h : k ∉ A.map Prod.fst) : lookup0 (A ++ X) k = lookup0 X k := by
  induction A with
  | nil => rfl
  | cons e rest ih =>
    obtain ⟨a, b⟩ := e
    rw [List.cons_append, lookup0, if_neg (fun ha => h (by simp [ha])),
      ih (fun hm => h (by simp [hm]))]

theorem lookup0_upsert (es : List (K × V)) (k : K) (v : V) :
    lookup0 (upsertEntries es k v) k = v := by
  induction es with
  | nil => simp [upsertEntries, lookup0]
  | cons e rest ih =>
    obtain ⟨a, b⟩ := e
    rw [upsertEntries]
    by_cases h1 : k < a
    · rw [if_pos h1, lookup0, if_pos rfl]
    · rw [if_neg h1]
      by_cases h2 : k = a
      · rw [if_pos h2, lookup0, if_pos rfl]
      · rw [if_neg h2, lookup0, if_neg (fun ha => h2 ha.symm), ih]

theorem upsert_keys_count (es : List (K × V)) (k : K) (v : V)
    (hs : List.Pairwise (· < ·) (es.map Prod.fst)) :
    ((upsertEntries es k v).map Prod.fst).count k = 1 := by
  induction es with
  | nil => simp [upsertEntries]
  | cons e rest ih =>
    obtain ⟨a, b⟩ := e
    rw [List.map_cons] at hs
    rw [upsertEntries]
    by_cases h1 : k < a
    · rw [if_pos h1]
      have hnot : k ∉ (a :: rest.map Prod.fst) := by
        intro hm
        rcases List.mem_cons.mp hm with rfl | hm2
        · exact absurd h1 (lt_irrefl k)
        · exact absurd (h1.trans ((List.pairwise_cons.mp hs).1 k hm2))
            (lt_irrefl k)
      have : (k :: a :: rest.map Prod.fst).count k = 1 := by
        rw [List.count_cons_self, List.count_eq_zero.mpr hnot]
      simpa using this
    · rw [if_neg h1]
      by_cases h2 : k = a
      · rw [if_pos h2]
        subst h2
        have hnot : k ∉ rest.map Prod.fst := by
          intro hm
          exact absurd ((List.pairwise_cons.mp hs).1 k hm) (lt_irrefl k)
        have : (k :: rest.map Prod.fst).count k = 1 := by
          rw [List.count_cons_self, List.count_eq_zero.mpr hnot]
        simpa using this
      · rw [if_neg h2]
        have hak : a < k := by
          rcases lt_trichotomy a k with hc | hc | hc
          · exact hc
          · exact absurd hc.symm h2
          · exact absurd hc h1
        have := ih (List.pairwise_cons.mp hs).2
        rw [List.map_cons, List.count_cons, this]
        have hne : ¬ (a = k) := fun hc => absurd (hc ▸ hak) (lt_irrefl k)
        simp [hne]

theorem findRec_leaf_lookup (k : K) (ks : List K) (vs : List V)
    (hs : List.Pairwise (· < ·) ks) (hlen : ks.length = vs.length) :
    findRec k (.leaf ks vs) = lookup0 (ks.zip vs) k := by
  induction ks generalizing vs with
  | nil => rfl
  | cons a rest ih =>
    cases vs with
    | nil => simp at hlen
    | cons b vrest =>
      rw [findRec]
      try dsimp only
      rw [find_index_cons]
      by_cases h : a < k
      · rw [if_pos h]
        have hg : (a :: rest).get? (find_index rest k + 1) =
            rest.get? (find_index rest k) := rfl
        rw [hg]
        have hL : (match rest.get? (find_index rest k) with
            | some x => if x = k then (b :: vrest).getD (find_index rest k + 1) 0 else 0
            | none => 0) = findRec k (Node.leaf rest vrest) := by
          rw [findRec]
          try dsimp only
          cases rest.get? (find_index rest k) with
          | none => rfl
          | some x => rfl
        rw [hL, ih vrest hs.tail (by simpa using hlen), List.zip_cons_cons,
          lookup0, if_neg (fun (ha : a = k) => absurd (ha ▸ h) (lt_irrefl k))]
      · rw [if_neg h]
        have hg : (a :: rest).get? 0 = some a := rfl
        rw [hg]
        try dsimp only
        by_cases ha : a = k
        · rw [if_pos ha, List.zip_cons_cons, lookup0, if_pos ha]
          rfl
        · rw [if_neg ha, List.zip_cons_cons, lookup0, if_neg ha]
          have hka : k < a := by
            rcases lt_trichotomy a k with hc | hc | hc
            · exact absurd hc h
            · exact absurd hc ha
            · exact hc
          rw [lookup0_eq_zero_of_not_mem]
          intro hm
          have hmk : k ∈ rest := by
            rcases List.mem_map.mp hm with ⟨e, he, rfl⟩
            exact (List.of_mem_zip he).1
          exact absurd (hka.trans ((List.pairwise_cons.mp hs).1 k hmk))
            (lt_irrefl k)

theorem findRec_correct (k : K) :
    ∀ n (t : Node K), nodeSize t ≤ n → ∀ lo hi, wfB lo hi t = true →
    loLe lo k → hiGt hi k →
    findRec k t = lookup0 (entries t) k := by
  intro n
  induction n with
  | zero => intro t h; have := nodeSize_pos t; omega
  | succ n ih =>
    intro t ht lo hi hwf hlok hhik
    cases t with
    | leaf ks vs =>
      rw [wfB_leaf_iff] at hwf
      exact findRec_leaf_lookup k ks vs hwf.1 hwf.2.1
    | internal ks cs =>
      rw [wfB_internal_iff] at hwf
      obtain ⟨hsort, hbks, hkids⟩ := hwf
      have hpt : ∀ c ∈ cs, ∀ lo2 hi2, wfB lo2 hi2 c = true →
          (∀ e ∈ entries c, loLe lo2 e.1 ∧ hiGt hi2 e.1) ∧
          List.Pairwise (· < ·) ((entries c).map Prod.fst) :=
        fun c hc lo2 hi2 hw => entries_bounds_sorted (nodeSize c) c le_rfl lo2 hi2 hw
      obtain ⟨lb, ub, hlen, hchild, hlbk, hubk, hopt, htake, hdrop, hset, hsplit⟩ :=
        wfKids_descend k ks cs lo hi hpt hsort hbks hkids hlok hhik
      have hile : descentIndex ks k ≤ ks.length := descentIndex_le ks k hsort
      have hilt : descentIndex ks k < cs.length := by omega
      have hcsize : nodeSize (cs.getD (descentIndex ks k) (.leaf [] [])) ≤ n := by
        have h1 := nodeSize_le_kids _ cs
          (getD_mem_of_lt cs (descentIndex ks k) (.leaf [] []) hilt)
        have h2 : nodeSize (Node.internal ks cs) = 1 + nodeSizeKids cs := rfl
        omega
      rw [findRec, findKids_spec k cs (descentIndex ks k) hilt,
        ih _ hcsize lb ub hchild hlbk hubk]
      show lookup0 (entries (cs.getD (descentIndex ks k) (.leaf [] []))) k =
        lookup0 (entriesKids cs) k
      rw [entriesKids_getD cs (descentIndex ks k) (.leaf [] []) hilt,
        List.append_assoc, lookup0_append_left, lookup0_append_right]
      · intro hm
        rcases List.mem_map.mp hm with ⟨e, he, rfl⟩
        exact absurd (hdrop e he) (lt_irrefl _)
      · intro hm
        rcases List.mem_map.mp hm with ⟨e, he, rfl⟩
        exact absurd (htake e he) (lt_irrefl _)

theorem loLe_none (k : K) : loLe (none : Option K) k := fun a ha => by cases ha

theorem hiGt_none (k : K) : hiGt (none : Option K) k := fun a ha => by cases ha

end FindCorrect

section TreeLevel

variable {K : Type} [LinearOrder K]

theorem wfB_empty_leaf : wfB (none : Option K) none (.leaf [] ([] : List V)) = true := by
  rw [wfB_leaf_iff]
  exact ⟨List.Pairwise.nil, rfl, by simp⟩

/-- `insert` on a well-formed tree preserves well-formedness and the
order, performs the sorted-map upsert on the entries, and leaves the key
structure untouched when the key was present. -/
theorem insertT_correct (t : Tree K) (k : K) (v : V)
    (hw : wfT t = true) (hord : 1 ≤ t.order) :
    wfT (insertT t k v) = true ∧
    (insertT t k v).order = t.order ∧
    entriesT (insertT t k v) = upsertEntries (entriesT t) k v ∧
    (k ∈ (entriesT t).map Prod.fst →
      (insertT t k v).root.map stripV = t.root.map stripV) := by
  obtain ⟨order, root⟩ := t
  cases root with
  | none =>
    have hres := insertRec_correct k v order hord
      (nodeSize (Node.leaf [] ([] : List V))) _ le_rfl none none
      wfB_empty_leaf (loLe_none k) (hiGt_none k)
    rw [insertT]
    dsimp only
    cases hr : insertRec order k v (Node.leaf [] ([] : List V)) with
    | one n =>
      rw [hr] at hres
      obtain ⟨h1, h2, h3⟩ := hres
      refine ⟨h1, rfl, ?_, ?_⟩
      · show entries n = upsertEntries (entriesT ⟨order, none⟩) k v
        rw [h2]; rfl
      · intro hm
        show (some (stripV n)) = none.map stripV
        exact absurd hm (by simp [entriesT])
    | split l sep r =>
      rw [hr] at hres
      obtain ⟨h1, h2, h3, h4, h5, h6⟩ := hres
      refine ⟨?_, rfl, ?_, ?_⟩
      · show wfB none none (.internal [sep] [l, r]) = true
        rw [wfB_internal_iff]
        refine ⟨by simp, by
            intro x hx
            exact ⟨loLe_none x, hiGt_none x⟩, ?_⟩
        rw [wfKids_cons_cons, Bool.and_eq_true, wfKids_nil_single]
        exact ⟨h1, h2⟩
      · show entriesKids [l, r] = upsertEntries (entriesT ⟨order, none⟩) k v
        show entries l ++ (entries r ++ []) = _
        rw [List.append_nil, h5]; rfl
      · intro hm
        exact absurd hm (by simp [entriesT])
  | some r0 =>
    have hres := insertRec_correct k v order hord (nodeSize r0) r0 le_rfl
      none none hw (loLe_none k) (hiGt_none k)
    rw [insertT]
    dsimp only
    cases hr : insertRec order k v r0 with
    | one n =>
      rw [hr] at hres
      obtain ⟨h1, h2, h3⟩ := hres
      exact ⟨h1, rfl, h2, fun hm => by
        show some (stripV n) = some (stripV r0)
        rw [h3 hm]⟩
    | split l sep r =>
      rw [hr] at hres
      obtain ⟨h1, h2, h3, h4, h5, h6⟩ := hres
      refine ⟨?_, rfl, ?_, ?_⟩
      · show wfB none none (.internal [sep] [l, r]) = true
        rw [wfB_internal_iff]
        refine ⟨by simp, by
            intro x hx
            exact ⟨loLe_none x, hiGt_none x⟩, ?_⟩
        rw [wfKids_cons_cons, Bool.and_eq_true, wfKids_nil_single]
        exact ⟨h1, h2⟩
      · show entriesKids [l, r] = upsertEntries (entries r0) k v
        show entries l ++ (entries r ++ []) = _
        rw [List.append_nil, h5]
      · intro hm
        exact absurd hm h6
  
theorem findT_correct (t : Tree K) (k : K) (hw : wfT t = true) :
    findT t k = lookup0 (entriesT t) k := by
  obtain ⟨order, root⟩ := t
  cases root with
  | none => rfl
  | some r =>
    exact findRec_correct k (nodeSize r) r le_rfl none none hw
      (loLe_none k) (hiGt_none k)

theorem entriesT_sorted (t : Tree K) (hw : wfT t = true) :
    List.Pairwise (· < ·) ((entriesT t).map Prod.fst) := by
  obtain ⟨order, root⟩ := t
  cases root with
  | none => simp [entriesT]
  | some r =>
    exact (entries_bounds_sorted (nodeSize r) r le_rfl none none hw).2

end TreeLevel

section C8Theorem

variable {K : Type} [LinearOrder K]

/-- **C8**.  `insert` is an upsert: on a well-formed tree of positive
order, (a) if `k` is already present then `insert(k, v₁)` overwrites in
place — the tree's key structure (`stripV` of the root) is unchanged, so
no entry is added and no node splits; and (b) after
`insert(k, v₁); insert(k, v₂)` a `find(k)` returns `v₂` and `k` occurs
exactly once among the stored keys. -/
theorem C8_insert_upsert (t : Tree K) (k : K) (v1 v2 : V)
    (hw : wfT t = true) (hord : 1 ≤ t.order) :
    (k ∈ (entriesT t).map Prod.fst →
      (insertT t k v1).root.map stripV = t.root.map stripV) ∧
    findT (insertT (insertT t k v1) k v2) k = v2 ∧
    ((entriesT (insertT (insertT t k v1) k v2)).map Prod.fst).count k = 1 := by
  obtain ⟨hw1, hord1, hent1, hstrip1⟩ := insertT_correct t k v1 hw hord
  obtain ⟨hw2, hord2, hent2, hstrip2⟩ :=
    insertT_correct (insertT t k v1) k v2 hw1 (by omega)
  refine ⟨hstrip1, ?_, ?_⟩
  · rw [findT_correct _ k hw2, hent2, lookup0_upsert]
  · rw [hent2]
    exact upsert_keys_count _ k v2 (entriesT_sorted _ hw1)

/-- Witness for C8: order-3 tree holding (1,10), (2,20); key 2 present. -/
theorem C8_insert_upsert_witness :
    (wfT (⟨3, some (.leaf [1, 2] [10, 20])⟩ : Tree Int) = true ∧
     1 ≤ (⟨3, some (.leaf [1, 2] [10, 20])⟩ : Tree Int).order) ∧
    (((2 : Int) ∈ (entriesT (⟨3, some (.leaf [1, 2] [10, 20])⟩ : Tree Int)).map
        Prod.fst →
      (insertT (⟨3, some (.leaf [1, 2] [10, 20])⟩ : Tree Int) 2 7).root.map stripV =
        (⟨3, some (.leaf [1, 2] [10, 20])⟩ : Tree Int).root.map stripV) ∧
     findT (insertT (insertT (⟨3, some (.leaf [1, 2] [10, 20])⟩ : Tree Int) 2 7) 2 9)
       2 = 9 ∧
     ((entriesT (insertT (insertT (⟨3, some (.leaf [1, 2] [10, 20])⟩ : Tree Int)
        2 7) 2 9)).map Prod.fst).count 2 = 1) :=
  ⟨⟨by decide, by decide⟩,
   C8_insert_upsert (⟨3, some (.leaf [1, 2] [10, 20])⟩ : Tree Int) 2 7 9
     (by decide) (by decide)⟩

end C8Theorem


section LeafChainLemmas

variable {K : Type} [LinearOrder K]

theorem leavesKids_append (A B : List (Node K)) :
    leavesKids (A ++ B) = leavesKids A ++ leavesKids B := by
  induction A with
  | nil => rfl
  | cons c rest ih => simp [leavesKids, ih]

theorem leavesKids_bounds_aux :
    ∀ (ks : List K) (cs : List (Node K)) (lo hi : Option K),
      (∀ c ∈ cs, ∀ lo2 hi2, wfB lo2 hi2 c = true →
        ∀ lf ∈ leavesOf c, ∀ x ∈ lf.1, loLe lo2 x ∧ hiGt hi2 x) →
      List.Pairwise (· < ·) ks →
      (∀ x ∈ ks, loLe lo x ∧ hiGt hi x) →
      wfKids lo hi ks cs = true →
      ∀ lf ∈ leavesKids cs, ∀ x ∈ lf.1, loLe lo x ∧ hiGt hi x := by
  intro ks
  induction ks with
  | nil =>
    intro cs lo hi hpt hsort hb hkids
    match cs with
    | [] => rw [wfKids_nil_nil] at hkids; cases hkids
    | [c] =>
      rw [wfKids_nil_single] at hkids
      intro lf hlf
      rw [leavesKids, leavesKids, List.append_nil] at hlf
      exact hpt c (by simp) lo hi hkids lf hlf
    | c :: c2 :: rest => rw [wfKids_nil_cons2] at hkids; cases hkids
  | cons k0 ks2 ih =>
    intro cs lo hi hpt hsort hb hkids
    match cs with
    | [] => rw [wfKids_cons_nil] at hkids; cases hkids
    | c0 :: cs2 =>
      rw [wfKids_cons_cons, Bool.and_eq_true] at hkids
      have hk0 := hb k0 (by simp)
      intro lf hlf x hx
      rw [leavesKids] at hlf
      rcases List.mem_append.mp hlf with h1 | h2
      · have hxb := hpt c0 (by simp) lo (some k0) hkids.1 lf h1 x hx
        exact ⟨hxb.1, fun b hbb => lt_trans (hxb.2 k0 rfl) (hk0.2 b hbb)⟩
      · have hxb := ih cs2 (some k0) hi
          (fun c hc => hpt c (by simp [hc])) hsort.tail
          (fun y hy => ⟨fun a ha => by
              cases ha
              exact le_of_lt ((List.pairwise_cons.mp hsort).1 y hy),
            (hb y (by simp [hy])).2⟩)
          hkids.2 lf h2 x hx
        exact ⟨fun a ha => le_trans (hk0.1 a ha) (hxb.1 k0 rfl), hxb.2⟩

/-- Keys stored in the leaves of a well-formed subtree respect its bounds. -/
theorem leaves_bounds :
    ∀ n (t : Node K), nodeSize t ≤ n → ∀ lo hi, wfB lo hi t = true →
      ∀ lf ∈ leavesOf t, ∀ x ∈ lf.1, loLe lo x ∧ hiGt hi x := by
  intro n
  induction n with
  | zero => intro t h; have := nodeSize_pos t; omega
  | succ n ih =>
    intro t ht lo hi hwf lf hlf x hx
    cases t with
    | leaf ks vs =>
      rw [wfB_leaf_iff] at hwf
      rw [leavesOf] at hlf
      have hlf2 := List.mem_singleton.mp hlf
      subst hlf2
      exact hwf.2.2 x hx
    | internal ks cs =>
      rw [wfB_internal_iff] at hwf
      obtain ⟨hsort, hb, hkids⟩ := hwf
      rw [leavesOf] at hlf
      refine leavesKids_bounds_aux ks cs lo hi ?_ hsort hb hkids lf hlf x hx
      intro c hc lo2 hi2 hwf2
      apply ih c ?_ lo2 hi2 hwf2
      have h1 := nodeSize_le_kids c cs hc
      have h2 : nodeSize (Node.internal ks cs) = 1 + nodeSizeKids cs := by
        rw [nodeSize]
      omega

theorem entriesKids_eq_leaves_aux :
    ∀ (cs : List (Node K)),
      (∀ c ∈ cs,
        entries c = ((leavesOf c).map (fun lf => lf.1.zip lf.2)).flatten) →
      entriesKids cs =
        ((leavesKids cs).map (fun lf => lf.1.zip lf.2)).flatten := by
  intro cs
  induction cs with
  | nil => intro _; rfl
  | cons c rest ih =>
    intro hpt
    rw [entriesKids, leavesKids, List.map_append, List.flatten_append,
      hpt c (by simp), ih (fun c2 hc2 => hpt c2 (by simp [hc2]))]

/-- The entries of a subtree are the flattened key/value zips of its
leaves, in leaf-chain order. -/
theorem entries_eq_leaves :
    ∀ n (t : Node K), nodeSize t ≤ n →
      entries t = ((leavesOf t).map (fun lf => lf.1.zip lf.2)).flatten := by
  intro n
  induction n with
  | zero => intro t h; have := nodeSize_pos t; omega
  | succ n ih =>
    intro t ht
    cases t with
    | leaf ks vs => simp [entries, leavesOf]
    | internal ks cs =>
      rw [entries, leavesOf]
      apply entriesKids_eq_leaves_aux
      intro c hc
      apply ih
      have h1 := nodeSize_le_kids c cs hc
      have h2 : nodeSize (Node.internal ks cs) = 1 + nodeSizeKids cs := by
        rw [nodeSize]
      omega

theorem chainKids_aux (k : K) :
    ∀ (ks : List K) (cs : List (Node K)) (lo hi : Option K),
      (∀ c ∈ cs, ∀ lo2 hi2, wfB lo2 hi2 c = true →
        loLe lo2 k → hiGt hi2 k →
        ∃ pre, leavesOf c = pre ++ chainFrom k c ∧
          (∀ lf ∈ pre, ∀ x ∈ lf.1, x < k) ∧ chainFrom k c ≠ []) →
      List.Pairwise (· < ·) ks →
      wfKids lo hi ks cs = true →
      loLe lo k → hiGt hi k →
      ∃ pre, leavesKids cs = pre ++ chainKids k cs (descentIndex ks k) ∧
        (∀ lf ∈ pre, ∀ x ∈ lf.1, x < k) ∧
        chainKids k cs (descentIndex ks k) ≠ [] := by
  intro ks
  induction ks with
  | nil =>
    intro cs lo hi hpt hsort hkids hlo hhi
    match cs with
    | [] => rw [wfKids_nil_nil] at hkids; cases hkids
    | [c] =>
      rw [wfKids_nil_single] at hkids
      obtain ⟨pre, heq, hlt, hne⟩ := hpt c (by simp) lo hi hkids hlo hhi
      refine ⟨pre, ?_, hlt, ?_⟩
      · rw [descentIndex_nil, chainKids]
        simp [leavesKids, heq]
      · rw [descentIndex_nil, chainKids, leavesKids, List.append_nil]
        exact hne
    | c :: c2 :: rest => rw [wfKids_nil_cons2] at hkids; cases hkids
  | cons k0 ks2 ih =>
    intro cs lo hi hpt hsort hkids hlo hhi
    match cs with
    | [] => rw [wfKids_cons_nil] at hkids; cases hkids
    | c0 :: cs2 =>
      rw [wfKids_cons_cons, Bool.and_eq_true] at hkids
      rw [descentIndex_cons k0 ks2 k hsort]
      by_cases hk0 : k0 ≤ k
      · rw [if_pos hk0]
        obtain ⟨pre2, heq2, hlt2, hne2⟩ := ih cs2 (some k0) hi
          (fun c hc => hpt c (by simp [hc])) hsort.tail hkids.2
          (fun a ha => by cases ha; exact hk0) hhi
        refine ⟨leavesOf c0 ++ pre2, ?_, ?_, ?_⟩
        · rw [leavesKids, chainKids, heq2, List.append_assoc]
        · intro lf hlf x hx
          rcases List.mem_append.mp hlf with h1 | h2
          · exact lt_of_lt_of_le
              ((leaves_bounds (nodeSize c0) c0 le_rfl lo (some k0) hkids.1
                lf h1 x hx).2 k0 rfl) hk0
          · exact hlt2 lf h2 x hx
        · rw [chainKids]; exact hne2
      · rw [if_neg hk0]
        have hk0k : k < k0 := lt_of_not_le hk0
        obtain ⟨prec, heqc, hltc, hnec⟩ := hpt c0 (by simp) lo (some k0)
          hkids.1 hlo (fun b hbb => by cases hbb; exact hk0k)
        refine ⟨prec, ?_, hltc, ?_⟩
        · rw [leavesKids, chainKids, heqc, List.append_assoc]
        · rw [chainKids]
          intro hcon
          exact hnec (List.append_eq_nil.mp hcon).1

/-- `find_leaf(k)`'s leaf chain: the leaf list of a well-formed subtree
splits as a strictly-smaller-keyed prefix followed by the nonempty chain
starting at the leaf the descent for `k` reaches. -/
theorem chainFrom_spec (k : K) :
    ∀ n (t : Node K), nodeSize t ≤ n → ∀ lo hi, wfB lo hi t = true →
      loLe lo k → hiGt hi k →
      ∃ pre, leavesOf t = pre ++ chainFrom k t ∧
        (∀ lf ∈ pre, ∀ x ∈ lf.1, x < k) ∧ chainFrom k t ≠ [] := by
  intro n
  induction n with
  | zero => intro t h; have := nodeSize_pos t; omega
  | succ n ih =>
    intro t ht lo hi hwf hlo hhi
    cases t with
    | leaf ks vs =>
      exact ⟨[], by simp [leavesOf, chainFrom], by simp,
        by rw [chainFrom]; simp⟩
    | internal ks cs =>
      rw [wfB_internal_iff] at hwf
      obtain ⟨hsort, hb, hkids⟩ := hwf
      have hpt : ∀ c ∈ cs, ∀ lo2 hi2, wfB lo2 hi2 c = true →
          loLe lo2 k → hiGt hi2 k →
          ∃ pre, leavesOf c = pre ++ chainFrom k c ∧
            (∀ lf ∈ pre, ∀ x ∈ lf.1, x < k) ∧ chainFrom k c ≠ [] := by
        intro c hc lo2 hi2 hwf2 hlo2 hhi2
        apply ih c ?_ lo2 hi2 hwf2 hlo2 hhi2
        have h1 := nodeSize_le_kids c cs hc
        have h2 : nodeSize (Node.internal ks cs) = 1 + nodeSizeKids cs := by
          rw [nodeSize]
        omega
      obtain ⟨pre, heq, hlt, hne⟩ :=
        chainKids_aux k ks cs lo hi hpt hsort hkids hlo hhi
      exact ⟨pre, by rw [leavesOf, chainFrom]; exact heq, hlt,
        by rw [chainFrom]; exact hne⟩

end LeafChainLemmas


section ScanLemmas

variable {K : Type} [LinearOrder K]

/-- One leaf scan on key-sorted entries: kept entries are exactly those in
`[lo, hi]`, and the early-stop flag fires iff some key exceeds `hi`. -/
theorem scanLeaf_spec (lo hi : K) (l : List (K × V))
    (hs : List.Pairwise (· < ·) (l.map Prod.fst)) :
    scanLeaf lo hi l =
      (l.filter (fun e => decide (lo ≤ e.1 ∧ e.1 ≤ hi)),
       l.any (fun e => decide (hi < e.1))) := by
  induction l with
  | nil => rfl
  | cons e rest ih =>
    obtain ⟨k, v⟩ := e
    rw [List.map_cons, List.pairwise_cons] at hs
    rw [scanLeaf]
    by_cases h1 : lo ≤ k ∧ k ≤ hi
    · rw [if_pos h1, ih hs.2]
      have hnk : ¬ (hi < k) := not_lt.mpr h1.2
      simp [List.filter_cons, List.any_cons, h1, hnk]
    · rw [if_neg h1]
      by_cases h2 : hi < k
      · rw [if_pos h2]
        have hfil :
            rest.filter (fun e => decide (lo ≤ e.1 ∧ e.1 ≤ hi)) = [] := by
          rw [List.filter_eq_nil_iff]
          intro e he
          have hke : k < e.1 := hs.1 e.1 (List.mem_map_of_mem Prod.fst he)
          simp only [decide_eq_true_eq, not_and, not_le]
          intro _
          exact lt_trans h2 hke
        have hd : decide (hi < k) = true := decide_eq_true h2
        simp only [List.filter_cons, List.any_cons, hfil, hd,
          decide_eq_true_eq, Bool.true_or, Prod.mk.injEq]
        constructor
        · rw [if_neg]
          simpa using h1
        · trivial
      · rw [if_neg h2, ih hs.2]
        simp [List.filter_cons, List.any_cons, h1, h2]

/-- The leaf-chain walk on a globally key-sorted chain filters the
flattened entries to the window `[lo, hi]`. -/
theorem scanChain_spec (lo hi : K) (chain : List (List (K × V)))
    (hs : List.Pairwise (· < ·) (chain.flatten.map Prod.fst)) :
    scanChain lo hi chain =
      chain.flatten.filter (fun e => decide (lo ≤ e.1 ∧ e.1 ≤ hi)) := by
  induction chain with
  | nil => rfl
  | cons l rest ih =>
    rw [List.flatten_cons, List.map_append, List.pairwise_append] at hs
    obtain ⟨hl, hrest, hcross⟩ := hs
    rw [List.flatten_cons, List.filter_append]
    rw [scanChain]
    rw [scanLeaf_spec lo hi l hl]
    by_cases hany : l.any (fun e => decide (hi < e.1)) = true
    · rw [if_pos hany]
      obtain ⟨e0, he0, he0d⟩ := List.any_eq_true.mp hany
      have he0hi : hi < e0.1 := of_decide_eq_true he0d
      have hfil :
          rest.flatten.filter (fun e => decide (lo ≤ e.1 ∧ e.1 ≤ hi)) = [] := by
        rw [List.filter_eq_nil_iff]
        intro e he
        have hgt : e0.1 < e.1 := hcross e0.1
          (List.mem_map_of_mem Prod.fst he0) e.1
          (List.mem_map_of_mem Prod.fst he)
        simp only [decide_eq_true_eq, not_and, not_le]
        intro _
        exact lt_trans he0hi hgt
      rw [hfil, List.append_nil]
    · rw [if_neg hany, ih hrest]

/-- All keys strictly before `find_index(k)` are `< k`. -/
theorem take_find_index_lt (ks : List K) (k : K) :
    ∀ x ∈ ks.take (find_index ks k), x < k := by
  induction ks with
  | nil => intro x hx; rw [find_index_nil] at hx; simp at hx
  | cons a rest ih =>
    rw [find_index_cons]
    by_cases h : a < k
    · rw [if_pos h]
      intro x hx
      rw [List.take_succ_cons] at hx
      rcases List.mem_cons.mp hx with rfl | hm
      · exact h
      · exact ih x hm
    · rw [if_neg h]
      intro x hx
      simp at hx

end ScanLemmas

section C7Theorem

variable {K : Type} [LinearOrder K]

/-- Concrete two-leaf tree exercising a range scan across the leaf chain. -/
def c7tree : Tree Nat :=
  { order := 3,
    root := some (.internal [3] [.leaf [1, 2] [10, 20], .leaf [3, 4] [30, 40]]) }

/-- C7: on a well-formed tree with `lo ≤ hi`, `range_find(lo, hi)` returns
exactly the entries whose key lies in `[lo, hi]` (inclusive on both ends),
as (key, value) pairs in strictly ascending key order, and the empty
sequence on an empty tree. -/
theorem C7_range_find (t : Tree K) (lo hi : K)
    (hw : wfT t = true) (hlh : lo ≤ hi) :
    range_find t lo hi =
      (entriesT t).filter (fun e => decide (lo ≤ e.1 ∧ e.1 ≤ hi)) ∧
    List.Pairwise (· < ·) ((range_find t lo hi).map Prod.fst) ∧
    (t.root = none → range_find t lo hi = []) := by
  have hmain : range_find t lo hi =
      (entriesT t).filter (fun e => decide (lo ≤ e.1 ∧ e.1 ≤ hi)) := by
    cases htr : t.root with
    | none => simp [range_find, entriesT, htr]
    | some r =>
      have hwr : wfB none none r = true := by simpa [wfT, htr] using hw
      obtain ⟨pre, heq, hlt, hne⟩ := chainFrom_spec lo (nodeSize r) r le_rfl
        none none hwr (loLe_none lo) (hiGt_none lo)
      cases hch : chainFrom lo r with
      | nil => exact absurd hch hne
      | cons hd rest =>
        obtain ⟨ks, vs⟩ := hd
        rw [hch] at heq
        have hflat : entries r =
            (pre.map (fun lf => lf.1.zip lf.2)).flatten ++
              (ks.zip vs ++ (rest.map (fun lf => lf.1.zip lf.2)).flatten) := by
          rw [entries_eq_leaves (nodeSize r) r le_rfl, heq,
            List.map_append, List.flatten_append, List.map_cons,
            List.flatten_cons]
        have hDS : entries r =
            ((pre.map (fun lf => lf.1.zip lf.2)).flatten ++
              (ks.zip vs).take (find_index ks lo)) ++
              ((ks.zip vs).drop (find_index ks lo) ++
                (rest.map (fun lf => lf.1.zip lf.2)).flatten) := by
          rw [hflat, List.append_assoc,
            ← List.append_assoc (List.take (find_index ks lo) (ks.zip vs))
              (List.drop (find_index ks lo) (ks.zip vs))
              ((rest.map (fun lf => lf.1.zip lf.2)).flatten),
            List.take_append_drop]
        have hDN :
            ((pre.map (fun lf => lf.1.zip lf.2)).flatten ++
              (ks.zip vs).take (find_index ks lo)).filter
              (fun e => decide (lo ≤ e.1 ∧ e.1 ≤ hi)) = [] := by
          rw [List.filter_eq_nil_iff]
          intro e he
          have hlt2 : e.1 < lo := by
            rcases List.mem_append.mp he with h1 | h2
            · rcases List.mem_flatten.mp h1 with ⟨l2, hl2, hel⟩
              rcases List.mem_map.mp hl2 with ⟨lf, hlf, rfl⟩
              exact hlt lf hlf e.1 (List.of_mem_zip hel).1
            · rw [← zip_take] at h2
              exact take_find_index_lt ks lo e.1 (List.of_mem_zip h2).1
          simp only [decide_eq_true_eq, not_and, not_le]
          intro hcon
          exact absurd hcon (not_le.mpr hlt2)
        have hsorted : List.Pairwise (· < ·) ((entries r).map Prod.fst) := by
          have h0 := entriesT_sorted t hw
          simpa [entriesT, htr] using h0
        have hSsorted : List.Pairwise (· < ·)
            ((((ks.zip vs).drop (find_index ks lo)) ::
              rest.map (fun lf => lf.1.zip lf.2)).flatten.map Prod.fst) := by
          rw [List.flatten_cons]
          rw [hDS, List.map_append] at hsorted
          exact hsorted.sublist (List.sublist_append_right _ _)
        simp only [range_find, htr, hch]
        rw [scanChain_spec lo hi _ hSsorted, List.flatten_cons]
        simp only [entriesT, htr]
        rw [hDS, List.filter_append, List.filter_append, hDN,
          List.nil_append, List.filter_append]
  refine ⟨hmain, ?_, ?_⟩
  · rw [hmain]
    exact (entriesT_sorted t hw).sublist
      (List.Sublist.map Prod.fst (List.filter_sublist _))
  · intro htr
    rw [hmain]
    simp [entriesT, htr]

theorem C7_range_find_witness :
    wfT c7tree = true ∧ (2 : Nat) ≤ 3 ∧
    (range_find c7tree 2 3 =
        (entriesT c7tree).filter (fun e => decide (2 ≤ e.1 ∧ e.1 ≤ 3)) ∧
      List.Pairwise (· < ·) ((range_find c7tree 2 3).map Prod.fst) ∧
      (c7tree.root = none → range_find c7tree 2 3 = [])) :=
  ⟨by decide, by decide, C7_range_find c7tree 2 3 (by decide) (by decide)⟩

end C7Theorem

section CodecLemmas

variable {K : Type}

theorem subAt_append (a b : Path) :
    ∀ u : Node K, subAt u (a ++ b) =
      (subAt u a).bind (fun w => subAt w b) := by
  induction a with
  | nil =>
    intro u
    have h0 : subAt u [] = some u := by cases u <;> rfl
    rw [List.nil_append, h0, Option.some_bind]
  | cons j a2 ih =>
    intro u
    cases u with
    | leaf ks vs => rfl
    | internal ks cs =>
      rw [List.cons_append, subAt, subAt]
      induction cs generalizing j with
      | nil => rfl
      | cons c rest ih2 =>
        cases j with
        | zero => rw [subKids, subKids]; exact ih c
        | succ j2 => rw [subKids, subKids]; exact ih2 j2

theorem subKids_nil_getD (dflt : Node K) :
    ∀ (cs : List (Node K)) (j : Nat), j < cs.length →
      subKids cs j [] = some (cs.getD j dflt) := by
  intro cs
  induction cs with
  | nil => intro j h; simp at h
  | cons c rest ih =>
    intro j h
    cases j with
    | zero => rw [subKids, List.getD_cons_zero, subAt]
    | succ j2 => rw [subKids, List.getD_cons_succ]; exact ih j2 (by simpa using h)

theorem subKids_isSome_lt :
    ∀ (cs : List (Node K)) (j : Nat) (s : Path),
      (subKids cs j s).isSome = true → j < cs.length := by
  intro cs
  induction cs with
  | nil => intro j s h; rw [subKids] at h; simp at h
  | cons c rest ih =>
    intro j s h
    cases j with
    | zero => simp
    | succ j2 =>
      rw [subKids] at h
      have := ih j2 s h
      simpa using Nat.succ_lt_succ this

theorem subAt_child (r : Node K) (p0 : Path) (ks : List K) (cs : List (Node K))
    (h : subAt r p0 = some (.internal ks cs)) (j : Nat) (hj : j < cs.length) :
    subAt r (p0 ++ [j]) = some (cs.getD j (.leaf [] [])) := by
  rw [subAt_append p0 [j], h, Option.some_bind, subAt]
  exact subKids_nil_getD _ cs j hj

theorem subAt_desc_lt (r : Node K) (p0 : Path) (ks : List K) (cs : List (Node K))
    (h : subAt r p0 = some (.internal ks cs)) (j : Nat) (s : Path)
    (hs : (subAt r (p0 ++ j :: s)).isSome = true) : j < cs.length := by
  rw [show p0 ++ j :: s = p0 ++ ([j] ++ s) from by simp,
    ← List.append_assoc] at hs
  rw [subAt_append (p0 ++ [j]) s] at hs
  rw [subAt_append p0 [j], h, Option.some_bind, subAt] at hs
  cases hsk : subKids cs j [] with
  | none => rw [hsk] at hs; simp at hs
  | some w => exact subKids_isSome_lt cs j [] (by rw [hsk]; rfl)

theorem subAt_leaf_desc (r : Node K) (p0 : Path) (ks : List K) (vs : List V)
    (h : subAt r p0 = some (.leaf ks vs)) (s : Path) (hs : s ≠ []) :
    subAt r (p0 ++ s) = none := by
  rw [subAt_append p0 s, h, Option.some_bind]
  cases s with
  | nil => exact absurd rfl hs
  | cons j s2 => rfl

end CodecLemmas

section AssocLemmas

variable {κ β : Type} [DecidableEq κ]

theorem alookup_append (A B : List (κ × β)) (k : κ) :
    alookup (A ++ B) k =
      match alookup A k with
      | some v => some v
      | none => alookup B k := by
  induction A with
  | nil => rfl
  | cons a rest ih =>
    obtain ⟨q, w⟩ := a
    rw [List.cons_append, alookup, alookup]
    by_cases h : q = k
    · rw [if_pos h, if_pos h]
    · rw [if_neg h, if_neg h, ih]

theorem alookup_none_of_not_mem (A : List (κ × β)) (k : κ)
    (h : k ∉ A.map Prod.fst) : alookup A k = none := by
  induction A with
  | nil => rfl
  | cons a rest ih =>
    obtain ⟨q, w⟩ := a
    have h1 : ¬ (q = k) := fun he => h (by simp [he])
    have h2 : k ∉ rest.map Prod.fst := fun hm => h (by simp [hm])
    rw [alookup, if_neg h1, ih h2]

theorem alookup_of_mem_nodup (A : List (κ × β))
    (hn : (A.map Prod.fst).Nodup) (k : κ) (v : β) (h : (k, v) ∈ A) :
    alookup A k = some v := by
  induction A with
  | nil => cases h
  | cons a rest ih =>
    obtain ⟨q, w⟩ := a
    rw [List.map_cons, List.nodup_cons] at hn
    rcases List.mem_cons.mp h with he | hm
    · cases he
      rw [alookup, if_pos rfl]
    · have hqk : ¬ (q = k) := by
        intro he
        apply hn.1
        have hmm : (k, v).1 ∈ List.map Prod.fst rest :=
          List.mem_map_of_mem Prod.fst hm
        simpa [he] using hmm
      rw [alookup, if_neg hqk]
      exact ih hn.2 hm

theorem alookup_isSome_of_mem (A : List (κ × β)) (k : κ) (v : β)
    (h : (k, v) ∈ A) : (alookup A k).isSome = true := by
  induction A with
  | nil => cases h
  | cons a rest ih =>
    obtain ⟨q, w⟩ := a
    rcases List.mem_cons.mp h with he | hm
    · cases he
      rw [alookup, if_pos rfl]; rfl
    · rw [alookup]
      by_cases hq : q = k
      · rw [if_pos hq]; rfl
      · rw [if_neg hq]; exact ih hm

theorem foldl_aupd_lookup :
    ∀ (recs : List (κ × β)) (m : List (κ × β)) (k : κ),
      alookup (recs.foldl (fun acc r => aupd acc r.1 r.2) m) k =
        match alookup recs.reverse k with
        | some v => some v
        | none => alookup m k := by
  intro recs
  induction recs with
  | nil => intro m k; rfl
  | cons rec0 rest ih =>
    intro m k
    rw [List.foldl_cons, ih, List.reverse_cons, alookup_append]
    cases halp : alookup rest.reverse k with
    | some v => rfl
    | none =>
      by_cases h : rec0.1 = k
      · subst h
        rw [alookup_aupd_self, alookup, if_pos rfl]
      · rw [alookup_aupd_ne _ _ _ _ (fun he => h he.symm), alookup,
          if_neg h, alookup]

theorem alookup_reverse_nodup :
    ∀ (A : List (κ × β)), (A.map Prod.fst).Nodup →
      ∀ k, alookup A.reverse k = alookup A k := by
  intro A
  induction A with
  | nil => intro _ k; rfl
  | cons a rest ih =>
    intro hn k
    obtain ⟨q, w⟩ := a
    rw [List.map_cons, List.nodup_cons] at hn
    rw [List.reverse_cons, alookup_append]
    by_cases h : q = k
    · subst h
      have hnone : alookup rest.reverse q = none := by
        apply alookup_none_of_not_mem
        simpa using hn.1
      rw [hnone]
      simp [alookup]
    · rw [ih hn.2 k]
      cases halp : alookup rest k with
      | some v => simp [alookup, h, halp]
      | none => simp [alookup, h, halp]

end AssocLemmas

section RecsMapLemmas

variable {K : Type} [LinearOrder K]

theorem recsMap_lookup (recs : List (Nat × NodeRec K)) (i : Nat) :
    alookup (recsMap recs) i = alookup recs.reverse i := by
  rw [recsMap, foldl_aupd_lookup]
  cases alookup recs.reverse i <;> rfl

theorem recsMap_lookup_nodup (recs : List (Nat × NodeRec K))
    (hn : (recs.map Prod.fst).Nodup) (i : Nat) :
    alookup (recsMap recs) i = alookup recs i := by
  rw [recsMap_lookup, alookup_reverse_nodup recs hn]

theorem range_filterMap_eq {α : Type} (dflt : α) :
    ∀ (cs : List α) (f : Nat → Option α),
      (∀ i, i < cs.length → f i = some (cs.getD i dflt)) →
      (List.range cs.length).filterMap f = cs := by
  intro cs
  induction cs with
  | nil => intro f _; rfl
  | cons c rest ih =>
    intro f h
    have h0 : f 0 = some c := by
      have hz := h 0 (by simp)
      simpa using hz
    rw [List.length_cons, List.range_succ_eq_map]
    simp only [List.filterMap_cons, h0, List.filterMap_map]
    congr 1
    apply ih
    intro i hi
    have hs := h (i + 1) (by simpa using Nat.succ_lt_succ hi)
    simpa [Function.comp] using hs

theorem emit_height (ids : List (Path × Nat)) (nextOf : Path → Option Nat) :
    ∀ n (u : Node K), nodeSize u ≤ n → ∀ p,
      heightN u ≤ (emit ids nextOf u p).length := by
  intro n
  induction n with
  | zero => intro u h; have := nodeSize_pos u; omega
  | succ n ih =>
    intro u hu p
    cases u with
    | leaf ks vs => rw [heightN, emit]; simp
    | internal ks cs =>
      rw [heightN, emit, List.length_cons]
      have hk : ∀ (cs2 : List (Node K)) (i : Nat), nodeSizeKids cs2 ≤ n →
          heightKids cs2 ≤ (emitKids ids nextOf cs2 p i).length := by
        intro cs2
        induction cs2 with
        | nil => intro i _; rw [heightKids]; simp
        | cons c rest ih2 =>
          intro i hsz
          rw [heightKids, emitKids, List.length_append]
          rw [nodeSizeKids] at hsz
          have h1 := ih c (by have := nodeSize_pos c; omega) (p ++ [i])
          have h2 := ih2 (i + 1) (by have := nodeSize_pos c; omega)
          omega
      have hsz : nodeSizeKids cs ≤ n := by
        rw [nodeSize] at hu; omega
      have := hk cs 0 hsz
      omega
end RecsMapLemmas

section HeadPathLemma

variable {K : Type} [LinearOrder K]

/-- Under well-formedness the head path always lands on a leaf. -/
theorem headPath_leaf :
    ∀ n (u : Node K), nodeSize u ≤ n → ∀ lo hi, wfB lo hi u = true →
      ∃ ks vs, subAt u (headPath u) = some (.leaf ks vs) := by
  intro n
  induction n with
  | zero => intro u h; have := nodeSize_pos u; omega
  | succ n ih =>
    intro u hu lo hi hwf
    cases u with
    | leaf ks vs => exact ⟨ks, vs, rfl⟩
    | internal ks cs =>
      rw [wfB_internal_iff] at hwf
      obtain ⟨hsort, hb, hkids⟩ := hwf
      match cs, hkids with
      | c :: cs2, hkids =>
        have hwc : ∃ lo2 hi2, wfB lo2 hi2 c = true := by
          match ks, hkids with
          | [], hkids =>
            match cs2, hkids with
            | [], hkids =>
              rw [wfKids_nil_single] at hkids
              exact ⟨lo, hi, hkids⟩
            | c2 :: rest, hkids =>
              rw [wfKids_nil_cons2] at hkids; cases hkids
          | k0 :: ks2, hkids =>
            rw [wfKids_cons_cons, Bool.and_eq_true] at hkids
            exact ⟨lo, some k0, hkids.1⟩
        obtain ⟨lo2, hi2, hwc⟩ := hwc
        have hc : nodeSize c ≤ n := by
          have h1 := nodeSize_le_kids c (c :: cs2) (by simp)
          have h2 : nodeSize (Node.internal ks (c :: cs2)) =
            1 + nodeSizeKids (c :: cs2) := rfl
          rw [h2] at hu
          omega
        obtain ⟨ks3, vs3, hsub⟩ := ih c hc lo2 hi2 hwc
        refine ⟨ks3, vs3, ?_⟩
        rw [headPath, headPathKids, subAt, subKids]
        exact hsub
      | [], hkids =>
        cases ks with
        | nil => rw [wfKids_nil_nil] at hkids; cases hkids
        | cons k0 ks2 => rw [wfKids_cons_nil] at hkids; cases hkids

end HeadPathLemma

section AssignKidsLemmas

variable {K : Type}

theorem alookup_aupd_none {κ β : Type} [DecidableEq κ]
    (m : List (κ × β)) (k : κ) (v : β) (q : κ)
    (h : alookup (aupd m k v) q = none) : alookup m q = none := by
  by_cases hq : q = k
  · subst hq; rw [alookup_aupd_self] at h; cases h
  · rw [alookup_aupd_ne _ _ _ _ hq] at h; exact h

theorem path_snoc_ne (p : Path) (x y : Nat) (h : x ≠ y) :
    p ++ [x] ≠ p ++ [y] := by
  intro he
  have h2 := List.append_cancel_left he
  simp at h2
  exact h h2

theorem assignKids_mono (p : Path) :
    ∀ (cs : List (Node K)) (i : Nat) (m : List (Path × Nat)) (n : Nat)
      (q : Path) (a : Nat), alookup m q = some a →
      alookup (assignKids p cs i m n).1 q = some a := by
  intro cs
  induction cs with
  | nil => intro i m n q a h; simp only [assignKids]; exact h
  | cons c rest ih =>
    intro i m n q a h
    simp only [assignKids]
    cases halp : alookup m (p ++ [i]) with
    | some v => exact ih (i + 1) m n q a h
    | none =>
      have hqk : q ≠ p ++ [i] := by
        intro he; rw [he, halp] at h; cases h
      exact ih (i + 1) (aupd m (p ++ [i]) n) (n + 1) q a
        (by rw [alookup_aupd_ne _ _ _ _ hqk]; exact h)

theorem assignKids_mono_isSome (p : Path) (cs : List (Node K)) (i : Nat)
    (m : List (Path × Nat)) (n : Nat) (q : Path)
    (h : (alookup m q).isSome = true) :
    (alookup (assignKids p cs i m n).1 q).isSome = true := by
  cases halp : alookup m q with
  | none => rw [halp] at h; cases h
  | some a => rw [assignKids_mono p cs i m n q a halp]; rfl

theorem assignKids_new (p : Path) :
    ∀ (cs : List (Node K)) (i : Nat) (m : List (Path × Nat)) (n : Nat)
      (q : Path), (alookup (assignKids p cs i m n).1 q).isSome = true →
      (alookup m q).isSome = true ∨
        ∃ j, i ≤ j ∧ j < i + cs.length ∧ q = p ++ [j] := by
  intro cs
  induction cs with
  | nil => intro i m n q h; simp only [assignKids] at h; exact Or.inl h
  | cons c rest ih =>
    intro i m n q h
    simp only [assignKids] at h
    cases halp : alookup m (p ++ [i]) with
    | some v =>
      rw [halp] at h
      rcases ih (i + 1) m n q h with hb | ⟨j, hj1, hj2, hjq⟩
      · exact Or.inl hb
      · exact Or.inr ⟨j, by omega, by simp only [List.length_cons]; omega, hjq⟩
    | none =>
      rw [halp] at h
      rcases ih (i + 1) (aupd m (p ++ [i]) n) (n + 1) q h with hb | ⟨j, hj1, hj2, hjq⟩
      · by_cases hq : q = p ++ [i]
        · exact Or.inr ⟨i, le_rfl, by simp only [List.length_cons]; omega, hq⟩
        · rw [alookup_aupd_ne _ _ _ _ hq] at hb
          exact Or.inl hb
      · exact Or.inr ⟨j, by omega, by simp only [List.length_cons]; omega, hjq⟩

theorem assignKids_children (p : Path) :
    ∀ (cs : List (Node K)) (i : Nat) (m : List (Path × Nat)) (n : Nat)
      (j : Nat), j < cs.length →
      (alookup (assignKids p cs i m n).1 (p ++ [i + j])).isSome = true := by
  intro cs
  induction cs with
  | nil => intro i m n j h; simp at h
  | cons c rest ih =>
    intro i m n j hj
    simp only [assignKids]
    cases halp : alookup m (p ++ [i]) with
    | some v =>
      cases j with
      | zero =>
        rw [Nat.add_zero]
        exact assignKids_mono_isSome p rest (i + 1) m n (p ++ [i])
          (by rw [halp]; rfl)
      | succ j2 =>
        rw [show i + (j2 + 1) = (i + 1) + j2 from by omega]
        exact ih (i + 1) m n j2 (by simpa using hj)
    | none =>
      cases j with
      | zero =>
        rw [Nat.add_zero]
        exact assignKids_mono_isSome p rest (i + 1) (aupd m (p ++ [i]) n) (n + 1)
          (p ++ [i]) (by rw [alookup_aupd_self]; rfl)
      | succ j2 =>
        rw [show i + (j2 + 1) = (i + 1) + j2 from by omega]
        exact ih (i + 1) (aupd m (p ++ [i]) n) (n + 1) j2 (by simpa using hj)

theorem assignKids_inj (p : Path) :
    ∀ (cs : List (Node K)) (i : Nat) (m : List (Path × Nat)) (n : Nat),
      (∀ q q' a, alookup m q = some a → alookup m q' = some a → q = q') →
      (∀ q a, alookup m q = some a → a < n) →
      (∀ q q' a, alookup (assignKids p cs i m n).1 q = some a →
          alookup (assignKids p cs i m n).1 q' = some a → q = q') ∧
        (∀ q a, alookup (assignKids p cs i m n).1 q = some a →
          a < (assignKids p cs i m n).2.1) ∧
        n ≤ (assignKids p cs i m n).2.1 := by
  intro cs
  induction cs with
  | nil =>
    intro i m n hinj hlt
    simp only [assignKids]
    exact ⟨hinj, hlt, le_rfl⟩
  | cons c rest ih =>
    intro i m n hinj hlt
    simp only [assignKids]
    cases halp : alookup m (p ++ [i]) with
    | some v => exact ih (i + 1) m n hinj hlt
    | none =>
      have hinj2 : ∀ q q' a, alookup (aupd m (p ++ [i]) n) q = some a →
          alookup (aupd m (p ++ [i]) n) q' = some a → q = q' := by
        intro q q' a h1 h2
        by_cases hq : q = p ++ [i] <;> by_cases hq' : q' = p ++ [i]
        · rw [hq, hq']
        · rw [hq, alookup_aupd_self] at h1
          rw [alookup_aupd_ne _ _ _ _ hq'] at h2
          have := hlt q' a h2
          cases h1
          omega
        · rw [hq', alookup_aupd_self] at h2
          rw [alookup_aupd_ne _ _ _ _ hq] at h1
          have := hlt q a h1
          cases h2
          omega
        · rw [alookup_aupd_ne _ _ _ _ hq] at h1
          rw [alookup_aupd_ne _ _ _ _ hq'] at h2
          exact hinj q q' a h1 h2
      have hlt2 : ∀ q a, alookup (aupd m (p ++ [i]) n) q = some a → a < n + 1 := by
        intro q a h
        by_cases hq : q = p ++ [i]
        · rw [hq, alookup_aupd_self] at h
          cases h
          omega
        · rw [alookup_aupd_ne _ _ _ _ hq] at h
          have := hlt q a h
          omega
      have := ih (i + 1) (aupd m (p ++ [i]) n) (n + 1) hinj2 hlt2
      exact ⟨this.1, this.2.1, le_trans (Nat.le_succ n) this.2.2⟩

theorem assignKids_pushed (p : Path) :
    ∀ (cs : List (Node K)) (i : Nat) (m : List (Path × Nat)) (n : Nat),
      ∀ pc ∈ (assignKids p cs i m n).2.2,
      ∃ j, j < cs.length ∧ pc = (p ++ [i + j], cs.getD j (.leaf [] [])) ∧
        alookup m (p ++ [i + j]) = none := by
  intro cs
  induction cs with
  | nil => intro i m n pc h; simp only [assignKids] at h; cases h
  | cons c rest ih =>
    intro i m n pc h
    simp only [assignKids] at h
    cases halp : alookup m (p ++ [i]) with
    | some v =>
      rw [halp] at h
      obtain ⟨j, hj, hpc, hnone⟩ := ih (i + 1) m n pc h
      exact ⟨j + 1, by simpa using Nat.succ_lt_succ hj,
        by rw [hpc, show (i + 1) + j = i + (j + 1) from by omega,
          List.getD_cons_succ],
        by rw [show i + (j + 1) = (i + 1) + j from by omega]; exact hnone⟩
    | none =>
      rw [halp] at h
      rcases List.mem_cons.mp h with he | hm
      · exact ⟨0, by simp, by rw [he, Nat.add_zero, List.getD_cons_zero],
          by rw [Nat.add_zero]; exact halp⟩
      · obtain ⟨j, hj, hpc, hnone⟩ := ih (i + 1) (aupd m (p ++ [i]) n) (n + 1) pc hm
        exact ⟨j + 1, by simpa using Nat.succ_lt_succ hj,
          by rw [hpc, show (i + 1) + j = i + (j + 1) from by omega,
            List.getD_cons_succ],
          by rw [show i + (j + 1) = (i + 1) + j from by omega]
             exact alookup_aupd_none m (p ++ [i]) n _ hnone⟩

theorem assignKids_pushed_nodup (p : Path) :
    ∀ (cs : List (Node K)) (i : Nat) (m : List (Path × Nat)) (n : Nat),
      List.Nodup (((assignKids p cs i m n).2.2).map Prod.fst) := by
  intro cs
  induction cs with
  | nil => intro i m n; simp only [assignKids]; exact List.nodup_nil
  | cons c rest ih =>
    intro i m n
    simp only [assignKids]
    cases halp : alookup m (p ++ [i]) with
    | some v => exact ih (i + 1) m n
    | none =>
      rw [List.map_cons, List.nodup_cons]
      constructor
      · intro hmem
        rcases List.mem_map.mp hmem with ⟨pc, hpc, hfst⟩
        obtain ⟨j, hj, hpceq, _⟩ :=
          assignKids_pushed p rest (i + 1) (aupd m (p ++ [i]) n) (n + 1) pc hpc
        rw [hpceq] at hfst
        exact path_snoc_ne p ((i + 1) + j) i (by omega) hfst
      · exact ih (i + 1) (aupd m (p ++ [i]) n) (n + 1)

theorem assignKids_covered (p : Path) :
    ∀ (cs : List (Node K)) (i : Nat) (m : List (Path × Nat)) (n : Nat)
      (j : Nat), j < cs.length →
      (alookup m (p ++ [i + j])).isSome = true ∨
        (p ++ [i + j]) ∈ ((assignKids p cs i m n).2.2).map Prod.fst := by
  intro cs
  induction cs with
  | nil => intro i m n j h; simp at h
  | cons c rest ih =>
    intro i m n j hj
    simp only [assignKids]
    cases halp : alookup m (p ++ [i]) with
    | some v =>
      cases j with
      | zero => exact Or.inl (by rw [Nat.add_zero, halp]; rfl)
      | succ j2 =>
        rw [show i + (j2 + 1) = (i + 1) + j2 from by omega]
        exact ih (i + 1) m n j2 (by simpa using hj)
    | none =>
      cases j with
      | zero =>
        rw [Nat.add_zero]
        exact Or.inr (by rw [List.map_cons]; exact List.mem_cons_self _ _)
      | succ j2 =>
        rw [show i + (j2 + 1) = (i + 1) + j2 from by omega]
        rcases ih (i + 1) (aupd m (p ++ [i]) n) (n + 1) j2 (by simpa using hj)
          with hb | hmem
        · by_cases hq : p ++ [(i + 1) + j2] = p ++ [i]
          · exact absurd hq (path_snoc_ne p ((i + 1) + j2) i (by omega))
          · rw [alookup_aupd_ne _ _ _ _ hq] at hb
            exact Or.inl hb
        · exact Or.inr (by rw [List.map_cons]; exact List.mem_cons_of_mem _ hmem)

theorem assignKids_next_ge (p : Path) :
    ∀ (cs : List (Node K)) (i : Nat) (m : List (Path × Nat)) (n : Nat),
      n ≤ (assignKids p cs i m n).2.1 := by
  intro cs
  induction cs with
  | nil => intro i m n; simp only [assignKids]; exact le_rfl
  | cons c rest ih =>
    intro i m n
    simp only [assignKids]
    cases halp : alookup m (p ++ [i]) with
    | some v => exact ih (i + 1) m n
    | none =>
      exact le_trans (Nat.le_succ n) (ih (i + 1) (aupd m (p ++ [i]) n) (n + 1))

end AssignKidsLemmas

section BfsLoopLemmas

variable {K : Type} [LinearOrder K]

theorem queueSize_pos (pc : Path × Node K) (q : List (Path × Node K)) :
    1 ≤ queueSize (pc :: q) := by
  have := nodeSize_pos pc.2
  simp only [queueSize, List.map_cons, List.sum_cons]
  omega

/-- The BFS id-assignment loop: starting from a state whose invariants hold,
the final map binds every real path and is injective. -/
theorem bfsLoop_good (r : Node K)
    (hleaf : ∃ lks lvs, subAt r (headPath r) = some (.leaf lks lvs)) :
    ∀ N (q : List (Path × Node K)) (m : List (Path × Nat)) (n : Nat),
      queueSize q ≤ N →
      (∀ pc ∈ q, subAt r pc.1 = some pc.2) →
      (∀ pc ∈ q, (alookup m pc.1).isSome = true) →
      (∀ p, (subAt r p).isSome = true →
        (alookup m p).isSome = true ∨ ∃ pc ∈ q, ∃ s, s ≠ [] ∧ p = pc.1 ++ s) →
      (∀ pc ∈ q, ∀ s, s ≠ [] → (alookup m (pc.1 ++ s)).isSome = true →
        pc.1 ++ s = headPath r) →
      (∀ p p' a, alookup m p = some a → alookup m p' = some a → p = p') →
      (∀ p a, alookup m p = some a → a < n) →
      List.Nodup (q.map Prod.fst) →
      (∀ pc ∈ q, ∀ pc' ∈ q, ∀ s, pc'.1 = pc.1 ++ s → s = []) →
      (∀ pc ∈ q, pc.1 = headPath r → pc.1 = ([] : Path)) →
      (alookup m (headPath r)).isSome = true →
      (∀ p, (subAt r p).isSome = true →
        (alookup (bfsLoop q m n) p).isSome = true) ∧
      (∀ p p' a, alookup (bfsLoop q m n) p = some a →
        alookup (bfsLoop q m n) p' = some a → p = p') := by
  intro N
  induction N with
  | zero =>
    intro q m n hN h1 h2 h3 h4 h5 h6 h7 h8 h9 h10
    cases q with
    | nil =>
      simp only [bfsLoop]
      refine ⟨?_, h5⟩
      intro p hp
      rcases h3 p hp with hb | ⟨pc, hpc, s, hs, hps⟩
      · exact hb
      · cases hpc
    | cons pc0 q2 =>
      exfalso
      have := queueSize_pos pc0 q2
      omega
  | succ N ih =>
    intro q m n hN h1 h2 h3 h4 h5 h6 h7 h8 h9 h10
    cases q with
    | nil =>
      simp only [bfsLoop]
      refine ⟨?_, h5⟩
      intro p hp
      rcases h3 p hp with hb | ⟨pc, hpc, s, hs, hps⟩
      · exact hb
      · cases hpc
    | cons pc0 q2 =>
      obtain ⟨p0, u0⟩ := pc0
      cases u0 with
      | leaf lks lvs =>
        simp only [bfsLoop]
        apply ih q2 m n
        · have hql : queueSize ((p0, Node.leaf lks lvs) :: q2) =
              1 + queueSize q2 := by
            simp [queueSize, nodeSize]
          omega
        · intro pc hpc; exact h1 pc (List.mem_cons_of_mem _ hpc)
        · intro pc hpc; exact h2 pc (List.mem_cons_of_mem _ hpc)
        · intro p hp
          rcases h3 p hp with hb | ⟨pc, hpc, s, hs, hps⟩
          · exact Or.inl hb
          · rcases List.mem_cons.mp hpc with he | hm
            · exfalso
              subst he
              dsimp only at hps
              have hp0 := h1 (p0, Node.leaf lks lvs) (List.mem_cons_self _ _)
              rw [hps, subAt_leaf_desc r p0 lks lvs hp0 s hs] at hp
              cases hp
            · exact Or.inr ⟨pc, hm, s, hs, hps⟩
        · intro pc hpc s hs hb
          exact h4 pc (List.mem_cons_of_mem _ hpc) s hs hb
        · exact h5
        · exact h6
        · exact (List.nodup_cons.mp (by simpa using h7)).2
        · intro pc hpc pc' hpc' s hsp
          exact h8 pc (List.mem_cons_of_mem _ hpc)
            pc' (List.mem_cons_of_mem _ hpc') s hsp
        · intro pc hpc hh; exact h9 pc (List.mem_cons_of_mem _ hpc) hh
        · exact h10
      | internal ks cs =>
        generalize hAK : assignKids p0 cs 0 m n = AK
        obtain ⟨m2, n2, push⟩ := AK
        have hp0 : subAt r p0 = some (Node.internal ks cs) :=
          h1 (p0, Node.internal ks cs) (List.mem_cons_self _ _)
        have hmono : ∀ q a, alookup m q = some a → alookup m2 q = some a := by
          intro q a h
          have hh := assignKids_mono p0 cs 0 m n q a h
          rw [hAK] at hh; exact hh
        have hmonoS : ∀ q, (alookup m q).isSome = true →
            (alookup m2 q).isSome = true := by
          intro q h
          cases hq : alookup m q with
          | none => rw [hq] at h; cases h
          | some a => rw [hmono q a hq]; rfl
        have hnew : ∀ q, (alookup m2 q).isSome = true →
            (alookup m q).isSome = true ∨ ∃ j, j < cs.length ∧ q = p0 ++ [j] := by
          intro q h
          have hh := assignKids_new p0 cs 0 m n q (by rw [hAK]; exact h)
          rcases hh with hb | ⟨j, hj1, hj2, hq⟩
          · exact Or.inl hb
          · exact Or.inr ⟨j, by omega, hq⟩
        have hchild : ∀ j, j < cs.length →
            (alookup m2 (p0 ++ [j])).isSome = true := by
          intro j hj
          have hh := assignKids_children p0 cs 0 m n j hj
          rw [hAK] at hh
          simpa using hh
        have hpush : ∀ pc ∈ push, ∃ j, j < cs.length ∧
            pc = (p0 ++ [j], cs.getD j (.leaf [] [])) ∧
            alookup m (p0 ++ [j]) = none := by
          intro pc hpc
          obtain ⟨j, hj, hpceq, hnone⟩ :=
            assignKids_pushed p0 cs 0 m n pc (by rw [hAK]; exact hpc)
          exact ⟨j, hj, by simpa using hpceq, by simpa using hnone⟩
        have hpushN : List.Nodup (push.map Prod.fst) := by
          have hh := assignKids_pushed_nodup p0 cs 0 m n
          rw [hAK] at hh; exact hh
        have hcov : ∀ j, j < cs.length →
            (alookup m (p0 ++ [j])).isSome = true ∨
              (p0 ++ [j]) ∈ push.map Prod.fst := by
          intro j hj
          have hh := assignKids_covered p0 cs 0 m n j hj
          rw [hAK] at hh
          simpa using hh
        have hinj2 := assignKids_inj p0 cs 0 m n h5 h6
        rw [hAK] at hinj2
        rw [List.map_cons, List.nodup_cons] at h7
        simp only [bfsLoop, hAK]
        apply ih (q2 ++ push) m2 n2
        · have hqs1 : queueSize ((p0, Node.internal ks cs) :: q2) =
              (1 + (cs.map nodeSize).sum) + queueSize q2 := by
            simp [queueSize, nodeSize_internal]
          have hqs2 : queueSize (q2 ++ push) =
              queueSize q2 + queueSize push := by
            simp [queueSize]
          have hqs3 : queueSize push ≤ (cs.map nodeSize).sum := by
            have hh := assignKids_enqueued_size p0 cs 0 m n
            rw [hAK] at hh; exact hh
          rw [hqs1] at hN
          omega
        · intro pc hpc
          rcases List.mem_append.mp hpc with hm | hm
          · exact h1 pc (List.mem_cons_of_mem _ hm)
          · obtain ⟨j, hj, hpceq, _⟩ := hpush pc hm
            rw [hpceq]
            exact subAt_child r p0 ks cs hp0 j hj
        · intro pc hpc
          rcases List.mem_append.mp hpc with hm | hm
          · exact hmonoS pc.1 (h2 pc (List.mem_cons_of_mem _ hm))
          · obtain ⟨j, hj, hpceq, _⟩ := hpush pc hm
            rw [hpceq]
            exact hchild j hj
        · intro p hp
          rcases h3 p hp with hb | ⟨pc, hpc, s, hs, hps⟩
          · exact Or.inl (hmonoS p hb)
          · rcases List.mem_cons.mp hpc with he | hm
            · subst he
              dsimp only at hps
              rw [hps] at hp ⊢
              cases s with
              | nil => exact absurd rfl hs
              | cons j s2 =>
                have hjlt : j < cs.length :=
                  subAt_desc_lt r p0 ks cs hp0 j s2 hp
                cases s2 with
                | nil => exact Or.inl (hchild j hjlt)
                | cons j2 s3 =>
                  rcases hcov j hjlt with hb2 | hmem
                  · exfalso
                    have hhd := h4 (p0, Node.internal ks cs)
                      (List.mem_cons_self _ _) [j] (by simp) hb2
                    obtain ⟨lks, lvs, hlf⟩ := hleaf
                    rw [← hhd] at hlf
                    rw [show p0 ++ j :: j2 :: s3 = (p0 ++ [j]) ++ (j2 :: s3)
                        from by simp,
                      subAt_leaf_desc r (p0 ++ [j]) lks lvs hlf (j2 :: s3)
                        (by simp)] at hp
                    cases hp
                  · rcases List.mem_map.mp hmem with ⟨pc2, hpc2, hfst⟩
                    refine Or.inr ⟨pc2, List.mem_append_right _ hpc2,
                      j2 :: s3, by simp, ?_⟩
                    rw [hfst]
                    simp
            · exact Or.inr ⟨pc, List.mem_append_left _ hm, s, hs, hps⟩
        · intro pc hpc s hs hb
          rcases hnew (pc.1 ++ s) hb with hbm | ⟨j, hj, heq⟩
          · rcases List.mem_append.mp hpc with hm | hm
            · exact h4 pc (List.mem_cons_of_mem _ hm) s hs hbm
            · obtain ⟨j, hj, hpceq, _⟩ := hpush pc hm
              have hre : pc.1 ++ s = p0 ++ ([j] ++ s) := by rw [hpceq]; simp
              rw [hre] at hbm ⊢
              exact h4 (p0, Node.internal ks cs) (List.mem_cons_self _ _)
                ([j] ++ s) (by simp) hbm
          · exfalso
            rcases List.mem_append.mp hpc with hm | hm
            · rcases List.append_eq_append_iff.mp heq with
                ⟨a', ha1, ha2⟩ | ⟨c', hc1, hc2⟩
              · have ha0 : a' = [] := h8 pc (List.mem_cons_of_mem _ hm)
                  (p0, Node.internal ks cs) (List.mem_cons_self _ _) a' ha1
                rw [ha0, List.append_nil] at ha1
                refine h7.1 ?_
                show p0 ∈ List.map Prod.fst q2
                rw [show p0 = pc.1 from ha1]
                exact List.mem_map_of_mem Prod.fst hm
              · cases c' with
                | nil =>
                  rw [List.append_nil] at hc1
                  refine h7.1 ?_
                  show p0 ∈ List.map Prod.fst q2
                  rw [show p0 = pc.1 from hc1.symm]
                  exact List.mem_map_of_mem Prod.fst hm
                | cons x c2 =>
                  rw [List.cons_append] at hc2
                  injection hc2 with hx hrest
                  have : s = [] := (List.append_eq_nil.mp hrest.symm).2
                  exact hs this
            · obtain ⟨j', hj', hpceq, _⟩ := hpush pc hm
              rw [hpceq] at heq
              dsimp only at heq
              rw [List.append_assoc] at heq
              have hcc := List.append_cancel_left heq
              rw [List.singleton_append] at hcc
              injection hcc with hx1 hx2
              exact hs hx2
        · exact hinj2.1
        · exact hinj2.2.1
        · rw [List.map_append]
          apply h7.2.append hpushN
          intro x hx1 hx2
          rcases List.mem_map.mp hx1 with ⟨pc, hpc, rfl⟩
          rcases List.mem_map.mp hx2 with ⟨pc2, hpc2, hfst⟩
          obtain ⟨j, hj, hpceq, hnone⟩ := hpush pc2 hpc2
          have hpc1 : pc.1 = p0 ++ [j] := by rw [← hfst, hpceq]
          have hbm := h2 pc (List.mem_cons_of_mem _ hpc)
          rw [hpc1, hnone] at hbm
          cases hbm
        · intro pc hpc pc' hpc' s hsp
          rcases List.mem_append.mp hpc' with hm' | hm'
          · rcases List.mem_append.mp hpc with hm | hm
            · exact h8 pc (List.mem_cons_of_mem _ hm)
                pc' (List.mem_cons_of_mem _ hm') s hsp
            · exfalso
              obtain ⟨j, hj, hpceq, _⟩ := hpush pc hm
              have hbm := h2 pc' (List.mem_cons_of_mem _ hm')
              have hp' : pc'.1 = p0 ++ ([j] ++ s) := by rw [hsp, hpceq]; simp
              rw [hp'] at hbm
              have hhd := h4 (p0, Node.internal ks cs) (List.mem_cons_self _ _)
                ([j] ++ s) (by simp) hbm
              have h9' := h9 pc' (List.mem_cons_of_mem _ hm')
                (by rw [hp']; exact hhd)
              rw [hp'] at h9'
              simp at h9'
          · obtain ⟨j, hj, hpceq', hnone'⟩ := hpush pc' hm'
            have hp'1 : pc'.1 = p0 ++ [j] := by rw [hpceq']
            rcases List.mem_append.mp hpc with hm | hm
            · have heq2 : pc.1 ++ s = p0 ++ [j] := hsp.symm.trans hp'1
              rcases List.append_eq_append_iff.mp heq2 with
                ⟨a', ha1, ha2⟩ | ⟨c', hc1, hc2⟩
              · exfalso
                have ha0 : a' = [] := h8 pc (List.mem_cons_of_mem _ hm)
                  (p0, Node.internal ks cs) (List.mem_cons_self _ _) a' ha1
                rw [ha0, List.append_nil] at ha1
                refine h7.1 ?_
                show p0 ∈ List.map Prod.fst q2
                rw [show p0 = pc.1 from ha1]
                exact List.mem_map_of_mem Prod.fst hm
              · cases c' with
                | nil =>
                  exfalso
                  rw [List.append_nil] at hc1
                  refine h7.1 ?_
                  show p0 ∈ List.map Prod.fst q2
                  rw [show p0 = pc.1 from hc1.symm]
                  exact List.mem_map_of_mem Prod.fst hm
                | cons x c2 =>
                  rw [List.cons_append] at hc2
                  injection hc2 with hx hrest
                  exact (List.append_eq_nil.mp hrest.symm).2
            · obtain ⟨j2, hj2, hpceq, _⟩ := hpush pc hm
              have heq3 : p0 ++ [j] = (p0 ++ [j2]) ++ s := by
                rw [← hp'1, hsp, hpceq]
              rw [List.append_assoc] at heq3
              have hcc := List.append_cancel_left heq3
              rw [List.singleton_append] at hcc
              injection hcc with hx1 hx2
              exact hx2.symm
        · intro pc hpc hh
          rcases List.mem_append.mp hpc with hm | hm
          · exact h9 pc (List.mem_cons_of_mem _ hm) hh
          · exfalso
            obtain ⟨j, hj, hpceq, hnone⟩ := hpush pc hm
            have hpc1 : pc.1 = p0 ++ [j] := by rw [hpceq]
            rw [hpc1] at hh
            rw [← hh, hnone] at h10
            cases h10
        · exact hmonoS _ h10

end BfsLoopLemmas

section AssignIdsGood

variable {K : Type} [LinearOrder K]

theorem subAt_nil (u : Node K) : subAt u [] = some u := by cases u <;> rfl

/-- `serialize`'s id map binds every node path and is injective. -/
theorem assignIds_good (r : Node K)
    (hleaf : ∃ lks lvs, subAt r (headPath r) = some (.leaf lks lvs)) :
    (∀ p, (subAt r p).isSome = true →
      (alookup (assignIds r) p).isSome = true) ∧
    (∀ p p' a, alookup (assignIds r) p = some a →
      alookup (assignIds r) p' = some a → p = p') := by
  have hm0 : ∀ q, alookup (aupd [(([] : Path), 0)] (headPath r) 1) q =
      if q = headPath r then some 1
      else if q = [] then some 0 else none := by
    intro q
    by_cases h1 : q = headPath r
    · rw [if_pos h1, h1, alookup_aupd_self]
    · rw [if_neg h1, alookup_aupd_ne _ _ _ _ h1]
      by_cases h2 : q = []
      · rw [if_pos h2, h2, alookup, if_pos rfl]
      · rw [if_neg h2, alookup, if_neg (fun he => h2 he.symm), alookup]
  rw [assignIds]
  apply bfsLoop_good r hleaf (queueSize [(([] : Path), r)]) _ _ _ le_rfl
  · intro pc hpc
    rcases List.mem_singleton.mp hpc with rfl
    exact subAt_nil r
  · intro pc hpc
    rcases List.mem_singleton.mp hpc with rfl
    rw [hm0]
    by_cases h1 : ([] : Path) = headPath r
    · rw [if_pos h1]; rfl
    · rw [if_neg h1, if_pos rfl]; rfl
  · intro p hp
    cases hp0 : p with
    | nil =>
      refine Or.inl ?_
      rw [hm0]
      by_cases h1 : ([] : Path) = headPath r
      · rw [if_pos h1]; rfl
      · rw [if_neg h1, if_pos rfl]; rfl
    | cons j s =>
      exact Or.inr ⟨(([] : Path), r), List.mem_singleton.mpr rfl,
        j :: s, by simp, by simp⟩
  · intro pc hpc s hs hb
    rcases List.mem_singleton.mp hpc with rfl
    rw [List.nil_append] at hb ⊢
    rw [hm0] at hb
    by_cases h1 : s = headPath r
    · exact h1
    · rw [if_neg h1, if_neg hs] at hb
      cases hb
  · intro p p' a hp hp'
    rw [hm0] at hp hp'
    by_cases hA : p = headPath r
    · rw [if_pos hA] at hp
      injection hp with ha
      by_cases hB : p' = headPath r
      · rw [hA, hB]
      · rw [if_neg hB] at hp'
        by_cases hD : p' = []
        · rw [if_pos hD] at hp'
          injection hp' with hb
          omega
        · rw [if_neg hD] at hp'
          cases hp'
    · rw [if_neg hA] at hp
      by_cases hC : p = []
      · rw [if_pos hC] at hp
        injection hp with ha
        by_cases hB : p' = headPath r
        · rw [if_pos hB] at hp'
          injection hp' with hb
          omega
        · rw [if_neg hB] at hp'
          by_cases hD : p' = []
          · rw [hC, hD]
          · rw [if_neg hD] at hp'
            cases hp'
      · rw [if_neg hC] at hp
        cases hp
  · intro p a hp
    rw [hm0] at hp
    by_cases hA : p = headPath r
    · rw [if_pos hA] at hp; injection hp with ha; omega
    · rw [if_neg hA] at hp
      by_cases hC : p = []
      · rw [if_pos hC] at hp; injection hp with ha; omega
      · rw [if_neg hC] at hp; cases hp
  · simp
  · intro pc hpc pc' hpc' s hsp
    rcases List.mem_singleton.mp hpc with rfl
    rcases List.mem_singleton.mp hpc' with rfl
    rw [List.nil_append] at hsp
    exact hsp.symm
  · intro pc hpc hh
    rcases List.mem_singleton.mp hpc with rfl
    rfl
  · rw [hm0, if_pos rfl]
    rfl

end AssignIdsGood

section EmissionLemmas

variable {K : Type} [LinearOrder K]

theorem subKids_eq_getD (dflt : Node K) :
    ∀ (cs : List (Node K)) (j : Nat), j < cs.length → ∀ q,
      subKids cs j q = subAt (cs.getD j dflt) q := by
  intro cs
  induction cs with
  | nil => intro j h; simp at h
  | cons c rest ih =>
    intro j hj q
    cases j with
    | zero => rw [subKids, List.getD_cons_zero]
    | succ j2 => rw [subKids, List.getD_cons_succ]; exact ih j2 (by simpa using hj) q

theorem emit_mem (ids : List (Path × Nat)) (nextOf : Path → Option Nat) :
    ∀ n (u : Node K), nodeSize u ≤ n → ∀ (p q : Path) (w : Node K),
      subAt u q = some w →
      (idOf ids (p ++ q), recOfNode ids nextOf (p ++ q) w) ∈
        emit ids nextOf u p := by
  intro n
  induction n with
  | zero => intro u h; have := nodeSize_pos u; omega
  | succ n ih =>
    intro u hu p q w hq
    cases u with
    | leaf ks vs =>
      cases q with
      | nil =>
        rw [subAt_nil] at hq
        injection hq with hw
        rw [← hw, List.append_nil, emit, recOfNode]
        exact List.mem_singleton.mpr rfl
      | cons j s => cases hq
    | internal ks cs =>
      have hkids : ∀ (cs2 : List (Node K)), nodeSizeKids cs2 ≤ n →
          ∀ (i j : Nat) (q' : Path) (w2 : Node K) (p2 : Path),
          subKids cs2 j q' = some w2 →
          (idOf ids (p2 ++ (i + j) :: q'),
            recOfNode ids nextOf (p2 ++ (i + j) :: q') w2) ∈
            emitKids ids nextOf cs2 p2 i := by
        intro cs2
        induction cs2 with
        | nil => intro _ i j q' w2 p2 hq2; rw [subKids] at hq2; cases hq2
        | cons c rest ih2 =>
          intro hsz i j q' w2 p2 hq2
          rw [nodeSizeKids] at hsz
          rw [emitKids]
          cases j with
          | zero =>
            rw [subKids] at hq2
            have hmem := ih c (by have := nodeSize_pos c; omega) (p2 ++ [i])
              q' w2 hq2
            have hpath : p2 ++ (i + 0) :: q' = (p2 ++ [i]) ++ q' := by simp
            rw [hpath]
            exact List.mem_append_left _ hmem
          | succ j2 =>
            rw [subKids] at hq2
            have hmem := ih2 (by have := nodeSize_pos c; omega) (i + 1) j2 q' w2
              p2 hq2
            rw [show i + (j2 + 1) = (i + 1) + j2 from by omega]
            exact List.mem_append_right _ hmem
      cases q with
      | nil =>
        rw [subAt_nil] at hq
        injection hq with hw
        rw [← hw, List.append_nil, emit, recOfNode]
        exact List.mem_cons_self _ _
      | cons j s =>
        rw [subAt] at hq
        have hsz : nodeSizeKids cs ≤ n := by rw [nodeSize] at hu; omega
        have hmem := hkids cs hsz 0 j s w p hq
        rw [Nat.zero_add] at hmem
        rw [emit]
        exact List.mem_cons_of_mem _ hmem

theorem emitKids_fst_char (ids : List (Path × Nat)) (nextOf : Path → Option Nat) :
    ∀ n (cs2 : List (Node K)), nodeSizeKids cs2 ≤ n →
      (∀ c ∈ cs2, ∀ p2 x, x ∈ emit ids nextOf c p2 →
        ∃ q, (subAt c q).isSome = true ∧ x.1 = idOf ids (p2 ++ q)) →
      ∀ (i : Nat) (p : Path) (x : Nat × NodeRec K),
        x ∈ emitKids ids nextOf cs2 p i →
        ∃ j q, j < cs2.length ∧
          (subAt (cs2.getD j (.leaf [] [])) q).isSome = true ∧
          x.1 = idOf ids (p ++ (i + j) :: q) := by
  intro n cs2
  induction cs2 with
  | nil => intro _ _ i p x hx; rw [emitKids] at hx; cases hx
  | cons c rest ih =>
    intro hsz hpt i p x hx
    rw [emitKids] at hx
    rcases List.mem_append.mp hx with hm | hm
    · obtain ⟨q, hq, hid⟩ := hpt c (by simp) (p ++ [i]) x hm
      refine ⟨0, q, by simp, by rw [List.getD_cons_zero]; exact hq, ?_⟩
      have hpath : p ++ (i + 0) :: q = (p ++ [i]) ++ q := by simp
      rw [hid, hpath]
    · have hsz2 : nodeSizeKids rest ≤ n := by
        rw [nodeSizeKids] at hsz
        have := nodeSize_pos c
        omega
      obtain ⟨j, q, hj, hq, hid⟩ := ih hsz2
        (fun c2 hc2 => hpt c2 (by simp [hc2])) (i + 1) p x hm
      refine ⟨j + 1, q, by simpa using Nat.succ_lt_succ hj,
        by rw [List.getD_cons_succ]; exact hq, ?_⟩
      rw [hid, show (i + 1) + j = i + (j + 1) from by omega]

theorem emit_fst_char (ids : List (Path × Nat)) (nextOf : Path → Option Nat) :
    ∀ n (u : Node K), nodeSize u ≤ n → ∀ (p : Path) (x : Nat × NodeRec K),
      x ∈ emit ids nextOf u p →
      ∃ q, (subAt u q).isSome = true ∧ x.1 = idOf ids (p ++ q) := by
  intro n
  induction n with
  | zero => intro u h; have := nodeSize_pos u; omega
  | succ n ih =>
    intro u hu p x hx
    cases u with
    | leaf ks vs =>
      rw [emit] at hx
      rcases List.mem_singleton.mp hx with rfl
      exact ⟨[], by rw [subAt_nil]; rfl, by rw [List.append_nil]⟩
    | internal ks cs =>
      rw [emit] at hx
      rcases List.mem_cons.mp hx with he | hm
      · exact ⟨[], by rw [subAt_nil]; rfl, by rw [he, List.append_nil]⟩
      · have hsz : nodeSizeKids cs ≤ n := by rw [nodeSize] at hu; omega
        have hpt : ∀ c ∈ cs, ∀ p2 x2, x2 ∈ emit ids nextOf c p2 →
            ∃ q, (subAt c q).isSome = true ∧ x2.1 = idOf ids (p2 ++ q) := by
          intro c hc p2 x2 hx2
          apply ih c ?_ p2 x2 hx2
          have h1 := nodeSize_le_kids c cs hc
          omega
        obtain ⟨j, q, hj, hq, hid⟩ :=
          emitKids_fst_char ids nextOf n cs hsz hpt 0 p x hm
        refine ⟨j :: q, ?_, ?_⟩
        · rw [subAt, subKids_eq_getD (.leaf [] []) cs j hj q]
          exact hq
        · rw [hid, Nat.zero_add]

theorem emit_nodup (r : Node K) (ids : List (Path × Nat))
    (nextOf : Path → Option Nat)
    (hTot : ∀ p, (subAt r p).isSome = true →
      (alookup ids p).isSome = true)
    (hInj : ∀ p p' a, alookup ids p = some a → alookup ids p' = some a →
      p = p') :
    ∀ n (u : Node K), nodeSize u ≤ n → ∀ (p : Path),
      subAt r p = some u →
      List.Nodup ((emit ids nextOf u p).map Prod.fst) := by
  have hidinj : ∀ p1 p2, (subAt r p1).isSome = true →
      (subAt r p2).isSome = true → idOf ids p1 = idOf ids p2 → p1 = p2 := by
    intro p1 p2 h1 h2 hid
    have hb1 := hTot p1 h1
    have hb2 := hTot p2 h2
    cases ha1 : alookup ids p1 with
    | none => rw [ha1] at hb1; cases hb1
    | some a1 =>
      cases ha2 : alookup ids p2 with
      | none => rw [ha2] at hb2; cases hb2
      | some a2 =>
        rw [idOf, idOf, ha1, ha2] at hid
        simp at hid
        exact hInj p1 p2 a1 (by rw [ha1]) (by rw [ha2, hid])
  have habs : ∀ (p q : Path) (u : Node K), subAt r p = some u →
      (subAt u q).isSome = true → (subAt r (p ++ q)).isSome = true := by
    intro p q u hp hq
    rw [subAt_append p q, hp, Option.some_bind]
    exact hq
  intro n
  induction n with
  | zero => intro u h; have := nodeSize_pos u; omega
  | succ n ih =>
    intro u hu p hpreal
    cases u with
    | leaf ks vs => rw [emit]; simp
    | internal ks cs =>
      have hsz : nodeSizeKids cs ≤ n := by rw [nodeSize] at hu; omega
      have hkids : ∀ (cs2 : List (Node K)), nodeSizeKids cs2 ≤ nodeSizeKids cs →
          ∀ (i : Nat),
          (∀ j, j < cs2.length →
            subAt r (p ++ [i + j]) = some (cs2.getD j (.leaf [] []))) →
          List.Nodup ((emitKids ids nextOf cs2 p i).map Prod.fst) := by
        intro cs2
        induction cs2 with
        | nil => intro _ i _; rw [emitKids]; simp
        | cons c rest ih2 =>
          intro hsz2 i hreal
          rw [nodeSizeKids] at hsz2
          have hc0 : subAt r (p ++ [i]) = some c := by
            have := hreal 0 (by simp)
            rw [Nat.add_zero, List.getD_cons_zero] at this
            exact this
          rw [emitKids, List.map_append]
          apply List.Nodup.append
          · exact ih c (by have := nodeSize_pos c; omega) (p ++ [i]) hc0
          · apply ih2 (by have := nodeSize_pos c; omega) (i + 1)
            intro j hj
            have := hreal (j + 1) (by simpa using Nat.succ_lt_succ hj)
            rw [show i + (j + 1) = (i + 1) + j from by omega,
              List.getD_cons_succ] at this
            exact this
          · intro x hx1 hx2
            rcases List.mem_map.mp hx1 with ⟨x1, hx1m, rfl⟩
            rcases List.mem_map.mp hx2 with ⟨x2, hx2m, hfst⟩
            obtain ⟨q1, hq1, hid1⟩ := emit_fst_char ids nextOf (nodeSize c) c
              le_rfl (p ++ [i]) x1 hx1m
            have hpt : ∀ c2 ∈ rest, ∀ p2 y, y ∈ emit ids nextOf c2 p2 →
                ∃ q, (subAt c2 q).isSome = true ∧ y.1 = idOf ids (p2 ++ q) :=
              fun c2 hc2 p2 y hy =>
                emit_fst_char ids nextOf (nodeSize c2) c2 le_rfl p2 y hy
            obtain ⟨j, q2, hj, hq2, hid2⟩ := emitKids_fst_char ids nextOf
              (nodeSizeKids rest) rest le_rfl hpt (i + 1) p x2 hx2m
            have hreal1 : (subAt r ((p ++ [i]) ++ q1)).isSome = true :=
              habs (p ++ [i]) q1 c hc0 hq1
            have hcj : subAt r (p ++ [(i + 1) + j]) =
                some (rest.getD j (.leaf [] [])) := by
              have := hreal (j + 1) (by simpa using Nat.succ_lt_succ hj)
              rw [show i + (j + 1) = (i + 1) + j from by omega,
                List.getD_cons_succ] at this
              exact this
            have hreal2 : (subAt r ((p ++ [(i + 1) + j]) ++ q2)).isSome = true :=
              habs (p ++ [(i + 1) + j]) q2 _ hcj hq2
            have hpp2 : p ++ ((i + 1) + j) :: q2 =
                (p ++ [(i + 1) + j]) ++ q2 := by simp
            have hB : x2.1 = idOf ids ((p ++ [(i + 1) + j]) ++ q2) := by
              rw [hid2, hpp2]
            have hid12 : idOf ids ((p ++ [i]) ++ q1) =
                idOf ids ((p ++ [(i + 1) + j]) ++ q2) :=
              hid1.symm.trans (hfst.symm.trans hB)
            have hpatheq := hidinj _ _ hreal1 hreal2 hid12
            rw [List.append_assoc, List.append_assoc] at hpatheq
            have hcc := List.append_cancel_left hpatheq
            rw [List.singleton_append, List.singleton_append] at hcc
            injection hcc with hch _
            omega
      rw [emit, List.map_cons, List.nodup_cons]
      constructor
      · intro hmem
        rcases List.mem_map.mp hmem with ⟨x2, hx2m, hfst⟩
        have hpt : ∀ c2 ∈ cs, ∀ p2 y, y ∈ emit ids nextOf c2 p2 →
            ∃ q, (subAt c2 q).isSome = true ∧ y.1 = idOf ids (p2 ++ q) :=
          fun c2 hc2 p2 y hy =>
            emit_fst_char ids nextOf (nodeSize c2) c2 le_rfl p2 y hy
        obtain ⟨j, q2, hj, hq2, hid2⟩ := emitKids_fst_char ids nextOf
          (nodeSizeKids cs) cs le_rfl hpt 0 p x2 hx2m
        have hcj : subAt r (p ++ [0 + j]) = some (cs.getD j (.leaf [] [])) := by
          rw [Nat.zero_add]
          exact subAt_child r p ks cs hpreal j hj
        have hreal2 : (subAt r ((p ++ [0 + j]) ++ q2)).isSome = true :=
          habs (p ++ [0 + j]) q2 _ hcj hq2
        have hreal0 : (subAt r p).isSome = true := by rw [hpreal]; rfl
        have hfst2 : x2.1 = idOf ids p := hfst
        have hpp0 : p ++ (0 + j) :: q2 = (p ++ [0 + j]) ++ q2 := by simp
        have hid02 : idOf ids p = idOf ids ((p ++ [0 + j]) ++ q2) :=
          hfst2.symm.trans (hid2.trans (by rw [hpp0]))
        have hpatheq := hidinj _ _ hreal0 hreal2 hid02
        have hlen := congrArg List.length hpatheq
        simp at hlen
      · apply hkids cs le_rfl 0
        intro j hj
        rw [Nat.zero_add]
        exact subAt_child r p ks cs hpreal j hj

end EmissionLemmas

section BuildCorrect

variable {K : Type} [LinearOrder K]

theorem heightN_pos (u : Node K) : 1 ≤ heightN u := by
  cases u <;> rw [heightN] <;> omega

theorem heightKids_ge (c : Node K) (cs : List (Node K)) (h : c ∈ cs) :
    heightN c ≤ heightKids cs := by
  induction cs with
  | nil => cases h
  | cons a rest ih =>
    rcases List.mem_cons.mp h with rfl | hm
    · rw [heightKids]; exact le_max_left _ _
    · rw [heightKids]; exact le_trans (ih hm) (le_max_right _ _)

/-- `deserialize`'s node linking rebuilds every serialized subtree exactly,
given enough fuel (one more than the tree height suffices). -/
theorem build_correct (r : Node K) (ids : List (Path × Nat))
    (nextOf : Path → Option Nat)
    (hTot : ∀ p, (subAt r p).isSome = true → (alookup ids p).isSome = true)
    (hInj : ∀ p p' a, alookup ids p = some a → alookup ids p' = some a →
      p = p') :
    ∀ fuel (u : Node K) (q : Path), heightN u ≤ fuel → subAt r q = some u →
      build (recsMap (emit ids nextOf r [])) fuel (idOf ids q) = some u := by
  have hnodup : ((emit ids nextOf r []).map Prod.fst).Nodup :=
    emit_nodup r ids nextOf hTot hInj (nodeSize r) r le_rfl [] (subAt_nil r)
  have hlook : ∀ (q : Path) (u : Node K), subAt r q = some u →
      alookup (recsMap (emit ids nextOf r [])) (idOf ids q) =
        some (recOfNode ids nextOf q u) := by
    intro q u hq
    rw [recsMap_lookup_nodup _ hnodup]
    apply alookup_of_mem_nodup _ hnodup
    have hmem := emit_mem ids nextOf (nodeSize r) r le_rfl [] q u hq
    rw [List.nil_append] at hmem
    exact hmem
  intro fuel
  induction fuel with
  | zero =>
    intro u q hh
    have := heightN_pos u
    omega
  | succ fuel ih =>
    intro u q hh hq
    cases u with
    | leaf ks vs =>
      simp only [build]
      rw [hlook q _ hq, recOfNode]
    | internal ks cs =>
      simp only [build]
      rw [hlook q _ hq, recOfNode]
      have hfm : (childIdsOf ids q cs.length).filterMap
          (fun c => build (recsMap (emit ids nextOf r [])) fuel c) = cs := by
        rw [childIdsOf, List.filterMap_map]
        apply range_filterMap_eq (.leaf [] [])
        intro i hi
        have hsub := subAt_child r q ks cs hq i hi
        have hht : heightN (cs.getD i (.leaf [] [])) ≤ fuel := by
          have h1 := heightKids_ge (cs.getD i (.leaf [] [])) cs
            (getD_mem_of_lt cs i (.leaf [] []) hi)
          rw [heightN] at hh
          omega
        show build (recsMap (emit ids nextOf r [])) fuel
            (idOf ids (q ++ [i])) = some (cs.getD i (.leaf [] []))
        exact ih (cs.getD i (.leaf [] [])) (q ++ [i]) hht hsub
      show some (Node.internal ks ((childIdsOf ids q cs.length).filterMap
          (fun c => build (recsMap (emit ids nextOf r [])) fuel c))) =
        some (Node.internal ks cs)
      rw [hfm]

end BuildCorrect

section C5Theorem

variable {K : Type} [LinearOrder K]

/-- A concrete snapshot-round-trip input: a two-leaf tree over `Nat`. -/
def c5tree : Tree Nat :=
  { order := 3,
    root := some (.internal [3] [.leaf [1, 2] [10, 20], .leaf [3, 4] [30, 40]]) }

/-- C5: serializing any well-formed tree state and deserializing it from the
same files reproduces the state exactly, so `find` and `range_find` on the
reloaded tree agree with the original everywhere. -/
theorem C5_serialize_roundtrip (keyTag : Nat) (t t0 : Tree K)
    (hw : wfT t = true) :
    deserializeT keyTag t0 (some (serializeT keyTag t)) = (none, t) ∧
    (∀ k, findT (deserializeT keyTag t0 (some (serializeT keyTag t))).2 k =
      findT t k) ∧
    (∀ lo hi, range_find
      (deserializeT keyTag t0 (some (serializeT keyTag t))).2 lo hi =
      range_find t lo hi) := by
  have hmain : deserializeT keyTag t0 (some (serializeT keyTag t)) =
      (none, t) := by
    obtain ⟨ord, root⟩ := t
    cases root with
    | none => simp [serializeT, deserializeT]
    | some r =>
      have hwr : wfB none none r = true := by simpa [wfT] using hw
      have hleaf := headPath_leaf (nodeSize r) r le_rfl none none hwr
      obtain ⟨hTot, hInj⟩ := assignIds_good r hleaf
      have hheight : heightN r ≤
          (emit (assignIds r)
            (fun p => (succIn (leafPaths r) p).map (idOf (assignIds r)))
            r []).length + 1 :=
        le_trans (emit_height (assignIds r) _ (nodeSize r) r le_rfl [])
          (Nat.le_succ _)
      have hb := build_correct r (assignIds r)
        (fun p => (succIn (leafPaths r) p).map (idOf (assignIds r)))
        hTot hInj
        ((emit (assignIds r)
          (fun p => (succIn (leafPaths r) p).map (idOf (assignIds r)))
          r []).length + 1)
        r [] hheight (subAt_nil r)
      simp only [serializeT, deserializeT]
      rw [if_neg (by simp)]
      rw [hb]
  refine ⟨hmain, fun k => by rw [hmain], fun lo hi => by rw [hmain]⟩

theorem C5_serialize_roundtrip_witness :
    wfT c5tree = true ∧
    (deserializeT 0 { order := 1, root := none } (some (serializeT 0 c5tree)) =
        (none, c5tree) ∧
      (∀ k, findT (deserializeT 0 { order := 1, root := none }
        (some (serializeT 0 c5tree))).2 k = findT c5tree k) ∧
      (∀ lo hi, range_find (deserializeT 0 { order := 1, root := none }
        (some (serializeT 0 c5tree))).2 lo hi = range_find c5tree lo hi)) :=
  ⟨by decide,
    C5_serialize_roundtrip 0 c5tree { order := 1, root := none } (by decide)⟩

end C5Theorem
end BPT
